import Mathlib

/-!
Lexical-Analyzer: the NFA of `src/src/NFA.cpp`, the rule index of
`grammar_array.h` and the argument check of `LL1_parser.cpp`

Shallow embedding.

* `State` is `std::string`, modelled by `String`; `char` is modelled by `Char`
  and the terminator `'\0'` by `NUL`.
* `std::set<State>` is modelled by a duplicate-free `List State`
  (`set_insert` refuses an element that is already there).  Every loop of the
  source that walks a set only inserts into other sets or maps, so the order in
  which a set is walked is not observable in any result below.
* `std::map<pair<State, char>, set<State>>` is modelled by an association list;
  `map_insert` is `std::map::insert` (an existing key keeps its value) and
  `map_find` is `std::map::find`.
* The `while` loop of `e_closure` carries an iteration bound; the bound that
  `e_closure` passes is proved sufficient (`e_closure_loop_fuel_enough`), and
  `mem_e_closure` shows that the result is the full epsilon closure.
* `e_closure_trace` is the same loop with its iterations recorded; it returns
  `none` when the iterations granted run out, and is proved to end.
* `Transition`, `EpsStep`, `Path`, `Accepts` and `EpsCycle` are the reference
  side of the acceptance claims: they read the entries of the transition map
  (`map_find N.transitions`), never the methods `next_states`, `e_closure` or
  `compute`, whose results are compared with them.
* `Regex` and `Regex.build` model the regex AST and the node-by-node use of the
  combinators; `Regex.h` is not among the sources.
* The two maps of `Bimap` are association lists with `map_assign` for
  `operator[]` assignment and `map_at` for `at`; an `int` index is an `Int`,
  and `size()` converts the size of the map to a 32-bit `int` (`to_int`).
  The non-const `operator[]` overloads return the `Bimap` afterwards next to
  the value (`map_subscript` inserts a value-initialised entry on a miss).
-/

namespace LexicalAnalyzer

/-! ## Definitions -/

/-- State identifiers are strings (`typedef std::string State`). -/
abbrev State := String

/-- The character `'\0'`: end of a C string and label of the epsilon
transitions. -/
def NUL : Char := Char.ofNat 0

/-- The transition map `map<pair<State, char>, set<State>>`. -/
abbrev TransitionMap := List ((State × Char) × List State)

/-- The class `NFA`: its four data members. -/
structure NFA where
  states : List State
  initial_state : State
  transitions : TransitionMap
  accepting_states : List State
deriving DecidableEq, Repr

namespace NFA

/-- Insertion into a `std::set`: nothing happens when the element is there. -/
def set_insert (x : State) (s : List State) : List State :=
  if x ∈ s then s else s ++ [x]

/-- Range insertion `dst.insert(src.begin(), src.end())`. -/
def set_insert_range (dst src : List State) : List State :=
  src.foldl (fun acc x => set_insert x acc) dst

/-- Lookup `std::map::find`: the value stored under the key, if any. -/
def map_find : TransitionMap → State × Char → Option (List State)
  | [], _ => none
  | (k, v) :: m, key => if k = key then some v else map_find m key

/-- Insertion `std::map::insert`: a key that is already present keeps its old
value and the new pair is dropped. -/
def map_insert (m : TransitionMap) (key : State × Char) (v : List State) :
    TransitionMap :=
  match map_find m key with
  | some _ => m
  | none => m ++ [(key, v)]

/-- Method `NFA::next_states(state, symbol)`; the symbol defaults to `'\0'` at
the call in `e_closure`. -/
def next_states (N : NFA) (state : State) (symbol : Char) : List State :=
  match map_find N.transitions (state, symbol) with
  | some second => second
  | none => []

/-- The `for` loop of `e_closure(const State&)`: every element that is not yet
in `closure_set` is inserted there and pushed on the stack.  The pair is
`(closure_set, aux_states_stack)`, the head of the stack list is its top. -/
def e_closure_for : List State → List State → List State → List State × List State
  | closure_set, stack, [] => (closure_set, stack)
  | closure_set, stack, element :: rest =>
    if element ∈ closure_set then e_closure_for closure_set stack rest
    else e_closure_for (set_insert element closure_set) (element :: stack) rest

/-- The `while` loop of `e_closure(const State&)`.  The loop ends when the
stack is empty; the first argument bounds the number of iterations of the
model (`e_closure_fuel` is always enough, see `e_closure_loop_fuel_enough`). -/
def e_closure_loop (N : NFA) : Nat → List State → List State → List State
  | _, [], closure_set => closure_set
  | 0, _ :: _, closure_set => closure_set
  | fuel + 1, check_state :: stack, closure_set =>
    let closure_set1 :=
      if check_state ∈ closure_set then closure_set else set_insert check_state closure_set
    let state_set := next_states N check_state NUL
    let r := e_closure_for closure_set1 stack state_set
    e_closure_loop N fuel r.2 r.1

/-- All targets of the epsilon transitions of the map, with repetitions. -/
def eps_targets : TransitionMap → List State
  | [] => []
  | (k, v) :: m => if k.2 = NUL then v ++ eps_targets m else eps_targets m

/-- Number of iterations granted to the `while` loop of `e_closure`: every
state is pushed at most once, and a pushed state is the start state or a
target of an epsilon transition. -/
def e_closure_fuel (N : NFA) : Nat := (eps_targets N.transitions).length + 2

/-- Method `NFA::e_closure(const State&)`. -/
def e_closure (N : NFA) (state : State) : List State :=
  e_closure_loop N (e_closure_fuel N) [state] []

/-- Method `NFA::e_closure(const set<State>&)`. -/
def e_closure_set (N : NFA) (states_set : List State) : List State :=
  states_set.foldl (fun result state => set_insert_range result (e_closure N state)) []

/-- Method `NFA::compute`.  The list is the buffer `string` points into, up to
(and without) the terminator that `strcpy` wrote; reading `'\0'` anywhere ends
the scan. -/
def compute (N : NFA) : List State → List Char → List State
  | states_set, [] => e_closure_set N states_set
  | states_set, c :: rest =>
    if c = NUL then e_closure_set N states_set
    else
      let result := states_set.foldl (fun result state =>
        (e_closure N state).foldl (fun result s =>
          set_insert_range result (next_states N s c)) result) []
      compute N result rest

/-- What `strcpy(c_str, str.c_str())` copies: the characters before the first
`'\0'` of the string. -/
def c_str (str : String) : List Char := str.data.takeWhile (fun c => c ≠ NUL)

/-- The call `set_intersection(a, b)` on two sets. -/
def set_intersection (a b : List State) : List State := a.filter (fun x => x ∈ b)

/-- Method `NFA::accept`. -/
def accept (N : NFA) (str : String) : Bool :=
  let configuration := set_insert N.initial_state []
  let result := compute N configuration (c_str str)
  let intersection := set_intersection result N.accepting_states
  !intersection.isEmpty

/-- Static method `NFA::simpleNFA`. -/
def simpleNFA (c : Char) : NFA :=
  let t := set_insert "1" []
  let states := set_insert "1" (set_insert "0" [])
  let transitions := map_insert [] ("0", c) t
  let accepting_states := set_insert "1" []
  { states := states, initial_state := "0", transitions := transitions,
    accepting_states := accepting_states }

/-- Static method `NFA::getNewStatesName(states, prefix)`. -/
def getNewStatesName (states : List State) (pfx : String) : List State :=
  states.foldl (fun newSates state => set_insert (pfx ++ state) newSates) []

/-- The two loops of `nfa_concat` and `nfa_union` that copy a transition map
with every state renamed by `pfx`. -/
def rename_transitions (new_transitions : TransitionMap) (pfx : String) :
    TransitionMap → TransitionMap
  | [] => new_transitions
  | (k, v) :: m =>
    rename_transitions
      (map_insert new_transitions (pfx ++ k.1, k.2) (getNewStatesName v pfx)) pfx m

/-- The loops `for (state : accepting_states) insert((pfx + state, '\0'), to_)`
of `nfa_concat` and `nfa_union`. -/
def link_accepting (new_transitions : TransitionMap) (pfx : String) (to_ : List State) :
    List State → TransitionMap
  | [] => new_transitions
  | state :: rest =>
    link_accepting (map_insert new_transitions (pfx ++ state, NUL) to_) pfx to_ rest

/-- Method `NFA::nfa_concat`: `L.nfa_concat(R)`. -/
def nfa_concat (L R : NFA) : NFA :=
  let modified_states1 := getNewStatesName L.states "p"
  let modified_states2 := getNewStatesName R.states "q"
  let new_states := set_insert_range (set_insert_range [] modified_states1) modified_states2
  let new_initial_state := "p" ++ L.initial_state
  let new_accepting_states := getNewStatesName R.accepting_states "q"
  let new_transitions := rename_transitions [] "p" L.transitions
  let new_transitions := rename_transitions new_transitions "q" R.transitions
  let thompson_concat := set_insert ("q" ++ R.initial_state) []
  let new_transitions := link_accepting new_transitions "p" thompson_concat L.accepting_states
  { states := new_states, initial_state := new_initial_state,
    transitions := new_transitions, accepting_states := new_accepting_states }

/-- Method `NFA::nfa_union`: `L.nfa_union(R)`. -/
def nfa_union (L R : NFA) : NFA :=
  let modified_states1 := getNewStatesName L.states "p"
  let modified_states2 := getNewStatesName R.states "q"
  let new_states := set_insert_range (set_insert_range [] modified_states1) modified_states2
  let new_initial_state := "i" ++ L.initial_state ++ R.initial_state
  let new_final_state := "f" ++ L.initial_state ++ R.initial_state
  let new_accepting_states := set_insert new_final_state []
  let new_states := set_insert new_final_state (set_insert new_initial_state new_states)
  let new_transitions := rename_transitions [] "p" L.transitions
  let new_transitions := rename_transitions new_transitions "q" R.transitions
  let s_thompson_concat :=
    set_insert ("q" ++ R.initial_state) (set_insert ("p" ++ L.initial_state) [])
  let new_transitions := map_insert new_transitions (new_initial_state, NUL) s_thompson_concat
  let f_thompson_concat := set_insert new_final_state []
  let new_transitions := link_accepting new_transitions "p" f_thompson_concat L.accepting_states
  let new_transitions := link_accepting new_transitions "q" f_thompson_concat R.accepting_states
  { states := new_states, initial_state := new_initial_state,
    transitions := new_transitions, accepting_states := new_accepting_states }

/-- Method `NFA::addTransition`. -/
def addTransition (N : NFA) (from_ : State) (to_ : List State) (symbol : Char) : NFA :=
  { N with transitions := map_insert N.transitions (from_, symbol) to_ }

/-- The loop `for (state : accepting_states) nfa.addTransition(state, to, '\0')`
of `kleene_closure` and `plus_closure`. -/
def addTransitions (nfa : NFA) (to_ : List State) : List State → NFA
  | [] => nfa
  | state :: rest => addTransitions (addTransition nfa state to_ NUL) to_ rest

/-- Method `NFA::kleene_closure`. -/
def kleene_closure (X : NFA) : NFA :=
  let new_initial_state := "p_i" ++ X.initial_state
  let new_final_state := "p_f" ++ X.initial_state
  let new_states := set_insert new_final_state (set_insert new_initial_state X.states)
  let new_accepting_states := set_insert new_final_state []
  let nfa : NFA := { states := new_states, initial_state := new_initial_state,
                     transitions := X.transitions, accepting_states := new_accepting_states }
  let initial_trans_state := set_insert X.initial_state new_accepting_states
  let nfa := addTransition nfa new_initial_state initial_trans_state NUL
  let old_initial_state := set_insert new_final_state (set_insert X.initial_state [])
  addTransitions nfa old_initial_state X.accepting_states

/-- Method `NFA::plus_closure`. -/
def plus_closure (X : NFA) : NFA :=
  let new_initial_state := "p_i" ++ X.initial_state
  let new_final_state := "p_f" ++ X.initial_state
  let new_states := set_insert new_final_state (set_insert new_initial_state X.states)
  let new_accepting_states := set_insert new_final_state []
  let nfa : NFA := { states := new_states, initial_state := new_initial_state,
                     transitions := X.transitions, accepting_states := new_accepting_states }
  let initial_trans_state := set_insert X.initial_state []
  let nfa := addTransition nfa new_initial_state initial_trans_state NUL
  let old_initial_state := set_insert new_final_state (set_insert X.initial_state [])
  addTransitions nfa old_initial_state X.accepting_states

/-- The alternation `(0|1|2|3|4|5|6|7|8|9)`: one `simpleNFA` per digit, one
`nfa_union` per bar, nested to the left. -/
def digit_nfa : NFA :=
  nfa_union (nfa_union (nfa_union (nfa_union (nfa_union (nfa_union (nfa_union (nfa_union
    (nfa_union (simpleNFA '0') (simpleNFA '1')) (simpleNFA '2')) (simpleNFA '3'))
    (simpleNFA '4')) (simpleNFA '5')) (simpleNFA '6')) (simpleNFA '7')) (simpleNFA '8'))
    (simpleNFA '9')

/-- The NFA of the regular expression `(0|1|2|3|4|5|6|7|8|9).-.(0|1|2|3|4|5|6|7|8|9)`
of `main.cpp`: one `nfa_concat` per dot, nested to the left. -/
def digit_dash_digit : NFA :=
  nfa_concat (nfa_concat digit_nfa (simpleNFA '-')) digit_nfa

/-- The transition map of `N` has an entry under the key `(s, c)`, and `t` is
in the target set stored there. -/
def Transition (N : NFA) (s : State) (c : Char) (t : State) : Prop :=
  ∃ targets, map_find N.transitions (s, c) = some targets ∧ t ∈ targets

/-- One epsilon transition of `N` leads from `s` to `t`: the map has an entry
keyed on `(s, '\0')` with `t` among its targets. -/
def EpsStep (N : NFA) (s t : State) : Prop := Transition N s NUL t

/-- Zero or more epsilon transitions of `N` lead from `s` to `t`. -/
def EpsReach (N : NFA) (s t : State) : Prop := Relation.ReflTransGen (EpsStep N) s t

/-- A run of `N` from `s` to `t` that reads the word `w`, along entries of the
transition map of `N`: any number of epsilon transitions (entries keyed on
`'\0'`) before, between and after the transitions on the characters of `w`
(`'\0'` is the epsilon label and is never read as a character). -/
inductive Path (N : NFA) : State → List Char → State → Prop
  | refl (s : State) : Path N s [] s
  | eps {s t u : State} {w : List Char} :
      EpsStep N s t → Path N t w u → Path N s w u
  | sym {s t u : State} {c : Char} {w : List Char} :
      c ≠ NUL → Transition N s c t → Path N t w u → Path N s (c :: w) u

/-- The word `w` is accepted: some run from the initial state that reads `w`
ends in an accepting state. -/
def Accepts (N : NFA) (w : List Char) : Prop :=
  ∃ f, f ∈ N.accepting_states ∧ Path N N.initial_state w f

/-- The pairs that the renaming loop of `nfa_concat` and `nfa_union` tries to
insert, in order. -/
def rename_map (pfx : String) (m : TransitionMap) : TransitionMap :=
  m.map (fun kv => ((pfx ++ kv.1.1, kv.1.2), getNewStatesName kv.2 pfx))

/-- The pairs that a loop over accepting states tries to insert, in order. -/
def link_map (pfx : String) (to_ : List State) (l : List State) : TransitionMap :=
  l.map (fun state => ((pfx ++ state, NUL), to_))

/-- Zero or more words of the language `P`, one after the other. -/
inductive StarL (P : List Char → Prop) : List Char → Prop
  | nil : StarL P []
  | cons {u v : List Char} : P u → StarL P v → StarL P (u ++ v)

/-- The pairs that the `addTransition` loop of `kleene_closure` and
`plus_closure` tries to insert, in order. -/
def loop_map (to_ : List State) (l : List State) : TransitionMap :=
  l.map (fun state => ((state, NUL), to_))

/-- Well-formedness: the initial state, the accepting states, and the source
and the targets of every transition are states of the automaton. -/
def WellFormed (X : NFA) : Prop :=
  X.initial_state ∈ X.states ∧
  (∀ f ∈ X.accepting_states, f ∈ X.states) ∧
  (∀ kv ∈ X.transitions, kv.1.1 ∈ X.states ∧ ∀ t ∈ kv.2, t ∈ X.states)

instance (X : NFA) : Decidable (WellFormed X) := by
  unfold WellFormed
  infer_instance

/-- What the Thompson construction keeps true of every automaton it builds:
well-formedness, no transition out of an accepting state, and two facts about
state names that keep the names `"p_i" + initial` and `"p_f" + initial` of
`kleene_closure` and `plus_closure` fresh. -/
structure ThompsonInv (X : NFA) : Prop where
  wf : WellFormed X
  acc_dead : ∀ kv ∈ X.transitions, kv.1.1 ∉ X.accepting_states
  no_underscore : ∀ s ∈ X.states, ∀ r : String, s ≠ "_" ++ r
  star_names : ∀ s ∈ X.states, ∀ r : String, s = "p_" ++ r →
    s.length ≤ X.initial_state.length

/-- The transition map of `kleene_closure` and `plus_closure`; `its` is the
target set of the new initial state. -/
def closure_map (X : NFA) (its : List State) : TransitionMap :=
  X.transitions ++ ([(("p_i" ++ X.initial_state, NUL), its)] ++
    loop_map (set_insert ("p_f" ++ X.initial_state) (set_insert X.initial_state []))
      X.accepting_states)

/-- The automata that the Thompson construction builds: `simpleNFA(c)` for a
character `c` other than `'\0'`, closed under the four combinators. -/
inductive ThompsonBuilt : NFA → Prop
  | simple (c : Char) : c ≠ NUL → ThompsonBuilt (simpleNFA c)
  | concat {L R : NFA} : ThompsonBuilt L → ThompsonBuilt R → ThompsonBuilt (nfa_concat L R)
  | union {L R : NFA} : ThompsonBuilt L → ThompsonBuilt R → ThompsonBuilt (nfa_union L R)
  | kleene {X : NFA} : ThompsonBuilt X → ThompsonBuilt (kleene_closure X)
  | plus {X : NFA} : ThompsonBuilt X → ThompsonBuilt (plus_closure X)

/-- A string without the character `'\0'`. -/
def NulFree (w : String) : Prop := ∀ c ∈ w.data, c ≠ NUL

instance (w : String) : Decidable (NulFree w) := by
  unfold NulFree
  infer_instance

/-- The ten digit characters. -/
def digits : List Char := ['0', '1', '2', '3', '4', '5', '6', '7', '8', '9']

end NFA

/-- A grammar rule `pair<string, vector<string>>`: left-hand side and
right-hand side. -/
abbrev Rule := String × List String

/-- The conversion of a container size to `int` (32 bits, two's complement). -/
def to_int (n : Nat) : Int := ((n : Int) + 2 ^ 31) % 2 ^ 32 - 2 ^ 31

/-- Lookup in a `std::map` (`find` / `at`): the value stored under the key, if
any. -/
def map_at {κ ν : Type} [DecidableEq κ] : List (κ × ν) → κ → Option ν
  | [], _ => none
  | (k, v) :: m, key => if k = key then some v else map_at m key

/-- Assignment `m[key] = v` on a `std::map`: the value of an existing key is
overwritten, a new key is added. -/
def map_assign {κ ν : Type} [DecidableEq κ] : List (κ × ν) → κ → ν → List (κ × ν)
  | [], key, v => [(key, v)]
  | (k, w) :: m, key, v => if k = key then (k, v) :: m else (k, w) :: map_assign m key v

/-- The struct `GrammarArray::Bimap`. -/
structure Bimap where
  index_getter : List (Rule × Int)
  rule_getter : List (Int × Rule)
deriving DecidableEq, Repr

namespace Bimap

/-- A freshly constructed `Bimap`: both maps empty. -/
def empty : Bimap := { index_getter := [], rule_getter := [] }

/-- Method `insert(rule_input, index)`. -/
def insert (b : Bimap) (rule_input : Rule) (index : Int) : Bimap :=
  { index_getter := map_assign b.index_getter rule_input index,
    rule_getter := map_assign b.rule_getter index rule_input }

/-- Method `insert(index, rule_input)`, the overload with the arguments
swapped. -/
def insert_index (b : Bimap) (index : Int) (rule_input : Rule) : Bimap :=
  { index_getter := map_assign b.index_getter rule_input index,
    rule_getter := map_assign b.rule_getter index rule_input }

/-- Method `size()`. -/
def size (b : Bimap) : Int := to_int b.rule_getter.length

/-- The const `operator[](int)`: `rule_getter.at(index)`, which throws on a
missing index (`none`). -/
def at_index (b : Bimap) (index : Int) : Option Rule := map_at b.rule_getter index

/-- The const `operator[](rule)`: `index_getter.at(rule)`, which throws on a
missing rule (`none`). -/
def at_rule (b : Bimap) (rule : Rule) : Option Int := map_at b.index_getter rule

/-- Disciplined use: the rules are inserted one after the other, each with
`insert(rule, size())`. -/
def insert_all (b : Bimap) : List Rule → Bimap
  | [] => b
  | r :: rs => insert_all (b.insert r b.size) rs

/-- One call of `insert`: the overload (`true` for `insert(rule, index)`,
`false` for `insert(index, rule)`), the rule and the index. -/
abbrev Call := Bool × Rule × Int

/-- An arbitrary sequence of `insert` calls. -/
def run (b : Bimap) : List Call → Bimap
  | [] => b
  | (true, r, i) :: cs => run (b.insert r i) cs
  | (false, r, i) :: cs => run (b.insert_index i r) cs

end Bimap

/-- The error kinds of `compiler::error` that `main` uses. -/
inductive Error
  | InvalidCommandLineArgs
deriving DecidableEq, Repr

/-- How a run of `main` ends, as far as the argument check decides it. -/
inductive Outcome
  /-- The usage text was printed and `main` returned the exit code. -/
  | usage (exit_code : Int)
  /-- `AbortTranslation` was called with the error. -/
  | aborted (e : Error)
  /-- The arguments passed the check and the pipeline ran with the flag. -/
  | pipeline (verbose : Bool)
deriving DecidableEq, Repr

/-- Modelled from the spec: `AbortTranslation` is not among the sources.  The
error-handling section of the specification makes every error kind fatal to
the invocation: a diagnostic is printed and the process exits nonzero, so the
call does not come back to `main`. -/
def AbortTranslation (e : Error) : Outcome := Outcome.aborted e

/-- The function `main` of `LL1_parser.cpp`, up to the start of the pipeline. -/
def main (argc : Int) (argv : List String) : Outcome :=
  if argc < 2 then Outcome.usage 0
  else if argc < 3 then AbortTranslation Error.InvalidCommandLineArgs
  else if argc < 4 then AbortTranslation Error.InvalidCommandLineArgs
  else
    let verbose :=
      decide (argc > 4) && (decide (argv.getD 4 "" = "-v") || decide (argv.getD 4 "" = "-V"))
    Outcome.pipeline verbose

namespace Bimap

/-- The position of the first occurrence of a rule in a list (the length of
the list when the rule does not occur). -/
def position (r : Rule) : List Rule → Nat
  | [] => 0
  | x :: xs => if x = r then 0 else position r xs + 1

/-- The state of the index after the rules of the list `pre` were inserted, in
order, each with `insert(rule, size())`. -/
def Holds (b : Bimap) (pre : List Rule) : Prop :=
  b.rule_getter.length = pre.length ∧
  (∀ i : Int, b.at_index i = if 0 ≤ i then pre[i.toNat]? else none) ∧
  (∀ r : Rule, b.at_rule r = if r ∈ pre then some (position r pre : Int) else none)

/-- The two maps are mutually inverse, equally long, and no rule is a key
twice. -/
def Consistent (b : Bimap) : Prop :=
  (∀ i r, b.at_index i = some r ↔ b.at_rule r = some i) ∧
  b.rule_getter.length = b.index_getter.length ∧
  (b.index_getter.map Prod.fst).Nodup

end Bimap

namespace NFA

/-- The `while` loop of `e_closure(const State&)` with its iterations recorded:
`none` when the iterations granted are used up before the stack is empty,
otherwise the closure set and the states popped from the stack, one per
iteration, in order. -/
def e_closure_trace (N : NFA) : Nat → List State → List State →
    Option (List State × List State)
  | _, [], closure_set => some (closure_set, [])
  | 0, _ :: _, _ => none
  | fuel + 1, check_state :: stack, closure_set =>
    let closure_set1 :=
      if check_state ∈ closure_set then closure_set else set_insert check_state closure_set
    let state_set := next_states N check_state NUL
    let r := e_closure_for closure_set1 stack state_set
    match e_closure_trace N fuel r.2 r.1 with
    | none => none
    | some (result, popped) => some (result, check_state :: popped)

/-- The `else` branch of `compute`: the states reached from the set by epsilon
transitions followed by one transition on the character. -/
def compute_step (N : NFA) (states_set : List State) (c : Char) : List State :=
  states_set.foldl (fun result state =>
    (e_closure N state).foldl (fun result s =>
      set_insert_range result (next_states N s c)) result) []

/-- The automaton has an epsilon cycle: some state reaches itself by one or
more epsilon transitions. -/
def EpsCycle (N : NFA) : Prop := ∃ s, Relation.TransGen (EpsStep N) s s

end NFA

namespace NFA

/-- An automaton whose accepting state has an epsilon transition of its own:
the one state `"0"`, initial and accepting, with the epsilon transition from
`"0"` to `"0"`. -/
def eps_loop_nfa : NFA :=
  { states := ["0"], initial_state := "0", transitions := [(("0", NUL), ["0"])],
    accepting_states := ["0"] }

/-- An automaton with a state named like the new initial state of its own
closure: the states `"a"` (initial and accepting) and `"p_ia"`, no
transition. -/
def collision_nfa : NFA :=
  { states := ["a", "p_ia"], initial_state := "a", transitions := [],
    accepting_states := ["a"] }

/-- A well-formed automaton, not built by the Thompson construction, that
accepts the empty string: epsilon transitions from `"a"` (initial) to `"b"`
(accepting) and from `"b"` to `"c"`. -/
def eps_chain_nfa : NFA :=
  { states := ["a", "b", "c"], initial_state := "a",
    transitions := [(("a", NUL), ["b"]), (("b", NUL), ["c"])],
    accepting_states := ["b"] }

end NFA

namespace NFA

/-- The value of `new_transitions` in `nfa_concat` and in `nfa_union` after the
two renaming loops, before any epsilon transition is added. -/
def renamed_transitions (L R : NFA) : TransitionMap :=
  rename_transitions (rename_transitions [] "p" L.transitions) "q" R.transitions

/-- The value of `new_transitions` in `nfa_union` after the epsilon transition
of the new initial state is added, before the loops over the accepting
states. -/
def union_before_links (L R : NFA) : TransitionMap :=
  map_insert (renamed_transitions L R) ("i" ++ L.initial_state ++ R.initial_state, NUL)
    (set_insert ("q" ++ R.initial_state) (set_insert ("p" ++ L.initial_state) []))

/-- The transition map of the result of `kleene_closure` (`its` is
`{"p_f" + initial, initial}`) and of `plus_closure` (`its` is `{initial}`) after
`addTransition` on the new initial state, before the loop over the accepting
states. -/
def closure_before_links (X : NFA) (its : List State) : TransitionMap :=
  map_insert X.transitions ("p_i" ++ X.initial_state, NUL) its

end NFA

/-- Modelled from the spec: the regex AST of the data model (`Regex.h` and
`Regex::compile` are not among the sources), with the cases `Literal`,
`Concat`, `Alt`, `Star` and `Plus`. -/
inductive Regex
  | Literal (c : Char)
  | Concat (L R : Regex)
  | Alt (L R : Regex)
  | Star (X : Regex)
  | Plus (X : Regex)
deriving DecidableEq, Repr

namespace Regex

/-- Modelled from the spec: the Thompson construction over the AST, one
combinator of `NFA.cpp` per node: `simpleNFA` for `Literal`, `nfa_concat` for
`Concat`, `nfa_union` for `Alt`, `kleene_closure` for `Star` and `plus_closure`
for `Plus`. -/
def build : Regex → NFA
  | Literal c => NFA.simpleNFA c
  | Concat L R => NFA.nfa_concat (build L) (build R)
  | Alt L R => NFA.nfa_union (build L) (build R)
  | Star X => NFA.kleene_closure (build X)
  | Plus X => NFA.plus_closure (build X)

/-- The number of `Literal`, `Alt`, `Star` and `Plus` nodes of the AST. -/
def nodes : Regex → Nat
  | Literal _ => 1
  | Concat L R => nodes L + nodes R
  | Alt L R => nodes L + nodes R + 1
  | Star X => nodes X + 1
  | Plus X => nodes X + 1

end Regex

/-- Subscript `m[key]` on a non-const `std::map`, read only: a missing key is
inserted with the value-initialised value `dflt` of the mapped type.  The
result is the map afterwards and the value the returned reference points
to. -/
def map_subscript {κ ν : Type} [DecidableEq κ] (m : List (κ × ν)) (key : κ) (dflt : ν) :
    List (κ × ν) × ν :=
  match map_at m key with
  | some v => (m, v)
  | none => (m ++ [(key, dflt)], dflt)

namespace Bimap

/-- The non-const `operator[](int index)`: `return rule_getter[index]`.  The
result is the `Bimap` afterwards and the rule returned; a default-constructed
rule has an empty left-hand side and an empty right-hand side. -/
def subscript_index (b : Bimap) (index : Int) : Bimap × Rule :=
  let r := map_subscript b.rule_getter index ("", [])
  ({ b with rule_getter := r.1 }, r.2)

/-- The non-const `operator[](rule)`: `return index_getter[rule]`.  The result
is the `Bimap` afterwards and the index returned; a value-initialised `int` is
0. -/
def subscript_rule (b : Bimap) (rule : Rule) : Bimap × Int :=
  let r := map_subscript b.index_getter rule 0
  ({ b with index_getter := r.1 }, r.2)

/-- A `Bimap` with one rule stored under the index 0. -/
def one_rule : Bimap := insert_all empty [("S", ["a", "S"])]

end Bimap

/-! ## Sets and maps -/

namespace NFA

theorem mem_set_insert {x y : State} {s : List State} :
    y ∈ set_insert x s ↔ y = x ∨ y ∈ s := by
  unfold set_insert
  split
  · constructor
    · intro h; exact Or.inr h
    · rintro (h | h)
      · subst h; assumption
      · exact h
  · simp [or_comm]

theorem nodup_set_insert {x : State} {s : List State} (h : s.Nodup) :
    (set_insert x s).Nodup := by
  unfold set_insert
  split
  · exact h
  · rename_i hx
    exact List.nodup_append.2 ⟨h, List.nodup_singleton x, by
      intro a ha hb
      simp at hb
      subst hb
      exact absurd ha hx⟩

theorem length_set_insert_ge (x : State) (s : List State) :
    s.length ≤ (set_insert x s).length := by
  unfold set_insert
  split <;> simp

theorem mem_set_insert_range {y : State} {dst src : List State} :
    y ∈ set_insert_range dst src ↔ y ∈ dst ∨ y ∈ src := by
  unfold set_insert_range
  induction src generalizing dst with
  | nil => simp
  | cons a src ih =>
    simp only [List.foldl_cons, ih, mem_set_insert, List.mem_cons]
    tauto

theorem nodup_set_insert_range {dst src : List State} (h : dst.Nodup) :
    (set_insert_range dst src).Nodup := by
  unfold set_insert_range
  induction src generalizing dst with
  | nil => simpa using h
  | cons a src ih =>
    simp only [List.foldl_cons]
    exact ih (nodup_set_insert h)

theorem map_find_append (m₁ m₂ : TransitionMap) (key : State × Char) :
    map_find (m₁ ++ m₂) key =
      match map_find m₁ key with
      | some v => some v
      | none => map_find m₂ key := by
  induction m₁ with
  | nil => simp [map_find]
  | cons a m ih =>
    obtain ⟨k, v⟩ := a
    simp only [List.cons_append, map_find]
    split
    · rfl
    · exact ih

theorem map_find_map_insert (m : TransitionMap) (k key : State × Char) (v : List State) :
    map_find (map_insert m k v) key =
      match map_find m key with
      | some w => some w
      | none => if k = key then some v else none := by
  unfold map_insert
  cases hk : map_find m k with
  | some w =>
    simp only
    cases hkey : map_find m key with
    | some u => rfl
    | none =>
      simp only
      have : k ≠ key := by
        intro h; subst h; rw [hk] at hkey; cases hkey
      simp [this]
  | none =>
    simp only [map_find_append, map_find]

end NFA

/-! ## The epsilon closure -/

namespace NFA

theorem e_closure_for_spec (es : List State) : ∀ (cl st : List State),
    (∀ x, x ∈ (e_closure_for cl st es).1 ↔ x ∈ cl ∨ x ∈ es) ∧
    (∀ x, x ∈ (e_closure_for cl st es).2 → x ∈ st ∨ x ∈ es) ∧
    (∀ x, x ∈ st → x ∈ (e_closure_for cl st es).2) ∧
    (∀ x, x ∈ (e_closure_for cl st es).1 → x ∈ cl ∨ x ∈ (e_closure_for cl st es).2) ∧
    ((e_closure_for cl st es).2.length + cl.length
      = st.length + (e_closure_for cl st es).1.length) ∧
    (cl.Nodup → (e_closure_for cl st es).1.Nodup) := by
  induction es with
  | nil =>
    intro cl st
    refine ⟨?_, ?_, ?_, ?_, ?_, ?_⟩ <;> simp [e_closure_for]
    intro x hx
    exact Or.inl hx
  | cons e es ih =>
    intro cl st
    by_cases he : e ∈ cl
    · have h := ih cl st
      simp only [e_closure_for, he, if_true]
      obtain ⟨h1, h2, h3, h4, h5, h6⟩ := h
      refine ⟨?_, ?_, h3, h4, h5, h6⟩
      · intro x
        rw [h1 x]
        constructor
        · rintro (h | h)
          · exact Or.inl h
          · exact Or.inr (List.mem_cons_of_mem _ h)
        · rintro (h | h)
          · exact Or.inl h
          · rcases List.mem_cons.1 h with h | h
            · subst h; exact Or.inl he
            · exact Or.inr h
      · intro x hx
        rcases h2 x hx with h | h
        · exact Or.inl h
        · exact Or.inr (List.mem_cons_of_mem _ h)
    · have h := ih (set_insert e cl) (e :: st)
      simp only [e_closure_for, he, if_false]
      obtain ⟨h1, h2, h3, h4, h5, h6⟩ := h
      have hlen : (set_insert e cl).length = cl.length + 1 := by
        simp [set_insert, he]
      refine ⟨?_, ?_, ?_, ?_, ?_, ?_⟩
      · intro x
        rw [h1 x, mem_set_insert, List.mem_cons]
        tauto
      · intro x hx
        rcases h2 x hx with h | h
        · rcases List.mem_cons.1 h with h | h
          · subst h; exact Or.inr (List.mem_cons_self _ _)
          · exact Or.inl h
        · exact Or.inr (List.mem_cons_of_mem _ h)
      · intro x hx
        exact h3 x (List.mem_cons_of_mem _ hx)
      · intro x hx
        rcases h4 x hx with h | h
        · rcases mem_set_insert.1 h with h | h
          · subst h; exact Or.inr (h3 x (List.mem_cons_self _ _))
          · exact Or.inl h
        · exact Or.inr h
      · rw [hlen] at h5
        simp only [List.length_cons] at h5
        omega
      · intro hnd
        exact h6 (nodup_set_insert hnd)

theorem e_closure_pop_eq (c : State) (cl : List State) :
    (if c ∈ cl then cl else set_insert c cl) = set_insert c cl := by
  unfold set_insert
  split <;> rfl

theorem mem_eps_targets {m : TransitionMap} {x y : State} {v : List State}
    (h : map_find m (x, NUL) = some v) (hy : y ∈ v) : y ∈ eps_targets m := by
  induction m with
  | nil => simp [map_find] at h
  | cons a m ih =>
    obtain ⟨k, w⟩ := a
    simp only [map_find] at h
    simp only [eps_targets]
    by_cases hk : k = (x, NUL)
    · rw [if_pos hk] at h
      have h2 : k.2 = NUL := by rw [hk]
      rw [if_pos h2]
      cases h
      exact List.mem_append_left _ hy
    · rw [if_neg hk] at h
      split
      · exact List.mem_append_right _ (ih h)
      · exact ih h

theorem mem_next_states {N : NFA} {s x : State} {c : Char} :
    x ∈ next_states N s c ↔ ∃ v, map_find N.transitions (s, c) = some v ∧ x ∈ v := by
  unfold next_states
  cases map_find N.transitions (s, c) with
  | none => simp
  | some v => simp

theorem next_states_eq_nil {N : NFA} {s : State} {c : Char}
    (h : map_find N.transitions (s, c) = none) : next_states N s c = [] := by
  unfold next_states
  rw [h]

/-- What `next_states` returns is a transition of the map. -/
theorem step_of_mem {N : NFA} {s t : State} {c : Char} (h : t ∈ next_states N s c) :
    Transition N s c t :=
  mem_next_states.1 h

/-- A transition of the map is returned by `next_states`. -/
theorem mem_of_step {N : NFA} {s t : State} {c : Char} (h : Transition N s c t) :
    t ∈ next_states N s c :=
  mem_next_states.2 h

theorem epsStep_iff {N : NFA} {s t : State} :
    EpsStep N s t ↔ ∃ v, map_find N.transitions (s, NUL) = some v ∧ t ∈ v :=
  Iff.rfl

theorem epsStep_mem_eps_targets {N : NFA} {x y : State} (h : EpsStep N x y) :
    y ∈ eps_targets N.transitions := by
  obtain ⟨v, hf, hv⟩ := h
  exact mem_eps_targets hf hv

/-- Soundness of the `while` loop: whatever it returns was in the closure set
already or is reachable by epsilon transitions from a state on the stack. -/
theorem e_closure_loop_sound (N : NFA) : ∀ (fuel : Nat) (stack cl : List State) (x : State),
    x ∈ e_closure_loop N fuel stack cl → x ∈ cl ∨ ∃ s, s ∈ stack ∧ EpsReach N s x := by
  intro fuel
  induction fuel with
  | zero =>
    intro stack cl x hx
    cases stack with
    | nil => simp only [e_closure_loop] at hx; exact Or.inl hx
    | cons c stack => simp only [e_closure_loop] at hx; exact Or.inl hx
  | succ fuel ih =>
    intro stack cl x hx
    cases stack with
    | nil => simp only [e_closure_loop] at hx; exact Or.inl hx
    | cons c stack =>
      simp only [e_closure_loop, e_closure_pop_eq] at hx
      obtain ⟨h1, h2, -, -, -, -⟩ :=
        e_closure_for_spec (next_states N c NUL) (set_insert c cl) stack
      rcases ih _ _ x hx with h | ⟨s, hs, hsx⟩
      · rcases (h1 x).1 h with h | h
        · rcases mem_set_insert.1 h with h | h
          · subst h
            exact Or.inr ⟨x, List.mem_cons_self _ _, Relation.ReflTransGen.refl⟩
          · exact Or.inl h
        · exact Or.inr ⟨c, List.mem_cons_self _ _, Relation.ReflTransGen.single (step_of_mem h)⟩
      · rcases h2 s hs with h | h
        · exact Or.inr ⟨s, List.mem_cons_of_mem _ h, hsx⟩
        · exact Or.inr ⟨c, List.mem_cons_self _ _, Relation.ReflTransGen.head (step_of_mem h) hsx⟩

/-- Completeness of the `while` loop under a sufficient iteration bound: the
result contains the closure set and the stack and is closed under epsilon
transitions.  `U` is any list closed under epsilon transitions that holds the
stack and the closure set; the bound is `stack.length + U.length ≤ fuel +
cl.length`, so the loop always leaves through its empty-stack exit. -/
theorem e_closure_loop_complete (N : NFA) (U : List State)
    (hU : ∀ x, x ∈ U → ∀ y, EpsStep N x y → y ∈ U) :
    ∀ (fuel : Nat) (stack cl : List State),
      cl.Nodup → (∀ x, x ∈ cl → x ∈ U) → (∀ x, x ∈ stack → x ∈ U) →
      stack.length + U.length ≤ fuel + cl.length →
      (∀ x, x ∈ cl → x ∈ stack ∨ ∀ y, EpsStep N x y → y ∈ cl) →
      (∀ x, x ∈ cl → x ∈ e_closure_loop N fuel stack cl) ∧
      (∀ x, x ∈ stack → x ∈ e_closure_loop N fuel stack cl) ∧
      (∀ x, x ∈ e_closure_loop N fuel stack cl →
        ∀ y, EpsStep N x y → y ∈ e_closure_loop N fuel stack cl) := by
  intro fuel
  induction fuel with
  | zero =>
    intro stack cl hnd hcl hst hlen hP
    cases stack with
    | nil =>
      simp only [e_closure_loop, List.not_mem_nil, false_imp_iff, implies_true, true_and]
      refine ⟨fun x hx => hx, ?_⟩
      intro x hx
      rcases hP x hx with h | h
      · cases h
      · exact h
    | cons c stack =>
      exfalso
      have := (List.subperm_of_subset hnd hcl).length_le
      simp only [List.length_cons] at hlen
      omega
  | succ fuel ih =>
    intro stack cl hnd hcl hst hlen hP
    cases stack with
    | nil =>
      simp only [e_closure_loop, List.not_mem_nil, false_imp_iff, implies_true, true_and]
      refine ⟨fun x hx => hx, ?_⟩
      intro x hx
      rcases hP x hx with h | h
      · cases h
      · exact h
    | cons c stack =>
      simp only [e_closure_loop, e_closure_pop_eq]
      obtain ⟨h1, h2, h3, h4, h5, h6⟩ :=
        e_closure_for_spec (next_states N c NUL) (set_insert c cl) stack
      have hcU : c ∈ U := hst c (List.mem_cons_self _ _)
      have hsucc : ∀ y, y ∈ next_states N c NUL → y ∈ U := fun y hy => hU c hcU y (step_of_mem hy)
      have hge := length_set_insert_ge c cl
      simp only [List.length_cons] at hlen
      have key := ih (e_closure_for (set_insert c cl) stack (next_states N c NUL)).2
        (e_closure_for (set_insert c cl) stack (next_states N c NUL)).1
        (h6 (nodup_set_insert hnd))
        (by
          intro x hx
          rcases (h1 x).1 hx with h | h
          · rcases mem_set_insert.1 h with h | h
            · subst h; exact hcU
            · exact hcl x h
          · exact hsucc x h)
        (by
          intro x hx
          rcases h2 x hx with h | h
          · exact hst x (List.mem_cons_of_mem _ h)
          · exact hsucc x h)
        (by omega)
        (by
          intro x hx
          rcases h4 x hx with h | h
          · rcases mem_set_insert.1 h with h | h
            · subst h
              exact Or.inr (fun y hy => (h1 y).2 (Or.inr (mem_of_step hy)))
            · rcases hP x h with h' | h'
              · rcases List.mem_cons.1 h' with h'' | h''
                · subst h''
                  exact Or.inr (fun y hy => (h1 y).2 (Or.inr (mem_of_step hy)))
                · exact Or.inl (h3 x h'')
              · exact Or.inr (fun y hy => (h1 y).2 (Or.inl (mem_set_insert.2 (Or.inr (h' y hy)))))
          · exact Or.inl h)
      obtain ⟨k1, k2, k3⟩ := key
      refine ⟨?_, ?_, k3⟩
      · intro x hx
        exact k1 x ((h1 x).2 (Or.inl (mem_set_insert.2 (Or.inr hx))))
      · intro x hx
        rcases List.mem_cons.1 hx with h | h
        · subst h
          exact k1 x ((h1 x).2 (Or.inl (mem_set_insert.2 (Or.inl rfl))))
        · exact k2 x (h3 x h)

/-- The list in which the `while` loop of `e_closure` lives: the start state
and the targets of the epsilon transitions. -/
theorem e_closure_universe_closed (N : NFA) (s : State) :
    ∀ x, x ∈ s :: eps_targets N.transitions → ∀ y, EpsStep N x y →
      y ∈ s :: eps_targets N.transitions :=
  fun _ _ _ hy => List.mem_cons_of_mem _ (epsStep_mem_eps_targets hy)

/-- The result of `e_closure(s)` is exactly the set of the states reachable
from `s` by epsilon transitions. -/
theorem mem_e_closure {N : NFA} {s x : State} : x ∈ e_closure N s ↔ EpsReach N s x := by
  constructor
  · intro hx
    rcases e_closure_loop_sound N _ _ _ x hx with h | ⟨t, ht, htx⟩
    · cases h
    · simp only [List.mem_singleton] at ht
      subst ht
      exact htx
  · intro hx
    obtain ⟨-, k2, k3⟩ := e_closure_loop_complete N (s :: eps_targets N.transitions)
      (e_closure_universe_closed N s) (e_closure_fuel N) [s] [] List.nodup_nil
      (fun x hx => by cases hx)
      (fun x hx => by simp only [List.mem_singleton] at hx; subst hx; exact List.mem_cons_self _ _)
      (by simp only [e_closure_fuel, List.length_cons, List.length_nil]; omega)
      (fun x hx => by cases hx)
    unfold EpsReach at hx
    induction hx with
    | refl => exact k2 s (List.mem_singleton_self s)
    | tail _ hstep ih => exact k3 _ ih _ hstep

end NFA

/-! ## Runs of the automaton -/

namespace NFA

theorem Path.append {N : NFA} {s t u : State} {w₁ w₂ : List Char}
    (h₁ : Path N s w₁ t) (h₂ : Path N t w₂ u) : Path N s (w₁ ++ w₂) u := by
  induction h₁ with
  | refl s => simpa using h₂
  | eps hst _ ih => exact Path.eps hst (ih h₂)
  | sym hc hst _ ih => exact Path.sym hc hst (ih h₂)

theorem Path.of_epsReach {N : NFA} {s t : State} (h : EpsReach N s t) : Path N s [] t := by
  unfold EpsReach at h
  induction h using Relation.ReflTransGen.head_induction_on with
  | refl => exact Path.refl _
  | head hstep _ ih => exact Path.eps hstep ih

theorem Path.nil_inv {N : NFA} {s t : State} {w : List Char} (h : Path N s w t)
    (hw : w = []) : EpsReach N s t := by
  induction h with
  | refl s => exact Relation.ReflTransGen.refl
  | eps hst _ ih => exact Relation.ReflTransGen.head hst (ih hw)
  | sym _ _ _ _ => cases hw

theorem Path.cons_inv {N : NFA} {s u : State} {w0 : List Char} (h : Path N s w0 u) :
    ∀ (c : Char) (w : List Char), w0 = c :: w →
      ∃ t r, EpsReach N s t ∧ c ≠ NUL ∧ r ∈ next_states N t c ∧ Path N r w u := by
  induction h with
  | refl s => intro c w hw; cases hw
  | eps hst _ ih =>
    intro c w hw
    obtain ⟨t, r, h1, h2, h3, h4⟩ := ih c w hw
    exact ⟨t, r, Relation.ReflTransGen.head hst h1, h2, h3, h4⟩
  | @sym s t u d w1 hc hst hp _ =>
    intro c w hw
    cases hw
    exact ⟨s, t, Relation.ReflTransGen.refl, hc, mem_of_step hst, hp⟩

theorem Path.of_cons {N : NFA} {s t r u : State} {c : Char} {w : List Char}
    (h1 : EpsReach N s t) (hc : c ≠ NUL) (h3 : r ∈ next_states N t c) (h4 : Path N r w u) :
    Path N s (c :: w) u := by
  have := Path.append (Path.of_epsReach h1) (Path.sym hc (step_of_mem h3) h4)
  simpa using this

/-- Membership in the result of a loop that only inserts into a set. -/
theorem mem_foldl_insert {α : Type} (step : List State → α → List State)
    (P : α → State → Prop)
    (hstep : ∀ r a x, x ∈ step r a ↔ x ∈ r ∨ P a x) :
    ∀ (l : List α) (init : List State) (x : State),
      x ∈ l.foldl step init ↔ x ∈ init ∨ ∃ a, a ∈ l ∧ P a x := by
  intro l
  induction l with
  | nil => intro init x; simp
  | cons a l ih =>
    intro init x
    simp only [List.foldl_cons, ih, hstep, List.mem_cons]
    constructor
    · rintro ((h | h) | ⟨b, hb, h⟩)
      · exact Or.inl h
      · exact Or.inr ⟨a, Or.inl rfl, h⟩
      · exact Or.inr ⟨b, Or.inr hb, h⟩
    · rintro (h | ⟨b, hb | hb, h⟩)
      · exact Or.inl (Or.inl h)
      · subst hb; exact Or.inl (Or.inr h)
      · exact Or.inr ⟨b, hb, h⟩

theorem mem_e_closure_set {N : NFA} {S : List State} {x : State} :
    x ∈ e_closure_set N S ↔ ∃ s, s ∈ S ∧ EpsReach N s x := by
  unfold e_closure_set
  rw [mem_foldl_insert (fun result state => set_insert_range result (e_closure N state))
    (fun s x => EpsReach N s x)
    (by intro r a x; rw [mem_set_insert_range, mem_e_closure])]
  simp

theorem mem_compute_step {N : NFA} {S : List State} {c : Char} {x : State} :
    x ∈ S.foldl (fun result state =>
        (e_closure N state).foldl (fun result s =>
          set_insert_range result (next_states N s c)) result) []
      ↔ ∃ s, s ∈ S ∧ ∃ t, EpsReach N s t ∧ x ∈ next_states N t c := by
  rw [mem_foldl_insert (fun result state =>
        (e_closure N state).foldl (fun result s =>
          set_insert_range result (next_states N s c)) result)
    (fun s x => ∃ t, EpsReach N s t ∧ x ∈ next_states N t c)
    (by
      intro r a x
      rw [mem_foldl_insert (fun result s => set_insert_range result (next_states N s c))
        (fun t x => x ∈ next_states N t c)
        (by intro r a x; rw [mem_set_insert_range])]
      simp only [mem_e_closure])]
  simp

/-- The result of `compute` on a buffer without `'\0'`: the states reached from
a state of the start set by a run that reads the whole buffer. -/
theorem mem_compute {N : NFA} : ∀ (w : List Char), (∀ c, c ∈ w → c ≠ NUL) →
    ∀ (S : List State) (x : State),
      x ∈ compute N S w ↔ ∃ s, s ∈ S ∧ Path N s w x := by
  intro w
  induction w with
  | nil =>
    intro _ S x
    simp only [compute, mem_e_closure_set]
    constructor
    · rintro ⟨s, hs, h⟩; exact ⟨s, hs, Path.of_epsReach h⟩
    · rintro ⟨s, hs, h⟩; exact ⟨s, hs, Path.nil_inv h rfl⟩
  | cons c w ih =>
    intro hw S x
    have hc : c ≠ NUL := hw c (List.mem_cons_self _ _)
    have hw2 : ∀ d, d ∈ w → d ≠ NUL := fun d hd => hw d (List.mem_cons_of_mem _ hd)
    simp only [compute, if_neg hc]
    rw [ih hw2]
    constructor
    · rintro ⟨r, hr, hp⟩
      obtain ⟨s, hs, t, hst, hrt⟩ := mem_compute_step.1 hr
      exact ⟨s, hs, Path.of_cons hst hc hrt hp⟩
    · rintro ⟨s, hs, hp⟩
      obtain ⟨t, r, h1, -, h3, h4⟩ := Path.cons_inv hp c w rfl
      exact ⟨r, mem_compute_step.2 ⟨s, hs, t, h1, h3⟩, h4⟩

theorem c_str_no_NUL (str : String) : ∀ c, c ∈ c_str str → c ≠ NUL := by
  intro c hc
  have := List.mem_takeWhile_imp hc
  simpa using this

theorem c_str_eq_data {str : String} (h : ∀ c, c ∈ str.data → c ≠ NUL) :
    c_str str = str.data := by
  unfold c_str
  rw [List.takeWhile_eq_self_iff]
  intro c hc
  simpa using h c hc

/-- The method `accept` returns true exactly when the part of the string that
`strcpy` copies is accepted. -/
theorem accept_iff {N : NFA} {str : String} :
    accept N str = true ↔ Accepts N (c_str str) := by
  have hmem : ∀ x, x ∈ compute N (set_insert N.initial_state []) (c_str str) ↔
      Path N N.initial_state (c_str str) x := by
    intro x
    rw [mem_compute (c_str str) (c_str_no_NUL str)]
    simp [set_insert]
  unfold accept Accepts set_intersection
  cases hres : List.filter (fun x => decide (x ∈ N.accepting_states))
      (compute N (set_insert N.initial_state []) (c_str str)) with
  | nil =>
    show (!(List.filter (fun x => decide (x ∈ N.accepting_states))
      (compute N (set_insert N.initial_state []) (c_str str))).isEmpty) = true ↔ _
    rw [hres]
    simp only [List.isEmpty_nil, Bool.not_true, Bool.false_eq_true, false_iff]
    rintro ⟨f, hf, hp⟩
    have : f ∈ List.filter (fun x => decide (x ∈ N.accepting_states))
        (compute N (set_insert N.initial_state []) (c_str str)) := by
      rw [List.mem_filter]
      exact ⟨(hmem f).2 hp, by simpa using hf⟩
    rw [hres] at this
    cases this
  | cons f l =>
    show (!(List.filter (fun x => decide (x ∈ N.accepting_states))
      (compute N (set_insert N.initial_state []) (c_str str))).isEmpty) = true ↔ _
    rw [hres]
    simp only [List.isEmpty_cons, Bool.not_false, true_iff]
    have : f ∈ List.filter (fun x => decide (x ∈ N.accepting_states))
        (compute N (set_insert N.initial_state []) (c_str str)) := by
      rw [hres]; exact List.mem_cons_self _ _
    rw [List.mem_filter] at this
    exact ⟨f, by simpa using this.2, (hmem f).1 this.1⟩

end NFA

/-! ## The transition maps built by the combinators -/

namespace NFA

theorem map_find_map_insert_eq_append (m : TransitionMap) (k key : State × Char)
    (v : List State) : map_find (map_insert m k v) key = map_find (m ++ [(k, v)]) key := by
  rw [map_find_map_insert, map_find_append]
  cases map_find m key with
  | some w => rfl
  | none => simp only [map_find]

theorem map_find_append_congr {m₁ m₂ : TransitionMap} (m : TransitionMap) {key : State × Char}
    (h : map_find m₁ key = map_find m₂ key) : map_find (m₁ ++ m) key = map_find (m₂ ++ m) key := by
  rw [map_find_append, map_find_append, h]

theorem map_find_rename_transitions (pfx : String) (m : TransitionMap) :
    ∀ (acc : TransitionMap) (key : State × Char),
      map_find (rename_transitions acc pfx m) key = map_find (acc ++ rename_map pfx m) key := by
  induction m with
  | nil => intro acc key; simp [rename_transitions, rename_map]
  | cons a m ih =>
    intro acc key
    obtain ⟨k, v⟩ := a
    simp only [rename_transitions]
    rw [ih]
    have := map_find_append_congr (rename_map pfx m)
      (map_find_map_insert_eq_append acc (pfx ++ k.1, k.2) key (getNewStatesName v pfx))
    rw [this]
    simp [rename_map]

theorem map_find_link_accepting (pfx : String) (to_ : List State) (l : List State) :
    ∀ (acc : TransitionMap) (key : State × Char),
      map_find (link_accepting acc pfx to_ l) key = map_find (acc ++ link_map pfx to_ l) key := by
  induction l with
  | nil => intro acc key; simp [link_accepting, link_map]
  | cons a l ih =>
    intro acc key
    simp only [link_accepting]
    rw [ih]
    have := map_find_append_congr (link_map pfx to_ l)
      (map_find_map_insert_eq_append acc (pfx ++ a, NUL) key to_)
    rw [this]
    simp [link_map]

theorem append_left_cancel {pfx a b : String} (h : pfx ++ a = pfx ++ b) : a = b := by
  have := congrArg String.data h
  simp only [String.data_append] at this
  exact String.ext (List.append_cancel_left this)

theorem map_find_rename_map (pfx : String) (m : TransitionMap) (s : State) (c : Char) :
    map_find (rename_map pfx m) (pfx ++ s, c) =
      (map_find m (s, c)).map (fun v => getNewStatesName v pfx) := by
  induction m with
  | nil => simp [rename_map, map_find]
  | cons a m ih =>
    obtain ⟨⟨k1, k2⟩, v⟩ := a
    simp only [rename_map, List.map_cons, map_find] at ih ⊢
    by_cases hk : (k1, k2) = (s, c)
    · have hk1 : k1 = s := (Prod.mk.inj hk).1
      have hk2 : k2 = c := (Prod.mk.inj hk).2
      subst hk1 hk2
      simp
    · have : (pfx ++ k1, k2) ≠ (pfx ++ s, c) := by
        intro h
        apply hk
        have h1 := (Prod.mk.inj h).1
        have h2 := (Prod.mk.inj h).2
        rw [append_left_cancel h1, h2]
      rw [if_neg this, if_neg hk]
      exact ih

theorem map_find_rename_map_none (pfx : String) (m : TransitionMap) (x : State) (c : Char)
    (hx : ∀ a, pfx ++ a ≠ x) : map_find (rename_map pfx m) (x, c) = none := by
  induction m with
  | nil => simp [rename_map, map_find]
  | cons a m ih =>
    obtain ⟨⟨k1, k2⟩, v⟩ := a
    simp only [rename_map, List.map_cons, map_find] at ih ⊢
    have : (pfx ++ k1, k2) ≠ (x, c) := fun h => hx k1 (Prod.mk.inj h).1
    rw [if_neg this]
    exact ih

theorem map_find_link_map (pfx : String) (to_ : List State) (l : List State) (s : State)
    (c : Char) :
    map_find (link_map pfx to_ l) (pfx ++ s, c) =
      if c = NUL ∧ s ∈ l then some to_ else none := by
  induction l with
  | nil => simp [link_map, map_find]
  | cons a l ih =>
    simp only [link_map, List.map_cons, map_find] at ih ⊢
    by_cases hk : (pfx ++ a, NUL) = (pfx ++ s, c)
    · have h1 := append_left_cancel (Prod.mk.inj hk).1
      have h2 := (Prod.mk.inj hk).2
      subst h1 h2
      simp
    · rw [if_neg hk, ih]
      by_cases hc : c = NUL
      · have hne : a ≠ s := by
          intro h; apply hk; rw [h, hc]
        by_cases hs : s ∈ l
        · simp [hc, hs]
        · have : ¬ s = a := fun h => hne h.symm
          simp [hc, hs, this]
      · simp [hc]

theorem map_find_link_map_none (pfx : String) (to_ : List State) (l : List State) (x : State)
    (c : Char) (hx : ∀ a, pfx ++ a ≠ x) : map_find (link_map pfx to_ l) (x, c) = none := by
  induction l with
  | nil => simp [link_map, map_find]
  | cons a l ih =>
    simp only [link_map, List.map_cons, map_find] at ih ⊢
    have : (pfx ++ a, NUL) ≠ (x, c) := fun h => hx a (Prod.mk.inj h).1
    rw [if_neg this]
    exact ih

theorem mem_getNewStatesName {states : List State} {pfx : String} {x : State} :
    x ∈ getNewStatesName states pfx ↔ ∃ s, s ∈ states ∧ x = pfx ++ s := by
  unfold getNewStatesName
  rw [mem_foldl_insert (fun newSates state => set_insert (pfx ++ state) newSates)
    (fun s x => x = pfx ++ s)
    (by intro r a x; rw [mem_set_insert]; tauto)]
  simp

theorem p_ne_q (a b : String) : "p" ++ a ≠ "q" ++ b := by
  intro h
  have := congrArg String.data h
  simp [String.data_append] at this

theorem q_ne_p (a b : String) : "q" ++ a ≠ "p" ++ b := fun h => p_ne_q b a h.symm

end NFA

/-! ## Runs through an embedded automaton -/

namespace NFA

/-- A map of states that carries every transition of `N` to a transition of
`M` carries the runs of `N` to runs of `M`. -/
theorem Path.map {N M : NFA} (f : State → State)
    (hf : ∀ s c t, t ∈ next_states N s c → f t ∈ next_states M (f s) c)
    {s t : State} {w : List Char} (h : Path N s w t) : Path M (f s) w (f t) := by
  induction h with
  | refl s => exact Path.refl _
  | eps hst _ ih => exact Path.eps (step_of_mem (hf _ _ _ (mem_of_step hst))) ih
  | sym hc hst _ ih => exact Path.sym hc (step_of_mem (hf _ _ _ (mem_of_step hst))) ih

/-- A run of `M` that starts inside the copy `f` of `N`, when every transition
of `M` out of the copy is the copy of a transition of `N` or an epsilon
transition from the copy of a state of `E` to a state of `Exit`: the run stays
in the copy, or it follows a run of `N` to a state of `E`, leaves through an
epsilon transition and goes on from a state of `Exit`. -/
theorem Path.embed_inv {N M : NFA} (f : State → State) (E Exit : List State)
    (hstep : ∀ s c x, x ∈ next_states M (f s) c →
      (∃ t, t ∈ next_states N s c ∧ x = f t) ∨ (c = NUL ∧ s ∈ E ∧ x ∈ Exit))
    {x y : State} {w : List Char} (h : Path M x w y) :
    ∀ s, x = f s →
      (∃ t, y = f t ∧ Path N s w t) ∨
      (∃ u v e z, w = u ++ v ∧ e ∈ E ∧ Path N s u e ∧ z ∈ Exit ∧ Path M z v y) := by
  induction h with
  | refl x => intro s hs; exact Or.inl ⟨s, hs, Path.refl _⟩
  | @eps x z y w hxz hzy ih =>
    intro s hs
    subst hs
    rcases hstep s NUL z (mem_of_step hxz) with ⟨t, ht, hzt⟩ | ⟨-, hsE, hzE⟩
    · rcases ih t hzt with ⟨t2, hy, hp⟩ | ⟨u, v, e, z2, hw, he, hp, hz2, hrest⟩
      · exact Or.inl ⟨t2, hy, Path.eps (step_of_mem ht) hp⟩
      · exact Or.inr ⟨u, v, e, z2, hw, he, Path.eps (step_of_mem ht) hp, hz2, hrest⟩
    · exact Or.inr ⟨[], w, s, z, rfl, hsE, Path.refl _, hzE, hzy⟩
  | @sym x z y c w hc hxz hzy ih =>
    intro s hs
    subst hs
    rcases hstep s c z (mem_of_step hxz) with ⟨t, ht, hzt⟩ | ⟨hc2, -, -⟩
    · rcases ih t hzt with ⟨t2, hy, hp⟩ | ⟨u, v, e, z2, hw, he, hp, hz2, hrest⟩
      · exact Or.inl ⟨t2, hy, Path.sym hc (step_of_mem ht) hp⟩
      · refine Or.inr ⟨c :: u, v, e, z2, ?_, he, Path.sym hc (step_of_mem ht) hp, hz2, hrest⟩
        rw [hw]; rfl
    · exact absurd hc2 hc

/-- A state without outgoing transitions ends every run that reaches it. -/
theorem Path.dead {N : NFA} {x y : State} {w : List Char}
    (hx : ∀ c, next_states N x c = []) (h : Path N x w y) : w = [] ∧ y = x := by
  cases h with
  | refl => exact ⟨rfl, rfl⟩
  | eps hst _ => have h1 := mem_of_step hst; rw [hx] at h1; cases h1
  | sym _ hst _ => have h1 := mem_of_step hst; rw [hx] at h1; cases h1

end NFA

/-! ## Concatenation -/

namespace NFA

theorem concat_initial (L R : NFA) :
    (nfa_concat L R).initial_state = "p" ++ L.initial_state := rfl

theorem concat_accepting (L R : NFA) :
    (nfa_concat L R).accepting_states = getNewStatesName R.accepting_states "q" := rfl

theorem concat_map_find (L R : NFA) (key : State × Char) :
    map_find (nfa_concat L R).transitions key =
      map_find (rename_map "p" L.transitions ++ (rename_map "q" R.transitions ++
        link_map "p" (set_insert ("q" ++ R.initial_state) []) L.accepting_states)) key := by
  unfold nfa_concat
  simp only
  rw [map_find_link_accepting, map_find_append, map_find_rename_transitions, map_find_append,
    map_find_rename_transitions, List.nil_append]
  rw [map_find_append, map_find_append]
  cases map_find (rename_map "p" L.transitions) key <;> rfl

theorem concat_map_find_p (L R : NFA) (s : State) (c : Char) :
    map_find (nfa_concat L R).transitions ("p" ++ s, c) =
      match map_find L.transitions (s, c) with
      | some v => some (getNewStatesName v "p")
      | none =>
        if c = NUL ∧ s ∈ L.accepting_states then some (set_insert ("q" ++ R.initial_state) [])
        else none := by
  rw [concat_map_find, map_find_append, map_find_rename_map, map_find_append,
    map_find_rename_map_none "q" _ _ _ (fun a => q_ne_p a s), map_find_link_map]
  cases map_find L.transitions (s, c) <;> rfl

theorem concat_map_find_q (L R : NFA) (s : State) (c : Char) :
    map_find (nfa_concat L R).transitions ("q" ++ s, c) =
      (map_find R.transitions (s, c)).map (fun v => getNewStatesName v "q") := by
  rw [concat_map_find, map_find_append,
    map_find_rename_map_none "p" _ _ _ (fun a => p_ne_q a s), map_find_append,
    map_find_rename_map, map_find_link_map_none "p" _ _ _ _ (fun a => p_ne_q a s)]
  cases map_find R.transitions (s, c) <;> rfl

theorem concat_next_p_inv (L R : NFA) (s : State) (c : Char) (x : State)
    (h : x ∈ next_states (nfa_concat L R) ("p" ++ s) c) :
    (∃ t, t ∈ next_states L s c ∧ x = "p" ++ t) ∨
      (c = NUL ∧ s ∈ L.accepting_states ∧ x ∈ ["q" ++ R.initial_state]) := by
  obtain ⟨v, hv, hx⟩ := mem_next_states.1 h
  rw [concat_map_find_p] at hv
  cases hL : map_find L.transitions (s, c) with
  | some u =>
    rw [hL] at hv
    simp only [Option.some.injEq] at hv
    subst hv
    obtain ⟨t, ht, hxt⟩ := mem_getNewStatesName.1 hx
    exact Or.inl ⟨t, mem_next_states.2 ⟨u, hL, ht⟩, hxt⟩
  | none =>
    rw [hL] at hv
    simp only at hv
    split at hv
    · rename_i hcs
      simp only [Option.some.injEq] at hv
      subst hv
      exact Or.inr ⟨hcs.1, hcs.2, by simpa [set_insert] using hx⟩
    · cases hv

theorem concat_next_q_inv (L R : NFA) (s : State) (c : Char) (x : State)
    (h : x ∈ next_states (nfa_concat L R) ("q" ++ s) c) :
    (∃ t, t ∈ next_states R s c ∧ x = "q" ++ t) ∨
      (c = NUL ∧ s ∈ ([] : List State) ∧ x ∈ ([] : List State)) := by
  obtain ⟨v, hv, hx⟩ := mem_next_states.1 h
  rw [concat_map_find_q] at hv
  cases hR : map_find R.transitions (s, c) with
  | some u =>
    rw [hR] at hv
    simp only [Option.map_some', Option.some.injEq] at hv
    subst hv
    obtain ⟨t, ht, hxt⟩ := mem_getNewStatesName.1 hx
    exact Or.inl ⟨t, mem_next_states.2 ⟨u, hR, ht⟩, hxt⟩
  | none =>
    rw [hR] at hv
    cases hv

theorem concat_next_p (L R : NFA) (s : State) (c : Char) (t : State)
    (h : t ∈ next_states L s c) : "p" ++ t ∈ next_states (nfa_concat L R) ("p" ++ s) c := by
  obtain ⟨v, hv, ht⟩ := mem_next_states.1 h
  refine mem_next_states.2 ⟨getNewStatesName v "p", ?_, mem_getNewStatesName.2 ⟨t, ht, rfl⟩⟩
  rw [concat_map_find_p, hv]

theorem concat_next_q (L R : NFA) (s : State) (c : Char) (t : State)
    (h : t ∈ next_states R s c) : "q" ++ t ∈ next_states (nfa_concat L R) ("q" ++ s) c := by
  obtain ⟨v, hv, ht⟩ := mem_next_states.1 h
  refine mem_next_states.2 ⟨getNewStatesName v "q", ?_, mem_getNewStatesName.2 ⟨t, ht, rfl⟩⟩
  rw [concat_map_find_q, hv]
  rfl

theorem concat_bridge (L R : NFA) (f : State) (hf : f ∈ L.accepting_states)
    (hdead : map_find L.transitions (f, NUL) = none) :
    EpsStep (nfa_concat L R) ("p" ++ f) ("q" ++ R.initial_state) := by
  refine epsStep_iff.2 ⟨set_insert ("q" ++ R.initial_state) [], ?_, by simp [set_insert]⟩
  rw [concat_map_find_p, hdead]
  simp [hf]

/-- The language of `L.nfa_concat(R)`, when the accepting states of `L` have no
epsilon transition of their own. -/
theorem accepts_concat (L R : NFA)
    (hdead : ∀ f, f ∈ L.accepting_states → map_find L.transitions (f, NUL) = none)
    (w : List Char) :
    Accepts (nfa_concat L R) w ↔ ∃ u v, w = u ++ v ∧ Accepts L u ∧ Accepts R v := by
  constructor
  · rintro ⟨f, hf, hp⟩
    rw [concat_accepting] at hf
    obtain ⟨g, hg, hfg⟩ := mem_getNewStatesName.1 hf
    subst hfg
    rw [concat_initial] at hp
    rcases Path.embed_inv (fun s => "p" ++ s) L.accepting_states ["q" ++ R.initial_state]
        (concat_next_p_inv L R) hp L.initial_state rfl with
      ⟨t, ht, -⟩ | ⟨u, v, e, z, hw, he, hpe, hz, hrest⟩
    · exact absurd ht (q_ne_p g t)
    · simp only [List.mem_singleton] at hz
      subst hz
      rcases Path.embed_inv (fun s => "q" ++ s) [] [] (concat_next_q_inv L R) hrest
          R.initial_state rfl with
        ⟨t, ht, hpt⟩ | ⟨_, _, _, _, _, he2, _⟩
      · have := append_left_cancel ht
        subst this
        exact ⟨u, v, hw, ⟨e, he, hpe⟩, ⟨g, hg, hpt⟩⟩
      · cases he2
  · rintro ⟨u, v, hw, ⟨f, hf, hpf⟩, ⟨g, hg, hpg⟩⟩
    subst hw
    refine ⟨"q" ++ g, ?_, ?_⟩
    · rw [concat_accepting]
      exact mem_getNewStatesName.2 ⟨g, hg, rfl⟩
    · rw [concat_initial]
      have h1 : Path (nfa_concat L R) ("p" ++ L.initial_state) u ("p" ++ f) :=
        Path.map (fun s => "p" ++ s) (concat_next_p L R) hpf
      have h2 : Path (nfa_concat L R) ("q" ++ R.initial_state) v ("q" ++ g) :=
        Path.map (fun s => "q" ++ s) (concat_next_q L R) hpg
      exact Path.append h1 (Path.eps (concat_bridge L R f hf (hdead f hf)) h2)

end NFA

/-! ## Alternation -/

namespace NFA

theorem p_ne_i (a b c : String) : "p" ++ a ≠ "i" ++ b ++ c := by
  intro h
  have := congrArg String.data h
  simp [String.data_append] at this

theorem q_ne_i (a b c : String) : "q" ++ a ≠ "i" ++ b ++ c := by
  intro h
  have := congrArg String.data h
  simp [String.data_append] at this

theorem p_ne_f (a b c : String) : "p" ++ a ≠ "f" ++ b ++ c := by
  intro h
  have := congrArg String.data h
  simp [String.data_append] at this

theorem q_ne_f (a b c : String) : "q" ++ a ≠ "f" ++ b ++ c := by
  intro h
  have := congrArg String.data h
  simp [String.data_append] at this

theorem i_ne_f (a b c d : String) : "i" ++ a ++ b ≠ "f" ++ c ++ d := by
  intro h
  have := congrArg String.data h
  simp [String.data_append] at this

theorem union_initial (L R : NFA) :
    (nfa_union L R).initial_state = "i" ++ L.initial_state ++ R.initial_state := rfl

theorem union_accepting (L R : NFA) :
    (nfa_union L R).accepting_states =
      set_insert ("f" ++ L.initial_state ++ R.initial_state) [] := rfl

theorem union_map_find (L R : NFA) (key : State × Char) :
    map_find (nfa_union L R).transitions key =
      map_find (rename_map "p" L.transitions ++ (rename_map "q" R.transitions ++
        ([(("i" ++ L.initial_state ++ R.initial_state, NUL),
            set_insert ("q" ++ R.initial_state) (set_insert ("p" ++ L.initial_state) []))] ++
        (link_map "p" (set_insert ("f" ++ L.initial_state ++ R.initial_state) [])
            L.accepting_states ++
          link_map "q" (set_insert ("f" ++ L.initial_state ++ R.initial_state) [])
            R.accepting_states)))) key := by
  unfold nfa_union
  simp only
  rw [map_find_link_accepting, map_find_append, map_find_link_accepting, map_find_append,
    map_find_map_insert_eq_append, map_find_append, map_find_rename_transitions,
    map_find_append, map_find_rename_transitions, List.nil_append]
  rw [map_find_append, map_find_append, map_find_append, map_find_append]
  cases map_find (rename_map "p" L.transitions) key with
  | some v => rfl
  | none =>
    simp only
    cases map_find (rename_map "q" R.transitions) key with
    | some v => rfl
    | none =>
      simp only
      cases map_find [(("i" ++ L.initial_state ++ R.initial_state, NUL),
            set_insert ("q" ++ R.initial_state) (set_insert ("p" ++ L.initial_state) []))] key with
      | some v => rfl
      | none => rfl

theorem union_map_find_p (L R : NFA) (s : State) (c : Char) :
    map_find (nfa_union L R).transitions ("p" ++ s, c) =
      match map_find L.transitions (s, c) with
      | some v => some (getNewStatesName v "p")
      | none =>
        if c = NUL ∧ s ∈ L.accepting_states then
          some (set_insert ("f" ++ L.initial_state ++ R.initial_state) [])
        else none := by
  have hne : ("i" ++ L.initial_state ++ R.initial_state, NUL) ≠ ("p" ++ s, c) :=
    fun h => p_ne_i s _ _ (Prod.mk.inj h).1.symm
  rw [union_map_find, map_find_append, map_find_rename_map, map_find_append,
    map_find_rename_map_none "q" _ _ _ (fun a => q_ne_p a s), map_find_append, map_find_append,
    map_find_link_map, map_find_link_map_none "q" _ _ _ _ (fun a => q_ne_p a s)]
  simp only [map_find, if_neg hne]
  cases map_find L.transitions (s, c) with
  | some v => rfl
  | none =>
    simp only [Option.map_none']
    by_cases h : c = NUL ∧ s ∈ L.accepting_states
    · simp only [if_pos h]
    · simp only [if_neg h]

theorem union_map_find_q (L R : NFA) (s : State) (c : Char) :
    map_find (nfa_union L R).transitions ("q" ++ s, c) =
      match map_find R.transitions (s, c) with
      | some v => some (getNewStatesName v "q")
      | none =>
        if c = NUL ∧ s ∈ R.accepting_states then
          some (set_insert ("f" ++ L.initial_state ++ R.initial_state) [])
        else none := by
  have hne : ("i" ++ L.initial_state ++ R.initial_state, NUL) ≠ ("q" ++ s, c) :=
    fun h => q_ne_i s _ _ (Prod.mk.inj h).1.symm
  rw [union_map_find, map_find_append,
    map_find_rename_map_none "p" _ _ _ (fun a => p_ne_q a s), map_find_append,
    map_find_rename_map, map_find_append, map_find_append,
    map_find_link_map_none "p" _ _ _ _ (fun a => p_ne_q a s), map_find_link_map]
  simp only [map_find, if_neg hne]
  cases map_find R.transitions (s, c) with
  | some v => rfl
  | none => rfl

theorem union_map_find_i (L R : NFA) (c : Char) :
    map_find (nfa_union L R).transitions ("i" ++ L.initial_state ++ R.initial_state, c) =
      if c = NUL then
        some (set_insert ("q" ++ R.initial_state) (set_insert ("p" ++ L.initial_state) []))
      else none := by
  rw [union_map_find, map_find_append,
    map_find_rename_map_none "p" _ _ _ (fun a => p_ne_i a _ _), map_find_append,
    map_find_rename_map_none "q" _ _ _ (fun a => q_ne_i a _ _), map_find_append,
    map_find_append,
    map_find_link_map_none "p" _ _ _ _ (fun a => p_ne_i a _ _),
    map_find_link_map_none "q" _ _ _ _ (fun a => q_ne_i a _ _)]
  simp only [map_find]
  by_cases hc : c = NUL
  · subst hc; simp
  · have : ("i" ++ L.initial_state ++ R.initial_state, NUL) ≠
        ("i" ++ L.initial_state ++ R.initial_state, c) := fun h => hc (Prod.mk.inj h).2.symm
    simp [this, hc]

theorem union_map_find_f (L R : NFA) (c : Char) :
    map_find (nfa_union L R).transitions ("f" ++ L.initial_state ++ R.initial_state, c) =
      none := by
  have hne : ("i" ++ L.initial_state ++ R.initial_state, NUL) ≠
      ("f" ++ L.initial_state ++ R.initial_state, c) :=
    fun h => i_ne_f _ _ _ _ (Prod.mk.inj h).1
  rw [union_map_find, map_find_append,
    map_find_rename_map_none "p" _ _ _ (fun a => p_ne_f a _ _), map_find_append,
    map_find_rename_map_none "q" _ _ _ (fun a => q_ne_f a _ _), map_find_append,
    map_find_append,
    map_find_link_map_none "p" _ _ _ _ (fun a => p_ne_f a _ _),
    map_find_link_map_none "q" _ _ _ _ (fun a => q_ne_f a _ _)]
  simp only [map_find, if_neg hne]

theorem union_next_p_inv (L R : NFA) (s : State) (c : Char) (x : State)
    (h : x ∈ next_states (nfa_union L R) ("p" ++ s) c) :
    (∃ t, t ∈ next_states L s c ∧ x = "p" ++ t) ∨
      (c = NUL ∧ s ∈ L.accepting_states ∧
        x ∈ ["f" ++ L.initial_state ++ R.initial_state]) := by
  obtain ⟨v, hv, hx⟩ := mem_next_states.1 h
  rw [union_map_find_p] at hv
  cases hL : map_find L.transitions (s, c) with
  | some u =>
    rw [hL] at hv
    simp only [Option.some.injEq] at hv
    subst hv
    obtain ⟨t, ht, hxt⟩ := mem_getNewStatesName.1 hx
    exact Or.inl ⟨t, mem_next_states.2 ⟨u, hL, ht⟩, hxt⟩
  | none =>
    rw [hL] at hv
    simp only at hv
    split at hv
    · rename_i hcs
      simp only [Option.some.injEq] at hv
      subst hv
      exact Or.inr ⟨hcs.1, hcs.2, by simpa [set_insert] using hx⟩
    · cases hv

theorem union_next_q_inv (L R : NFA) (s : State) (c : Char) (x : State)
    (h : x ∈ next_states (nfa_union L R) ("q" ++ s) c) :
    (∃ t, t ∈ next_states R s c ∧ x = "q" ++ t) ∨
      (c = NUL ∧ s ∈ R.accepting_states ∧
        x ∈ ["f" ++ L.initial_state ++ R.initial_state]) := by
  obtain ⟨v, hv, hx⟩ := mem_next_states.1 h
  rw [union_map_find_q] at hv
  cases hR : map_find R.transitions (s, c) with
  | some u =>
    rw [hR] at hv
    simp only [Option.some.injEq] at hv
    subst hv
    obtain ⟨t, ht, hxt⟩ := mem_getNewStatesName.1 hx
    exact Or.inl ⟨t, mem_next_states.2 ⟨u, hR, ht⟩, hxt⟩
  | none =>
    rw [hR] at hv
    simp only at hv
    split at hv
    · rename_i hcs
      simp only [Option.some.injEq] at hv
      subst hv
      exact Or.inr ⟨hcs.1, hcs.2, by simpa [set_insert] using hx⟩
    · cases hv

theorem union_next_p (L R : NFA) (s : State) (c : Char) (t : State)
    (h : t ∈ next_states L s c) : "p" ++ t ∈ next_states (nfa_union L R) ("p" ++ s) c := by
  obtain ⟨v, hv, ht⟩ := mem_next_states.1 h
  refine mem_next_states.2 ⟨getNewStatesName v "p", ?_, mem_getNewStatesName.2 ⟨t, ht, rfl⟩⟩
  rw [union_map_find_p, hv]

theorem union_next_q (L R : NFA) (s : State) (c : Char) (t : State)
    (h : t ∈ next_states R s c) : "q" ++ t ∈ next_states (nfa_union L R) ("q" ++ s) c := by
  obtain ⟨v, hv, ht⟩ := mem_next_states.1 h
  refine mem_next_states.2 ⟨getNewStatesName v "q", ?_, mem_getNewStatesName.2 ⟨t, ht, rfl⟩⟩
  rw [union_map_find_q, hv]

theorem union_exit_p (L R : NFA) (f : State) (hf : f ∈ L.accepting_states)
    (hdead : map_find L.transitions (f, NUL) = none) :
    EpsStep (nfa_union L R) ("p" ++ f) ("f" ++ L.initial_state ++ R.initial_state) := by
  refine epsStep_iff.2
    ⟨set_insert ("f" ++ L.initial_state ++ R.initial_state) [], ?_, by simp [set_insert]⟩
  rw [union_map_find_p, hdead]
  simp [hf]

theorem union_exit_q (L R : NFA) (f : State) (hf : f ∈ R.accepting_states)
    (hdead : map_find R.transitions (f, NUL) = none) :
    EpsStep (nfa_union L R) ("q" ++ f) ("f" ++ L.initial_state ++ R.initial_state) := by
  refine epsStep_iff.2
    ⟨set_insert ("f" ++ L.initial_state ++ R.initial_state) [], ?_, by simp [set_insert]⟩
  rw [union_map_find_q, hdead]
  simp [hf]

theorem union_next_i (L R : NFA) (c : Char) (x : State)
    (h : x ∈ next_states (nfa_union L R) ("i" ++ L.initial_state ++ R.initial_state) c) :
    c = NUL ∧ (x = "p" ++ L.initial_state ∨ x = "q" ++ R.initial_state) := by
  obtain ⟨v, hv, hx⟩ := mem_next_states.1 h
  rw [union_map_find_i] at hv
  split at hv
  · rename_i hc
    simp only [Option.some.injEq] at hv
    subst hv
    refine ⟨hc, ?_⟩
    rcases mem_set_insert.1 hx with h | h
    · exact Or.inr h
    · rcases mem_set_insert.1 h with h | h
      · exact Or.inl h
      · cases h
  · cases hv

theorem union_enter_p (L R : NFA) :
    EpsStep (nfa_union L R) ("i" ++ L.initial_state ++ R.initial_state)
      ("p" ++ L.initial_state) := by
  refine epsStep_iff.2
    ⟨set_insert ("q" ++ R.initial_state) (set_insert ("p" ++ L.initial_state) []), ?_,
      mem_set_insert.2 (Or.inr (mem_set_insert.2 (Or.inl rfl)))⟩
  rw [union_map_find_i, if_pos rfl]

theorem union_enter_q (L R : NFA) :
    EpsStep (nfa_union L R) ("i" ++ L.initial_state ++ R.initial_state)
      ("q" ++ R.initial_state) := by
  refine epsStep_iff.2
    ⟨set_insert ("q" ++ R.initial_state) (set_insert ("p" ++ L.initial_state) []), ?_,
      mem_set_insert.2 (Or.inl rfl)⟩
  rw [union_map_find_i, if_pos rfl]

/-- The language of `L.nfa_union(R)`, when the accepting states of `L` and of
`R` have no epsilon transition of their own. -/
theorem accepts_union (L R : NFA)
    (hL : ∀ f, f ∈ L.accepting_states → map_find L.transitions (f, NUL) = none)
    (hR : ∀ f, f ∈ R.accepting_states → map_find R.transitions (f, NUL) = none)
    (w : List Char) :
    Accepts (nfa_union L R) w ↔ Accepts L w ∨ Accepts R w := by
  have hfdead : ∀ c, next_states (nfa_union L R)
      ("f" ++ L.initial_state ++ R.initial_state) c = [] :=
    fun c => next_states_eq_nil (union_map_find_f L R c)
  constructor
  · rintro ⟨f, hf, hp⟩
    rw [union_accepting] at hf
    have hf2 : f = "f" ++ L.initial_state ++ R.initial_state := by
      simpa [set_insert] using hf
    subst hf2
    rw [union_initial] at hp
    have hrest : ∀ z, (z = "p" ++ L.initial_state ∨ z = "q" ++ R.initial_state) →
        Path (nfa_union L R) z w ("f" ++ L.initial_state ++ R.initial_state) →
        Accepts L w ∨ Accepts R w := by
      intro z hz hzp
      rcases hz with hz | hz
      · subst hz
        rcases Path.embed_inv (fun s => "p" ++ s) L.accepting_states
            ["f" ++ L.initial_state ++ R.initial_state]
            (union_next_p_inv L R) hzp L.initial_state rfl with
          ⟨t, ht, -⟩ | ⟨u, v, e, z, hw, he, hpe, hz, hrest⟩
        · exact absurd ht.symm (p_ne_f t _ _)
        · simp only [List.mem_singleton] at hz
          subst hz
          obtain ⟨hv, -⟩ := Path.dead hfdead hrest
          subst hv
          rw [List.append_nil] at hw
          subst hw
          exact Or.inl ⟨e, he, hpe⟩
      · subst hz
        rcases Path.embed_inv (fun s => "q" ++ s) R.accepting_states
            ["f" ++ L.initial_state ++ R.initial_state]
            (union_next_q_inv L R) hzp R.initial_state rfl with
          ⟨t, ht, -⟩ | ⟨u, v, e, z, hw, he, hpe, hz, hrest⟩
        · exact absurd ht.symm (q_ne_f t _ _)
        · simp only [List.mem_singleton] at hz
          subst hz
          obtain ⟨hv, -⟩ := Path.dead hfdead hrest
          subst hv
          rw [List.append_nil] at hw
          subst hw
          exact Or.inr ⟨e, he, hpe⟩
    generalize hx : "i" ++ L.initial_state ++ R.initial_state = x at hp
    generalize hy : "f" ++ L.initial_state ++ R.initial_state = y at hp hrest
    cases hp with
    | refl => exact absurd (hx.trans hy.symm) (i_ne_f _ _ _ _)
    | eps hst hzp =>
      subst hx
      exact hrest _ (union_next_i L R NUL _ (mem_of_step hst)).2 hzp
    | sym hc hst hzp =>
      subst hx
      exact absurd (union_next_i L R _ _ (mem_of_step hst)).1 hc
  · rintro (⟨f, hf, hp⟩ | ⟨f, hf, hp⟩)
    · refine ⟨"f" ++ L.initial_state ++ R.initial_state, ?_, ?_⟩
      · rw [union_accepting]; simp [set_insert]
      · rw [union_initial]
        have h1 : Path (nfa_union L R) ("p" ++ L.initial_state) w ("p" ++ f) :=
          Path.map (fun s => "p" ++ s) (union_next_p L R) hp
        have h2 := Path.append h1
          (Path.eps (union_exit_p L R f hf (hL f hf)) (Path.refl _))
        rw [List.append_nil] at h2
        exact Path.eps (union_enter_p L R) h2
    · refine ⟨"f" ++ L.initial_state ++ R.initial_state, ?_, ?_⟩
      · rw [union_accepting]; simp [set_insert]
      · rw [union_initial]
        have h1 : Path (nfa_union L R) ("q" ++ R.initial_state) w ("q" ++ f) :=
          Path.map (fun s => "q" ++ s) (union_next_q L R) hp
        have h2 := Path.append h1
          (Path.eps (union_exit_q L R f hf (hR f hf)) (Path.refl _))
        rw [List.append_nil] at h2
        exact Path.eps (union_enter_q L R) h2

end NFA

/-! ## Kleene star and plus -/

namespace NFA

theorem addTransitions_initial (to_ : List State) (l : List State) :
    ∀ nfa : NFA, (addTransitions nfa to_ l).initial_state = nfa.initial_state := by
  induction l with
  | nil => intro nfa; rfl
  | cons a l ih => intro nfa; simp only [addTransitions]; rw [ih]; rfl

theorem addTransitions_accepting (to_ : List State) (l : List State) :
    ∀ nfa : NFA, (addTransitions nfa to_ l).accepting_states = nfa.accepting_states := by
  induction l with
  | nil => intro nfa; rfl
  | cons a l ih => intro nfa; simp only [addTransitions]; rw [ih]; rfl

theorem addTransitions_states (to_ : List State) (l : List State) :
    ∀ nfa : NFA, (addTransitions nfa to_ l).states = nfa.states := by
  induction l with
  | nil => intro nfa; rfl
  | cons a l ih => intro nfa; simp only [addTransitions]; rw [ih]; rfl

theorem map_find_addTransitions (to_ : List State) (l : List State) :
    ∀ (nfa : NFA) (key : State × Char),
      map_find (addTransitions nfa to_ l).transitions key =
        map_find (nfa.transitions ++ loop_map to_ l) key := by
  induction l with
  | nil => intro nfa key; simp [addTransitions, loop_map]
  | cons a l ih =>
    intro nfa key
    simp only [addTransitions]
    rw [ih]
    simp only [addTransition]
    have := map_find_append_congr (loop_map to_ l)
      (map_find_map_insert_eq_append nfa.transitions (a, NUL) key to_)
    rw [this]
    simp [loop_map]

theorem map_find_loop_map (to_ : List State) (l : List State) (s : State) (c : Char) :
    map_find (loop_map to_ l) (s, c) = if c = NUL ∧ s ∈ l then some to_ else none := by
  induction l with
  | nil => simp [loop_map, map_find]
  | cons a l ih =>
    simp only [loop_map, List.map_cons, map_find] at ih ⊢
    by_cases hk : (a, NUL) = (s, c)
    · have h1 := (Prod.mk.inj hk).1
      have h2 := (Prod.mk.inj hk).2
      subst h1 h2
      simp
    · rw [if_neg hk, ih]
      by_cases hc : c = NUL
      · have hne : ¬ s = a := by
          intro h; apply hk; rw [h, hc]
        by_cases hs : s ∈ l
        · simp [hc, hs]
        · simp [hc, hs, hne]
      · simp [hc]

/-- The transition maps of `kleene_closure` and of `plus_closure`, read as
functions: the map of `X`, then the pair of the new initial state, then the
pairs of the accepting states of `X`. -/
theorem closure_map_find (X : NFA) (key : State × Char) :
    map_find (kleene_closure X).transitions key =
      map_find (X.transitions ++ ([(("p_i" ++ X.initial_state, NUL),
          set_insert X.initial_state (set_insert ("p_f" ++ X.initial_state) []))] ++
        loop_map (set_insert ("p_f" ++ X.initial_state) (set_insert X.initial_state []))
          X.accepting_states)) key ∧
    map_find (plus_closure X).transitions key =
      map_find (X.transitions ++ ([(("p_i" ++ X.initial_state, NUL),
          set_insert X.initial_state [])] ++
        loop_map (set_insert ("p_f" ++ X.initial_state) (set_insert X.initial_state []))
          X.accepting_states)) key := by
  constructor
  · unfold kleene_closure
    simp only
    rw [map_find_addTransitions]
    simp only [addTransition]
    rw [map_find_append, map_find_map_insert_eq_append, ← map_find_append, List.append_assoc]
  · unfold plus_closure
    simp only
    rw [map_find_addTransitions]
    simp only [addTransition]
    rw [map_find_append, map_find_map_insert_eq_append, ← map_find_append, List.append_assoc]

/-- Runs of an automaton `M` that wraps `X` the way `kleene_closure` and
`plus_closure` do: the states of `X` keep the transitions of `X`, the accepting
states of `X` get epsilon transitions back to the initial state of `X` and to
the new final state `nf`, and `nf` has no transition.  A run from a state of
`X` to `nf` is a run of `X` to an accepting state followed by zero or more
words accepted by `X`. -/
theorem Path.loop_inv {X M : NFA} {nf : State}
    (hM : ∀ s c x, s ∈ X.states → x ∈ next_states M s c →
      x ∈ next_states X s c ∨
        (c = NUL ∧ s ∈ X.accepting_states ∧ (x = X.initial_state ∨ x = nf)))
    (hnf : ∀ c, next_states M nf c = [])
    (hwf : ∀ s c x, s ∈ X.states → x ∈ next_states X s c → x ∈ X.states)
    (hinit : X.initial_state ∈ X.states)
    (hnew : nf ∉ X.states)
    {x y : State} {w : List Char} (h : Path M x w y) :
    y = nf → x ∈ X.states →
      ∃ u v, w = u ++ v ∧ (∃ f, f ∈ X.accepting_states ∧ Path X x u f) ∧
        StarL (Accepts X) v := by
  induction h with
  | refl x => intro hy hx; subst hy; exact absurd hx hnew
  | @eps x z y w hxz hzy ih =>
    intro hy hx
    rcases hM x NUL z hx (mem_of_step hxz) with h | ⟨-, hacc, h | h⟩
    · obtain ⟨u, v, hw, ⟨f, hf, hp⟩, hstar⟩ := ih hy (hwf x NUL z hx h)
      exact ⟨u, v, hw, ⟨f, hf, Path.eps (step_of_mem h) hp⟩, hstar⟩
    · subst h
      obtain ⟨u, v, hw, ⟨f, hf, hp⟩, hstar⟩ := ih hy hinit
      refine ⟨[], w, rfl, ⟨x, hacc, Path.refl _⟩, ?_⟩
      rw [hw]
      exact StarL.cons ⟨f, hf, hp⟩ hstar
    · subst h
      obtain ⟨hw, -⟩ := Path.dead hnf hzy
      subst hw
      exact ⟨[], [], rfl, ⟨x, hacc, Path.refl _⟩, StarL.nil⟩
  | @sym x z y c w hc hxz hzy ih =>
    intro hy hx
    rcases hM x c z hx (mem_of_step hxz) with h | ⟨hc2, -, -⟩
    · obtain ⟨u, v, hw, ⟨f, hf, hp⟩, hstar⟩ := ih hy (hwf x c z hx h)
      refine ⟨c :: u, v, ?_, ⟨f, hf, Path.sym hc (step_of_mem h) hp⟩, hstar⟩
      rw [hw]; rfl
    · exact absurd hc2 hc

/-- The converse: zero or more words accepted by `X` take `M` from an
accepting state of `X` to the new final state. -/
theorem Path.loop_intro {X M : NFA} {nf : State}
    (hlift : ∀ s c t, t ∈ next_states X s c → t ∈ next_states M s c)
    (hback : ∀ f, f ∈ X.accepting_states → EpsStep M f X.initial_state)
    (hexit : ∀ f, f ∈ X.accepting_states → EpsStep M f nf)
    {v : List Char} (h : StarL (Accepts X) v) :
    ∀ f, f ∈ X.accepting_states → Path M f v nf := by
  induction h with
  | nil => intro f hf; exact Path.eps (hexit f hf) (Path.refl _)
  | cons hu _ ih =>
    intro f hf
    obtain ⟨g, hg, hp⟩ := hu
    exact Path.eps (hback f hf) (Path.append (Path.map (fun s => s) hlift hp) (ih g hg))

theorem map_find_some_mem {m : TransitionMap} {key : State × Char} {v : List State}
    (h : map_find m key = some v) : (key, v) ∈ m := by
  induction m with
  | nil => simp [map_find] at h
  | cons a m ih =>
    obtain ⟨k, w⟩ := a
    simp only [map_find] at h
    by_cases hk : k = key
    · rw [if_pos hk] at h
      cases h
      subst hk
      exact List.mem_cons_self _ _
    · rw [if_neg hk] at h
      exact List.mem_cons_of_mem _ (ih h)

theorem map_find_of_mem_nodup {m : TransitionMap} {key : State × Char} {v : List State}
    (hnd : (m.map Prod.fst).Nodup) (h : (key, v) ∈ m) : map_find m key = some v := by
  induction m with
  | nil => cases h
  | cons a m ih =>
    obtain ⟨k, w⟩ := a
    simp only [List.map_cons, List.nodup_cons] at hnd
    simp only [map_find]
    rcases List.mem_cons.1 h with e | e
    · cases e
      rw [if_pos rfl]
    · have hk : k ≠ key := by
        rintro rfl
        exact hnd.1 (List.mem_map.2 ⟨(k, v), e, rfl⟩)
      rw [if_neg hk]
      exact ih hnd.2 e

/-- In a map without repeated keys, as every `std::map` is, the transitions are
the entries of the map: a key `(s, c)` with `t` in the set stored under it. -/
theorem transition_iff_entry {N : NFA} (hnd : (N.transitions.map Prod.fst).Nodup)
    {s t : State} {c : Char} :
    Transition N s c t ↔ ∃ targets, ((s, c), targets) ∈ N.transitions ∧ t ∈ targets :=
  ⟨fun ⟨v, hv, ht⟩ => ⟨v, map_find_some_mem hv, ht⟩,
    fun ⟨v, hv, ht⟩ => ⟨v, map_find_of_mem_nodup hnd hv, ht⟩⟩

theorem map_find_none_of_src {m : TransitionMap} {s : State} (c : Char)
    (h : ∀ kv ∈ m, kv.1.1 ≠ s) : map_find m (s, c) = none := by
  cases hf : map_find m (s, c) with
  | none => rfl
  | some v => exact absurd rfl (h _ (map_find_some_mem hf))

theorem WellFormed.next_mem {X : NFA} (h : WellFormed X) {s x : State} {c : Char}
    (hx : x ∈ next_states X s c) : s ∈ X.states ∧ x ∈ X.states := by
  obtain ⟨v, hv, hxv⟩ := mem_next_states.1 hx
  have := h.2.2 _ (map_find_some_mem hv)
  exact ⟨this.1, this.2 x hxv⟩

theorem WellFormed.map_find_none {X : NFA} (h : WellFormed X) {s : State} (c : Char)
    (hs : s ∉ X.states) : map_find X.transitions (s, c) = none :=
  map_find_none_of_src c (fun kv hkv heq => hs (heq ▸ (h.2.2 kv hkv).1))

theorem ThompsonInv.acc_none {X : NFA} (h : ThompsonInv X) {f : State}
    (hf : f ∈ X.accepting_states) (c : Char) : map_find X.transitions (f, c) = none :=
  map_find_none_of_src c (fun kv hkv heq => h.acc_dead kv hkv (heq ▸ hf))

theorem length_p_i (a : String) : ("p_i" ++ a).length = a.length + 3 := by
  rw [String.length_append]
  have : ("p_i" : String).length = 3 := rfl
  omega

theorem length_p_f (a : String) : ("p_f" ++ a).length = a.length + 3 := by
  rw [String.length_append]
  have : ("p_f" : String).length = 3 := rfl
  omega

theorem p_i_eq (a : String) : "p_i" ++ a = "p_" ++ ("i" ++ a) := by
  apply String.ext
  simp [String.data_append]

theorem p_f_eq (a : String) : "p_f" ++ a = "p_" ++ ("f" ++ a) := by
  apply String.ext
  simp [String.data_append]

theorem p_i_ne_p_f (a b : String) : "p_i" ++ a ≠ "p_f" ++ b := by
  intro h
  have := congrArg String.data h
  simp [String.data_append] at this

/-- The new initial state of `kleene_closure` and `plus_closure` is new. -/
theorem ThompsonInv.p_i_new {X : NFA} (h : ThompsonInv X) :
    "p_i" ++ X.initial_state ∉ X.states := by
  intro hmem
  have := h.star_names _ hmem _ (p_i_eq _)
  rw [length_p_i] at this
  omega

/-- The new final state of `kleene_closure` and `plus_closure` is new. -/
theorem ThompsonInv.p_f_new {X : NFA} (h : ThompsonInv X) :
    "p_f" ++ X.initial_state ∉ X.states := by
  intro hmem
  have := h.star_names _ hmem _ (p_f_eq _)
  rw [length_p_f] at this
  omega

theorem closure_map_lift (X : NFA) (its : List State) {s : State} {c : Char} {v : List State}
    (h : map_find X.transitions (s, c) = some v) :
    map_find (closure_map X its) (s, c) = some v := by
  unfold closure_map
  rw [map_find_append, h]

theorem closure_map_inv (X : NFA) (its : List State) {s : State} {c : Char} {v : List State}
    (hs : s ≠ "p_i" ++ X.initial_state)
    (h : map_find (closure_map X its) (s, c) = some v) :
    map_find X.transitions (s, c) = some v ∨
      (c = NUL ∧ s ∈ X.accepting_states ∧
        v = set_insert ("p_f" ++ X.initial_state) (set_insert X.initial_state [])) := by
  unfold closure_map at h
  rw [map_find_append] at h
  cases hX : map_find X.transitions (s, c) with
  | some u => rw [hX] at h; exact Or.inl h
  | none =>
    rw [hX] at h
    simp only at h
    have hne : ("p_i" ++ X.initial_state, NUL) ≠ (s, c) := fun e => hs (Prod.mk.inj e).1.symm
    rw [map_find_append] at h
    simp only [map_find, if_neg hne, map_find_loop_map] at h
    split at h
    · rename_i hcs
      simp only [Option.some.injEq] at h
      exact Or.inr ⟨hcs.1, hcs.2, h.symm⟩
    · cases h

theorem closure_map_exit (X : NFA) (its : List State) {f : State}
    (hf : f ∈ X.accepting_states) (hs : f ≠ "p_i" ++ X.initial_state)
    (hdead : map_find X.transitions (f, NUL) = none) :
    map_find (closure_map X its) (f, NUL) =
      some (set_insert ("p_f" ++ X.initial_state) (set_insert X.initial_state [])) := by
  unfold closure_map
  have hne : ("p_i" ++ X.initial_state, NUL) ≠ (f, NUL) := fun e => hs (Prod.mk.inj e).1.symm
  rw [map_find_append, hdead]
  simp only
  rw [map_find_append]
  simp only [map_find, if_neg hne, map_find_loop_map]
  simp [hf]

theorem closure_map_final (X : NFA) (its : List State) (h : ThompsonInv X) (c : Char) :
    map_find (closure_map X its) ("p_f" ++ X.initial_state, c) = none := by
  unfold closure_map
  have hne : ("p_i" ++ X.initial_state, NUL) ≠ ("p_f" ++ X.initial_state, c) :=
    fun e => p_i_ne_p_f _ _ (Prod.mk.inj e).1
  have hacc : "p_f" ++ X.initial_state ∉ X.accepting_states :=
    fun hmem => h.p_f_new (h.wf.2.1 _ hmem)
  rw [map_find_append, h.wf.map_find_none c h.p_f_new]
  simp only
  rw [map_find_append]
  simp only [map_find, if_neg hne, map_find_loop_map]
  simp [hacc]

theorem closure_map_initial (X : NFA) (its : List State) (h : ThompsonInv X) (c : Char) :
    map_find (closure_map X its) ("p_i" ++ X.initial_state, c) =
      if c = NUL then some its else none := by
  unfold closure_map
  have hacc : "p_i" ++ X.initial_state ∉ X.accepting_states :=
    fun hmem => h.p_i_new (h.wf.2.1 _ hmem)
  rw [map_find_append, h.wf.map_find_none c h.p_i_new]
  simp only
  rw [map_find_append]
  simp only [map_find, map_find_loop_map]
  by_cases hc : c = NUL
  · subst hc; simp
  · have : ("p_i" ++ X.initial_state, NUL) ≠ ("p_i" ++ X.initial_state, c) :=
      fun e => hc (Prod.mk.inj e).2.symm
    simp [this, hc]

/-- The facts about an automaton `M` whose transition map reads like
`closure_map X its`, from which the languages of `kleene_closure` and
`plus_closure` follow. -/
theorem closure_facts (X M : NFA) (its : List State) (h : ThompsonInv X)
    (hM : ∀ key, map_find M.transitions key = map_find (closure_map X its) key) :
    (∀ s c x, s ∈ X.states → x ∈ next_states M s c →
      x ∈ next_states X s c ∨
        (c = NUL ∧ s ∈ X.accepting_states ∧
          (x = X.initial_state ∨ x = "p_f" ++ X.initial_state))) ∧
    (∀ c, next_states M ("p_f" ++ X.initial_state) c = []) ∧
    (∀ s c t, t ∈ next_states X s c → t ∈ next_states M s c) ∧
    (∀ f, f ∈ X.accepting_states → EpsStep M f X.initial_state) ∧
    (∀ f, f ∈ X.accepting_states → EpsStep M f ("p_f" ++ X.initial_state)) ∧
    (∀ c x, x ∈ next_states M ("p_i" ++ X.initial_state) c ↔ c = NUL ∧ x ∈ its) := by
  have hne : ∀ s, s ∈ X.states → s ≠ "p_i" ++ X.initial_state :=
    fun s hs e => h.p_i_new (e ▸ hs)
  have hexit : ∀ f, f ∈ X.accepting_states → map_find M.transitions (f, NUL) =
      some (set_insert ("p_f" ++ X.initial_state) (set_insert X.initial_state [])) :=
    fun f hf => (hM _).trans
      (closure_map_exit X its hf (hne f (h.wf.2.1 f hf)) (h.acc_none hf NUL))
  refine ⟨?_, ?_, ?_, ?_, ?_, ?_⟩
  · intro s c x hs hx
    obtain ⟨v, hv, hxv⟩ := mem_next_states.1 hx
    rw [hM] at hv
    rcases closure_map_inv X its (hne s hs) hv with h1 | ⟨hc, hacc, hveq⟩
    · exact Or.inl (mem_next_states.2 ⟨v, h1, hxv⟩)
    · subst hveq
      refine Or.inr ⟨hc, hacc, ?_⟩
      rcases mem_set_insert.1 hxv with h2 | h2
      · exact Or.inr h2
      · rcases mem_set_insert.1 h2 with h3 | h3
        · exact Or.inl h3
        · cases h3
  · intro c
    exact next_states_eq_nil ((hM _).trans (closure_map_final X its h c))
  · intro s c t ht
    obtain ⟨v, hv, htv⟩ := mem_next_states.1 ht
    exact mem_next_states.2 ⟨v, (hM _).trans (closure_map_lift X its hv), htv⟩
  · intro f hf
    exact epsStep_iff.2 ⟨_, hexit f hf,
      mem_set_insert.2 (Or.inr (mem_set_insert.2 (Or.inl rfl)))⟩
  · intro f hf
    exact epsStep_iff.2 ⟨_, hexit f hf, mem_set_insert.2 (Or.inl rfl)⟩
  · intro c x
    rw [mem_next_states, hM, closure_map_initial X its h c]
    by_cases hc : c = NUL
    · simp [hc]
    · simp [hc]

theorem kleene_initial (X : NFA) :
    (kleene_closure X).initial_state = "p_i" ++ X.initial_state := by
  unfold kleene_closure
  simp only [addTransitions_initial, addTransition]

theorem kleene_accepting (X : NFA) :
    (kleene_closure X).accepting_states = set_insert ("p_f" ++ X.initial_state) [] := by
  unfold kleene_closure
  simp only [addTransitions_accepting, addTransition]

theorem kleene_states (X : NFA) :
    (kleene_closure X).states =
      set_insert ("p_f" ++ X.initial_state) (set_insert ("p_i" ++ X.initial_state) X.states) := by
  unfold kleene_closure
  simp only [addTransitions_states, addTransition]

theorem plus_initial (X : NFA) :
    (plus_closure X).initial_state = "p_i" ++ X.initial_state := by
  unfold plus_closure
  simp only [addTransitions_initial, addTransition]

theorem plus_accepting (X : NFA) :
    (plus_closure X).accepting_states = set_insert ("p_f" ++ X.initial_state) [] := by
  unfold plus_closure
  simp only [addTransitions_accepting, addTransition]

theorem plus_states (X : NFA) :
    (plus_closure X).states =
      set_insert ("p_f" ++ X.initial_state) (set_insert ("p_i" ++ X.initial_state) X.states) := by
  unfold plus_closure
  simp only [addTransitions_states, addTransition]

/-- The language of an automaton that wraps `X` like `kleene_closure` or
`plus_closure`, seen from the initial state of `X`. -/
theorem closure_from_initial (X M : NFA) (its : List State) (h : ThompsonInv X)
    (hM : ∀ key, map_find M.transitions key = map_find (closure_map X its) key)
    (w : List Char) :
    Path M X.initial_state w ("p_f" ++ X.initial_state) ↔
      ∃ u v, w = u ++ v ∧ Accepts X u ∧ StarL (Accepts X) v := by
  obtain ⟨f1, f2, f3, f4, f5, -⟩ := closure_facts X M its h hM
  constructor
  · intro hp
    obtain ⟨u, v, hw, hacc, hstar⟩ := Path.loop_inv f1 f2
      (fun s c x _ hx => (h.wf.next_mem hx).2) h.wf.1 h.p_f_new hp rfl h.wf.1
    exact ⟨u, v, hw, hacc, hstar⟩
  · rintro ⟨u, v, hw, ⟨f, hf, hp⟩, hstar⟩
    subst hw
    exact Path.append (Path.map (fun s => s) f3 hp) (Path.loop_intro f3 f4 f5 hstar f hf)

/-- The language of `X.kleene_closure()` for an automaton `X` that satisfies
the invariant of the construction. -/
theorem accepts_kleene (X : NFA) (h : ThompsonInv X) (w : List Char) :
    Accepts (kleene_closure X) w ↔ StarL (Accepts X) w := by
  have hM := fun key => (closure_map_find X key).1
  have hM2 : ∀ key, map_find (kleene_closure X).transitions key =
      map_find (closure_map X
        (set_insert X.initial_state (set_insert ("p_f" ++ X.initial_state) []))) key := hM
  obtain ⟨-, f2, -, -, -, f6⟩ := closure_facts X (kleene_closure X) _ h hM2
  have hfrom := closure_from_initial X (kleene_closure X) _ h hM2 w
  unfold Accepts
  rw [kleene_initial, kleene_accepting]
  constructor
  · rintro ⟨f, hf, hp⟩
    have hf2 : f = "p_f" ++ X.initial_state := by simpa [set_insert] using hf
    subst hf2
    generalize hx : "p_i" ++ X.initial_state = x at hp
    generalize hy : "p_f" ++ X.initial_state = y at hp
    cases hp with
    | refl => exact absurd (hx.trans hy.symm) (p_i_ne_p_f _ _)
    | eps hst hzp =>
      subst hx hy
      have hz := ((f6 NUL _).1 (mem_of_step hst)).2
      rcases mem_set_insert.1 hz with hz | hz
      · subst hz
        obtain ⟨u, v, hw, hu, hv⟩ := hfrom.1 hzp
        rw [hw]
        exact StarL.cons hu hv
      · rename_i z _
        have hz2 : z = "p_f" ++ X.initial_state := by simpa [set_insert] using hz
        subst hz2
        obtain ⟨hw, -⟩ := Path.dead f2 hzp
        rw [hw]
        exact StarL.nil
    | sym hc hst hzp =>
      subst hx
      exact absurd ((f6 _ _).1 (mem_of_step hst)).1 hc
  · intro hstar
    refine ⟨"p_f" ++ X.initial_state, by simp [set_insert], ?_⟩
    cases hstar with
    | nil =>
      exact Path.eps (step_of_mem ((f6 NUL _).2 ⟨rfl, mem_set_insert.2
        (Or.inr (mem_set_insert.2 (Or.inl rfl)))⟩)) (Path.refl _)
    | cons hu hv =>
      exact Path.eps (step_of_mem ((f6 NUL _).2 ⟨rfl, mem_set_insert.2 (Or.inl rfl)⟩))
        (hfrom.2 ⟨_, _, rfl, hu, hv⟩)

/-- The language of `X.plus_closure()` for an automaton `X` that satisfies the
invariant of the construction. -/
theorem accepts_plus (X : NFA) (h : ThompsonInv X) (w : List Char) :
    Accepts (plus_closure X) w ↔ ∃ u v, w = u ++ v ∧ Accepts X u ∧ StarL (Accepts X) v := by
  have hM := fun key => (closure_map_find X key).2
  have hM2 : ∀ key, map_find (plus_closure X).transitions key =
      map_find (closure_map X (set_insert X.initial_state [])) key := hM
  obtain ⟨-, f2, -, -, -, f6⟩ := closure_facts X (plus_closure X) _ h hM2
  have hfrom := closure_from_initial X (plus_closure X) _ h hM2 w
  unfold Accepts
  rw [plus_initial, plus_accepting]
  constructor
  · rintro ⟨f, hf, hp⟩
    have hf2 : f = "p_f" ++ X.initial_state := by simpa [set_insert] using hf
    subst hf2
    generalize hx : "p_i" ++ X.initial_state = x at hp
    generalize hy : "p_f" ++ X.initial_state = y at hp
    cases hp with
    | refl => exact absurd (hx.trans hy.symm) (p_i_ne_p_f _ _)
    | eps hst hzp =>
      subst hx hy
      have hz := ((f6 NUL _).1 (mem_of_step hst)).2
      rename_i z
      have hz2 : z = X.initial_state := by simpa [set_insert] using hz
      subst hz2
      exact hfrom.1 hzp
    | sym hc hst hzp =>
      subst hx
      exact absurd ((f6 _ _).1 (mem_of_step hst)).1 hc
  · intro hex
    refine ⟨"p_f" ++ X.initial_state, by simp [set_insert], ?_⟩
    exact Path.eps (step_of_mem ((f6 NUL _).2 ⟨rfl, mem_set_insert.2 (Or.inl rfl)⟩)) (hfrom.2 hex)

end NFA

/-! ## The invariant of the Thompson construction -/

namespace NFA

theorem simpleNFA_eq (c : Char) :
    simpleNFA c = { states := ["0", "1"], initial_state := "0",
                    transitions := [(("0", c), ["1"])], accepting_states := ["1"] } := rfl

theorem mem_map_insert {m : TransitionMap} {k : State × Char} {v : List State}
    {kv : (State × Char) × List State} (h : kv ∈ map_insert m k v) :
    kv ∈ m ∨ kv = (k, v) := by
  unfold map_insert at h
  split at h
  · exact Or.inl h
  · simpa using h

theorem mem_rename_transitions (pfx : String) (m : TransitionMap)
    {kv : (State × Char) × List State} :
    ∀ acc : TransitionMap, kv ∈ rename_transitions acc pfx m →
      kv ∈ acc ∨ kv ∈ rename_map pfx m := by
  induction m with
  | nil => intro acc h; exact Or.inl h
  | cons a m ih =>
    intro acc h
    obtain ⟨k, v⟩ := a
    simp only [rename_transitions] at h
    rcases ih _ h with h1 | h1
    · rcases mem_map_insert h1 with h2 | h2
      · exact Or.inl h2
      · refine Or.inr ?_
        rw [h2]
        simp [rename_map]
    · refine Or.inr ?_
      simp only [rename_map, List.map_cons, List.mem_cons]
      exact Or.inr h1

theorem mem_link_accepting (pfx : String) (to_ : List State) (l : List State)
    {kv : (State × Char) × List State} :
    ∀ acc : TransitionMap, kv ∈ link_accepting acc pfx to_ l →
      kv ∈ acc ∨ kv ∈ link_map pfx to_ l := by
  induction l with
  | nil => intro acc h; exact Or.inl h
  | cons a l ih =>
    intro acc h
    simp only [link_accepting] at h
    rcases ih _ h with h1 | h1
    · rcases mem_map_insert h1 with h2 | h2
      · exact Or.inl h2
      · refine Or.inr ?_
        rw [h2]
        simp [link_map]
    · refine Or.inr ?_
      simp only [link_map, List.map_cons, List.mem_cons]
      exact Or.inr h1

theorem mem_addTransitions (to_ : List State) (l : List State)
    {kv : (State × Char) × List State} :
    ∀ nfa : NFA, kv ∈ (addTransitions nfa to_ l).transitions →
      kv ∈ nfa.transitions ∨ kv ∈ loop_map to_ l := by
  induction l with
  | nil => intro nfa h; exact Or.inl h
  | cons a l ih =>
    intro nfa h
    simp only [addTransitions] at h
    rcases ih _ h with h1 | h1
    · simp only [addTransition] at h1
      rcases mem_map_insert h1 with h2 | h2
      · exact Or.inl h2
      · refine Or.inr ?_
        rw [h2]
        simp [loop_map]
    · refine Or.inr ?_
      simp only [loop_map, List.map_cons, List.mem_cons]
      exact Or.inr h1

theorem mem_rename_map {pfx : String} {m : TransitionMap} {kv : (State × Char) × List State}
    (h : kv ∈ rename_map pfx m) :
    ∃ kv0, kv0 ∈ m ∧ kv.1.1 = pfx ++ kv0.1.1 ∧ kv.1.2 = kv0.1.2 ∧
      ∀ t, t ∈ kv.2 → ∃ t0, t0 ∈ kv0.2 ∧ t = pfx ++ t0 := by
  simp only [rename_map, List.mem_map] at h
  obtain ⟨kv0, hkv0, heq⟩ := h
  subst heq
  exact ⟨kv0, hkv0, rfl, rfl, fun t ht => mem_getNewStatesName.1 ht⟩

theorem mem_link_map {pfx : String} {to_ l : List State} {kv : (State × Char) × List State}
    (h : kv ∈ link_map pfx to_ l) :
    ∃ f, f ∈ l ∧ kv.1.1 = pfx ++ f ∧ kv.1.2 = NUL ∧ kv.2 = to_ := by
  simp only [link_map, List.mem_map] at h
  obtain ⟨f, hf, heq⟩ := h
  subst heq
  exact ⟨f, hf, rfl, rfl, rfl⟩

theorem mem_loop_map {to_ l : List State} {kv : (State × Char) × List State}
    (h : kv ∈ loop_map to_ l) : kv.1.1 ∈ l ∧ kv.1.2 = NUL ∧ kv.2 = to_ := by
  simp only [loop_map, List.mem_map] at h
  obtain ⟨f, hf, heq⟩ := h
  subst heq
  exact ⟨hf, rfl, rfl⟩

theorem p_ne_underscore (a r : String) : "p" ++ a ≠ "_" ++ r := by
  intro h
  have := congrArg String.data h
  simp [String.data_append] at this

theorem q_ne_underscore (a r : String) : "q" ++ a ≠ "_" ++ r := by
  intro h
  have := congrArg String.data h
  simp [String.data_append] at this

theorem q_ne_p_underscore (a r : String) : "q" ++ a ≠ "p_" ++ r := by
  intro h
  have := congrArg String.data h
  simp [String.data_append] at this

theorem p_eq_p_underscore {a r : String} (h : "p" ++ a = "p_" ++ r) : a = "_" ++ r := by
  have := congrArg String.data h
  simp only [String.data_append] at this
  apply String.ext
  simpa [String.data_append] using this

theorem thompsonInv_simple (c : Char) : ThompsonInv (simpleNFA c) := by
  rw [simpleNFA_eq]
  refine ⟨⟨?_, ?_, ?_⟩, ?_, ?_, ?_⟩
  · show "0" ∈ ["0", "1"]
    decide
  · show ∀ f ∈ ["1"], f ∈ ["0", "1"]
    decide
  · intro kv hkv
    simp only [List.mem_singleton] at hkv
    subst hkv
    refine ⟨?_, ?_⟩
    · show "0" ∈ ["0", "1"]
      decide
    · show ∀ t ∈ ["1"], t ∈ ["0", "1"]
      decide
  · intro kv hkv
    simp only [List.mem_singleton] at hkv
    subst hkv
    show "0" ∉ ["1"]
    decide
  · intro s hs r h
    have hs2 : s = "0" ∨ s = "1" := by simpa using hs
    have := congrArg String.data h
    rcases hs2 with e | e <;> subst e <;> simp [String.data_append] at this
  · intro s hs r h
    have hs2 : s = "0" ∨ s = "1" := by simpa using hs
    have := congrArg String.data h
    rcases hs2 with e | e <;> subst e <;> simp [String.data_append] at this

theorem concat_states_mem (L R : NFA) (x : State) :
    x ∈ (nfa_concat L R).states ↔
      (∃ l, l ∈ L.states ∧ x = "p" ++ l) ∨ (∃ r, r ∈ R.states ∧ x = "q" ++ r) := by
  unfold nfa_concat
  simp only [mem_set_insert_range, mem_getNewStatesName, List.not_mem_nil, false_or]

theorem concat_entry (L R : NFA) {kv : (State × Char) × List State}
    (h : kv ∈ (nfa_concat L R).transitions) :
    kv ∈ rename_map "p" L.transitions ∨ kv ∈ rename_map "q" R.transitions ∨
      kv ∈ link_map "p" (set_insert ("q" ++ R.initial_state) []) L.accepting_states := by
  unfold nfa_concat at h
  simp only at h
  rcases mem_link_accepting _ _ _ _ h with h1 | h1
  · rcases mem_rename_transitions _ _ _ h1 with h2 | h2
    · rcases mem_rename_transitions _ _ _ h2 with h3 | h3
      · cases h3
      · exact Or.inl h3
    · exact Or.inr (Or.inl h2)
  · exact Or.inr (Or.inr h1)

theorem thompsonInv_concat {L R : NFA} (hL : ThompsonInv L) (hR : ThompsonInv R) :
    ThompsonInv (nfa_concat L R) := by
  refine ⟨⟨?_, ?_, ?_⟩, ?_, ?_, ?_⟩
  · rw [concat_initial, concat_states_mem]
    exact Or.inl ⟨_, hL.wf.1, rfl⟩
  · intro f hf
    rw [concat_accepting] at hf
    obtain ⟨g, hg, hfg⟩ := mem_getNewStatesName.1 hf
    rw [concat_states_mem]
    exact Or.inr ⟨g, hR.wf.2.1 g hg, hfg⟩
  · intro kv hkv
    simp only [concat_states_mem]
    rcases concat_entry L R hkv with h | h | h
    · obtain ⟨kv0, hkv0, h1, -, h3⟩ := mem_rename_map h
      refine ⟨Or.inl ⟨_, (hL.wf.2.2 kv0 hkv0).1, h1⟩, ?_⟩
      intro t ht
      obtain ⟨t0, ht0, e⟩ := h3 t ht
      exact Or.inl ⟨t0, (hL.wf.2.2 kv0 hkv0).2 t0 ht0, e⟩
    · obtain ⟨kv0, hkv0, h1, -, h3⟩ := mem_rename_map h
      refine ⟨Or.inr ⟨_, (hR.wf.2.2 kv0 hkv0).1, h1⟩, ?_⟩
      intro t ht
      obtain ⟨t0, ht0, e⟩ := h3 t ht
      exact Or.inr ⟨t0, (hR.wf.2.2 kv0 hkv0).2 t0 ht0, e⟩
    · obtain ⟨f, hf, h1, -, h3⟩ := mem_link_map h
      refine ⟨Or.inl ⟨f, hL.wf.2.1 f hf, h1⟩, ?_⟩
      intro t ht
      rw [h3] at ht
      have : t = "q" ++ R.initial_state := by simpa [set_insert] using ht
      exact Or.inr ⟨_, hR.wf.1, this⟩
  · intro kv hkv hacc
    rw [concat_accepting] at hacc
    obtain ⟨g, hg, hfg⟩ := mem_getNewStatesName.1 hacc
    rcases concat_entry L R hkv with h | h | h
    · obtain ⟨kv0, -, h1, -, -⟩ := mem_rename_map h
      exact p_ne_q _ _ (h1.symm.trans hfg)
    · obtain ⟨kv0, hkv0, h1, -, -⟩ := mem_rename_map h
      have := append_left_cancel (h1.symm.trans hfg)
      exact hR.acc_dead kv0 hkv0 (this ▸ hg)
    · obtain ⟨f, -, h1, -, -⟩ := mem_link_map h
      exact p_ne_q _ _ (h1.symm.trans hfg)
  · intro s hs r
    rcases (concat_states_mem L R s).1 hs with ⟨l, -, e⟩ | ⟨l, -, e⟩
    · rw [e]; exact p_ne_underscore _ _
    · rw [e]; exact q_ne_underscore _ _
  · intro s hs r hsr
    rcases (concat_states_mem L R s).1 hs with ⟨l, hl, e⟩ | ⟨l, -, e⟩
    · exact absurd (p_eq_p_underscore (e.symm.trans hsr)) (hL.no_underscore l hl r)
    · exact absurd (e.symm.trans hsr) (q_ne_p_underscore _ _)

theorem union_states_mem (L R : NFA) (x : State) :
    x ∈ (nfa_union L R).states ↔
      x = "f" ++ L.initial_state ++ R.initial_state ∨
      x = "i" ++ L.initial_state ++ R.initial_state ∨
      (∃ l, l ∈ L.states ∧ x = "p" ++ l) ∨ (∃ r, r ∈ R.states ∧ x = "q" ++ r) := by
  unfold nfa_union
  simp only [mem_set_insert, mem_set_insert_range, mem_getNewStatesName, List.not_mem_nil,
    false_or]

theorem union_entry (L R : NFA) {kv : (State × Char) × List State}
    (h : kv ∈ (nfa_union L R).transitions) :
    kv ∈ rename_map "p" L.transitions ∨ kv ∈ rename_map "q" R.transitions ∨
      kv = (("i" ++ L.initial_state ++ R.initial_state, NUL),
        set_insert ("q" ++ R.initial_state) (set_insert ("p" ++ L.initial_state) [])) ∨
      kv ∈ link_map "p" (set_insert ("f" ++ L.initial_state ++ R.initial_state) [])
        L.accepting_states ∨
      kv ∈ link_map "q" (set_insert ("f" ++ L.initial_state ++ R.initial_state) [])
        R.accepting_states := by
  unfold nfa_union at h
  simp only at h
  rcases mem_link_accepting _ _ _ _ h with h0 | h0
  · rcases mem_link_accepting _ _ _ _ h0 with h1 | h1
    · rcases mem_map_insert h1 with h4 | h4
      · rcases mem_rename_transitions _ _ _ h4 with h2 | h2
        · rcases mem_rename_transitions _ _ _ h2 with h3 | h3
          · cases h3
          · exact Or.inl h3
        · exact Or.inr (Or.inl h2)
      · exact Or.inr (Or.inr (Or.inl h4))
    · exact Or.inr (Or.inr (Or.inr (Or.inl h1)))
  · exact Or.inr (Or.inr (Or.inr (Or.inr h0)))

theorem i_ne_underscore (a b r : String) : "i" ++ a ++ b ≠ "_" ++ r := by
  intro h
  have := congrArg String.data h
  simp [String.data_append] at this

theorem f_ne_underscore (a b r : String) : "f" ++ a ++ b ≠ "_" ++ r := by
  intro h
  have := congrArg String.data h
  simp [String.data_append] at this

theorem i_ne_p_underscore (a b r : String) : "i" ++ a ++ b ≠ "p_" ++ r := by
  intro h
  have := congrArg String.data h
  simp [String.data_append] at this

theorem f_ne_p_underscore (a b r : String) : "f" ++ a ++ b ≠ "p_" ++ r := by
  intro h
  have := congrArg String.data h
  simp [String.data_append] at this

theorem thompsonInv_union {L R : NFA} (hL : ThompsonInv L) (hR : ThompsonInv R) :
    ThompsonInv (nfa_union L R) := by
  refine ⟨⟨?_, ?_, ?_⟩, ?_, ?_, ?_⟩
  · rw [union_initial, union_states_mem]
    exact Or.inr (Or.inl rfl)
  · intro f hf
    rw [union_accepting] at hf
    have : f = "f" ++ L.initial_state ++ R.initial_state := by simpa [set_insert] using hf
    rw [union_states_mem]
    exact Or.inl this
  · intro kv hkv
    simp only [union_states_mem]
    rcases union_entry L R hkv with h | h | h | h | h
    · obtain ⟨kv0, hkv0, h1, -, h3⟩ := mem_rename_map h
      refine ⟨Or.inr (Or.inr (Or.inl ⟨_, (hL.wf.2.2 kv0 hkv0).1, h1⟩)), ?_⟩
      intro t ht
      obtain ⟨t0, ht0, e⟩ := h3 t ht
      exact Or.inr (Or.inr (Or.inl ⟨t0, (hL.wf.2.2 kv0 hkv0).2 t0 ht0, e⟩))
    · obtain ⟨kv0, hkv0, h1, -, h3⟩ := mem_rename_map h
      refine ⟨Or.inr (Or.inr (Or.inr ⟨_, (hR.wf.2.2 kv0 hkv0).1, h1⟩)), ?_⟩
      intro t ht
      obtain ⟨t0, ht0, e⟩ := h3 t ht
      exact Or.inr (Or.inr (Or.inr ⟨t0, (hR.wf.2.2 kv0 hkv0).2 t0 ht0, e⟩))
    · subst h
      refine ⟨Or.inr (Or.inl rfl), ?_⟩
      intro t ht
      have ht2 : t ∈ set_insert ("q" ++ R.initial_state)
          (set_insert ("p" ++ L.initial_state) []) := ht
      rcases mem_set_insert.1 ht2 with e | e
      · exact Or.inr (Or.inr (Or.inr ⟨_, hR.wf.1, e⟩))
      · rcases mem_set_insert.1 e with e2 | e2
        · exact Or.inr (Or.inr (Or.inl ⟨_, hL.wf.1, e2⟩))
        · cases e2
    · obtain ⟨f, hf, h1, -, h3⟩ := mem_link_map h
      refine ⟨Or.inr (Or.inr (Or.inl ⟨f, hL.wf.2.1 f hf, h1⟩)), ?_⟩
      intro t ht
      rw [h3] at ht
      exact Or.inl (by simpa [set_insert] using ht)
    · obtain ⟨f, hf, h1, -, h3⟩ := mem_link_map h
      refine ⟨Or.inr (Or.inr (Or.inr ⟨f, hR.wf.2.1 f hf, h1⟩)), ?_⟩
      intro t ht
      rw [h3] at ht
      exact Or.inl (by simpa [set_insert] using ht)
  · intro kv hkv hacc
    rw [union_accepting] at hacc
    have hfg : kv.1.1 = "f" ++ L.initial_state ++ R.initial_state := by
      simpa [set_insert] using hacc
    rcases union_entry L R hkv with h | h | h | h | h
    · obtain ⟨kv0, -, h1, -, -⟩ := mem_rename_map h
      exact p_ne_f _ _ _ (h1.symm.trans hfg)
    · obtain ⟨kv0, -, h1, -, -⟩ := mem_rename_map h
      exact q_ne_f _ _ _ (h1.symm.trans hfg)
    · subst h
      exact i_ne_f _ _ _ _ hfg
    · obtain ⟨f, -, h1, -, -⟩ := mem_link_map h
      exact p_ne_f _ _ _ (h1.symm.trans hfg)
    · obtain ⟨f, -, h1, -, -⟩ := mem_link_map h
      exact q_ne_f _ _ _ (h1.symm.trans hfg)
  · intro s hs r
    rcases (union_states_mem L R s).1 hs with e | e | ⟨l, -, e⟩ | ⟨l, -, e⟩
    · rw [e]; exact f_ne_underscore _ _ _
    · rw [e]; exact i_ne_underscore _ _ _
    · rw [e]; exact p_ne_underscore _ _
    · rw [e]; exact q_ne_underscore _ _
  · intro s hs r hsr
    rcases (union_states_mem L R s).1 hs with e | e | ⟨l, hl, e⟩ | ⟨l, -, e⟩
    · exact absurd (e.symm.trans hsr) (f_ne_p_underscore _ _ _)
    · exact absurd (e.symm.trans hsr) (i_ne_p_underscore _ _ _)
    · exact absurd (p_eq_p_underscore (e.symm.trans hsr)) (hL.no_underscore l hl r)
    · exact absurd (e.symm.trans hsr) (q_ne_p_underscore _ _)

theorem kleene_entry (X : NFA) {kv : (State × Char) × List State}
    (h : kv ∈ (kleene_closure X).transitions) :
    kv ∈ X.transitions ∨
      kv = (("p_i" ++ X.initial_state, NUL),
        set_insert X.initial_state (set_insert ("p_f" ++ X.initial_state) [])) ∨
      kv ∈ loop_map (set_insert ("p_f" ++ X.initial_state) (set_insert X.initial_state []))
        X.accepting_states := by
  unfold kleene_closure at h
  simp only at h
  rcases mem_addTransitions _ _ _ h with h1 | h1
  · simp only [addTransition] at h1
    rcases mem_map_insert h1 with h2 | h2
    · exact Or.inl h2
    · exact Or.inr (Or.inl h2)
  · exact Or.inr (Or.inr h1)

theorem plus_entry (X : NFA) {kv : (State × Char) × List State}
    (h : kv ∈ (plus_closure X).transitions) :
    kv ∈ X.transitions ∨
      kv = (("p_i" ++ X.initial_state, NUL), set_insert X.initial_state []) ∨
      kv ∈ loop_map (set_insert ("p_f" ++ X.initial_state) (set_insert X.initial_state []))
        X.accepting_states := by
  unfold plus_closure at h
  simp only at h
  rcases mem_addTransitions _ _ _ h with h1 | h1
  · simp only [addTransition] at h1
    rcases mem_map_insert h1 with h2 | h2
    · exact Or.inl h2
    · exact Or.inr (Or.inl h2)
  · exact Or.inr (Or.inr h1)

theorem p_i_ne_underscore (a r : String) : "p_i" ++ a ≠ "_" ++ r := by
  intro h
  have := congrArg String.data h
  simp [String.data_append] at this

theorem p_f_ne_underscore (a r : String) : "p_f" ++ a ≠ "_" ++ r := by
  intro h
  have := congrArg String.data h
  simp [String.data_append] at this

/-- The invariant passes to an automaton that wraps `X` the way
`kleene_closure` and `plus_closure` do. -/
theorem thompsonInv_closure {X M : NFA} (its : List State) (hX : ThompsonInv X)
    (hstates : M.states =
      set_insert ("p_f" ++ X.initial_state) (set_insert ("p_i" ++ X.initial_state) X.states))
    (hinit : M.initial_state = "p_i" ++ X.initial_state)
    (hacc : M.accepting_states = set_insert ("p_f" ++ X.initial_state) [])
    (hits : ∀ t, t ∈ its → t = X.initial_state ∨ t = "p_f" ++ X.initial_state)
    (hentry : ∀ kv, kv ∈ M.transitions → kv ∈ X.transitions ∨
      kv = (("p_i" ++ X.initial_state, NUL), its) ∨
      kv ∈ loop_map (set_insert ("p_f" ++ X.initial_state) (set_insert X.initial_state []))
        X.accepting_states) :
    ThompsonInv M := by
  have hmem : ∀ x, x ∈ M.states ↔
      x = "p_f" ++ X.initial_state ∨ x = "p_i" ++ X.initial_state ∨ x ∈ X.states := by
    intro x
    rw [hstates, mem_set_insert, mem_set_insert]
  have hmemacc : ∀ x, x ∈ M.accepting_states ↔ x = "p_f" ++ X.initial_state := by
    intro x
    rw [hacc]
    simp [set_insert]
  refine ⟨⟨?_, ?_, ?_⟩, ?_, ?_, ?_⟩
  · rw [hinit, hmem]
    exact Or.inr (Or.inl rfl)
  · intro f hf
    rw [hmem]
    exact Or.inl ((hmemacc f).1 hf)
  · intro kv hkv
    simp only [hmem]
    rcases hentry kv hkv with h | h | h
    · exact ⟨Or.inr (Or.inr (hX.wf.2.2 kv h).1),
        fun t ht => Or.inr (Or.inr ((hX.wf.2.2 kv h).2 t ht))⟩
    · subst h
      refine ⟨Or.inr (Or.inl rfl), ?_⟩
      intro t ht
      rcases hits t ht with e | e
      · exact Or.inr (Or.inr (e ▸ hX.wf.1))
      · exact Or.inl e
    · obtain ⟨h1, -, h3⟩ := mem_loop_map h
      refine ⟨Or.inr (Or.inr (hX.wf.2.1 _ h1)), ?_⟩
      intro t ht
      rw [h3] at ht
      rcases mem_set_insert.1 ht with e | e
      · exact Or.inl e
      · have : t = X.initial_state := by simpa [set_insert] using e
        exact Or.inr (Or.inr (this ▸ hX.wf.1))
  · intro kv hkv hkacc
    have hfg := (hmemacc _).1 hkacc
    rcases hentry kv hkv with h | h | h
    · exact hX.p_f_new (hfg ▸ (hX.wf.2.2 kv h).1)
    · subst h
      exact p_i_ne_p_f _ _ hfg
    · obtain ⟨h1, -, -⟩ := mem_loop_map h
      exact hX.p_f_new (hfg ▸ hX.wf.2.1 _ h1)
  · intro s hs r
    rcases (hmem s).1 hs with e | e | e
    · rw [e]; exact p_f_ne_underscore _ _
    · rw [e]; exact p_i_ne_underscore _ _
    · exact hX.no_underscore s e r
  · intro s hs r hsr
    rw [hinit, length_p_i]
    rcases (hmem s).1 hs with e | e | e
    · rw [e, length_p_f]
    · rw [e, length_p_i]
    · have := hX.star_names s e r hsr
      omega

theorem thompsonInv_kleene {X : NFA} (hX : ThompsonInv X) : ThompsonInv (kleene_closure X) :=
  thompsonInv_closure (set_insert X.initial_state (set_insert ("p_f" ++ X.initial_state) []))
    hX (kleene_states X) (kleene_initial X) (kleene_accepting X)
    (by
      intro t ht
      rcases mem_set_insert.1 ht with e | e
      · exact Or.inl e
      · exact Or.inr (by simpa [set_insert] using e))
    (fun _ h => kleene_entry X h)

theorem thompsonInv_plus {X : NFA} (hX : ThompsonInv X) : ThompsonInv (plus_closure X) :=
  thompsonInv_closure (set_insert X.initial_state [])
    hX (plus_states X) (plus_initial X) (plus_accepting X)
    (by
      intro t ht
      exact Or.inl (by simpa [set_insert] using ht))
    (fun _ h => plus_entry X h)

/-- Every automaton built by the Thompson construction satisfies the
invariant. -/
theorem ThompsonBuilt.inv {X : NFA} (h : ThompsonBuilt X) : ThompsonInv X := by
  induction h with
  | simple c _ => exact thompsonInv_simple c
  | concat _ _ ihL ihR => exact thompsonInv_concat ihL ihR
  | union _ _ ihL ihR => exact thompsonInv_union ihL ihR
  | kleene _ ih => exact thompsonInv_kleene ih
  | plus _ ih => exact thompsonInv_plus ih

end NFA

/-! ## The iteration bound of `e_closure` is never reached -/

namespace NFA

theorem e_closure_inv_step (N : NFA) (U : List State)
    (hU : ∀ x, x ∈ U → ∀ y, EpsStep N x y → y ∈ U) (fuel : Nat) (c : State)
    (stack cl : List State) (hnd : cl.Nodup) (hcl : ∀ x, x ∈ cl → x ∈ U)
    (hst : ∀ x, x ∈ c :: stack → x ∈ U)
    (hlen : (c :: stack).length + U.length ≤ fuel + 1 + cl.length) :
    (e_closure_for (set_insert c cl) stack (next_states N c NUL)).1.Nodup ∧
    (∀ x, x ∈ (e_closure_for (set_insert c cl) stack (next_states N c NUL)).1 → x ∈ U) ∧
    (∀ x, x ∈ (e_closure_for (set_insert c cl) stack (next_states N c NUL)).2 → x ∈ U) ∧
    (e_closure_for (set_insert c cl) stack (next_states N c NUL)).2.length + U.length
      ≤ fuel + (e_closure_for (set_insert c cl) stack (next_states N c NUL)).1.length := by
  obtain ⟨h1, h2, -, -, h5, h6⟩ :=
    e_closure_for_spec (next_states N c NUL) (set_insert c cl) stack
  have hcU : c ∈ U := hst c (List.mem_cons_self _ _)
  have hsucc : ∀ y, y ∈ next_states N c NUL → y ∈ U := fun y hy => hU c hcU y (step_of_mem hy)
  have hge := length_set_insert_ge c cl
  simp only [List.length_cons] at hlen
  refine ⟨h6 (nodup_set_insert hnd), ?_, ?_, by omega⟩
  · intro x hx
    rcases (h1 x).1 hx with h | h
    · rcases mem_set_insert.1 h with h | h
      · subst h; exact hcU
      · exact hcl x h
    · exact hsucc x h
  · intro x hx
    rcases h2 x hx with h | h
    · exact hst x (List.mem_cons_of_mem _ h)
    · exact hsucc x h

theorem e_closure_loop_nil (N : NFA) (fuel : Nat) (cl : List State) :
    e_closure_loop N fuel [] cl = cl := by
  cases fuel <;> rfl

/-- More iterations than the bound change nothing: under the bound
`stack.length + U.length ≤ fuel + cl.length` the `while` loop leaves through its
empty-stack exit before the iterations are used up. -/
theorem e_closure_loop_fuel_stable (N : NFA) (U : List State)
    (hU : ∀ x, x ∈ U → ∀ y, EpsStep N x y → y ∈ U) :
    ∀ (fuel : Nat) (stack cl : List State),
      cl.Nodup → (∀ x, x ∈ cl → x ∈ U) → (∀ x, x ∈ stack → x ∈ U) →
      stack.length + U.length ≤ fuel + cl.length →
      ∀ k, e_closure_loop N (fuel + k) stack cl = e_closure_loop N fuel stack cl := by
  intro fuel
  induction fuel with
  | zero =>
    intro stack cl hnd hcl hst hlen k
    cases stack with
    | nil => rw [e_closure_loop_nil, e_closure_loop_nil]
    | cons c stack =>
      exfalso
      have := (List.subperm_of_subset hnd hcl).length_le
      simp only [List.length_cons] at hlen
      omega
  | succ fuel ih =>
    intro stack cl hnd hcl hst hlen k
    cases stack with
    | nil => rw [e_closure_loop_nil, e_closure_loop_nil]
    | cons c stack =>
      obtain ⟨i1, i2, i3, i4⟩ := e_closure_inv_step N U hU fuel c stack cl hnd hcl hst hlen
      have hk : fuel + 1 + k = (fuel + k) + 1 := by omega
      rw [hk]
      simp only [e_closure_loop, e_closure_pop_eq]
      exact ih _ _ i1 i2 i3 i4 k

/-- The bound `e_closure_fuel` is always enough for `e_closure`: granting the
`while` loop more iterations gives the same result. -/
theorem e_closure_loop_fuel_enough (N : NFA) (s : State) (k : Nat) :
    e_closure_loop N (e_closure_fuel N + k) [s] [] = e_closure N s :=
  e_closure_loop_fuel_stable N (s :: eps_targets N.transitions)
    (e_closure_universe_closed N s) (e_closure_fuel N) [s] [] List.nodup_nil
    (fun x hx => by cases hx)
    (fun x hx => by simp only [List.mem_singleton] at hx; subst hx; exact List.mem_cons_self _ _)
    (by simp only [e_closure_fuel, List.length_cons, List.length_nil]; omega) k

end NFA

/-! ## Languages of strings -/

namespace NFA

theorem accept_iff_of_nulFree {N : NFA} {w : String} (hw : NulFree w) :
    accept N w = true ↔ Accepts N w.data := by
  rw [accept_iff, c_str_eq_data hw]

theorem accept_mk_iff {N : NFA} {u : List Char} (hu : ∀ c ∈ u, c ≠ NUL) :
    accept N (String.mk u) = true ↔ Accepts N u :=
  accept_iff_of_nulFree (w := String.mk u) hu

/-- The language of `simpleNFA(c)`. -/
theorem accepts_simple (c : Char) (hc : c ≠ NUL) (w : List Char) :
    Accepts (simpleNFA c) w ↔ w = [c] := by
  have hnext0 : ∀ d x, x ∈ next_states (simpleNFA c) "0" d ↔ d = c ∧ x = "1" := by
    intro d x
    rw [mem_next_states, simpleNFA_eq]
    simp only [map_find]
    by_cases hd : d = c
    · subst hd; simp
    · have : ("0", c) ≠ ("0", d) := fun e => hd (Prod.mk.inj e).2.symm
      simp [this, hd]
  have hdead : ∀ d, next_states (simpleNFA c) "1" d = [] := by
    intro d
    apply next_states_eq_nil
    rw [simpleNFA_eq]
    have : ("0", c) ≠ ("1", d) := fun e => absurd (Prod.mk.inj e).1 (by decide)
    simp [map_find, this]
  unfold Accepts
  constructor
  · rintro ⟨f, hf, hp⟩
    have hf1 : f = "1" := by
      rw [simpleNFA_eq] at hf
      simpa using hf
    subst hf1
    have hinit : (simpleNFA c).initial_state = "0" := rfl
    rw [hinit] at hp
    generalize hx : ("0" : State) = x at hp
    generalize hy : ("1" : State) = y at hp
    cases hp with
    | refl => exact absurd (hx.trans hy.symm) (by decide)
    | eps hst _ =>
      subst hx
      exact absurd ((hnext0 _ _).1 (mem_of_step hst)).1.symm hc
    | sym hd hst hrest =>
      subst hx hy
      obtain ⟨e1, e2⟩ := (hnext0 _ _).1 (mem_of_step hst)
      subst e1 e2
      obtain ⟨hw, -⟩ := Path.dead hdead hrest
      rw [hw]
  · intro hw
    subst hw
    refine ⟨"1", ?_, ?_⟩
    · rw [simpleNFA_eq]; simp
    · exact Path.sym hc (step_of_mem ((hnext0 c "1").2 ⟨rfl, rfl⟩)) (Path.refl _)

theorem starL_iff_flatten (P : List Char → Prop) (w : List Char) :
    StarL P w ↔ ∃ ws : List (List Char), w = ws.flatten ∧ ∀ u ∈ ws, P u := by
  constructor
  · intro h
    induction h with
    | nil => exact ⟨[], rfl, fun u hu => nomatch hu⟩
    | @cons u v hu _ ih =>
      obtain ⟨ws, hw, hall⟩ := ih
      refine ⟨u :: ws, by rw [hw]; rfl, ?_⟩
      intro x hx
      rcases List.mem_cons.1 hx with e | e
      · subst e; exact hu
      · exact hall x e
  · rintro ⟨ws, hw, hall⟩
    subst hw
    induction ws with
    | nil => exact StarL.nil
    | cons u ws ih =>
      rw [List.flatten_cons]
      exact StarL.cons (hall u (List.mem_cons_self _ _))
        (ih (fun x hx => hall x (List.mem_cons_of_mem _ hx)))

theorem nulFree_of_flatten {w : String} {ws : List (List Char)} (hw : NulFree w)
    (h : w.data = ws.flatten) : ∀ u ∈ ws, ∀ c ∈ u, c ≠ NUL := by
  intro u hu c hc
  apply hw c
  rw [h]
  exact List.mem_flatten.2 ⟨u, hu, hc⟩

theorem nulFree_join {w : String} {ws : List String} (hw : NulFree w)
    (h : w = String.join ws) : ∀ u ∈ ws, NulFree u := by
  intro u hu c hc
  apply hw c
  rw [h, String.join_eq]
  exact List.mem_flatten.2 ⟨u.data, List.mem_map_of_mem _ hu, hc⟩

/-- Zero or more words accepted by `X`, as a list of strings. -/
theorem starL_accepts_iff_join (X : NFA) (w : String) (hw : NulFree w) :
    StarL (Accepts X) w.data ↔
      ∃ ws : List String, w = String.join ws ∧ ∀ u ∈ ws, accept X u = true := by
  rw [starL_iff_flatten]
  constructor
  · rintro ⟨ws, hflat, hall⟩
    have hnul := nulFree_of_flatten hw hflat
    refine ⟨ws.map String.mk, ?_, ?_⟩
    · apply String.ext
      rw [String.join_eq, List.map_map]
      have : (String.data ∘ String.mk) = id := rfl
      rw [this, List.map_id]
      exact hflat
    · intro u hu
      obtain ⟨l, hl, e⟩ := List.mem_map.1 hu
      subst e
      exact (accept_mk_iff (hnul l hl)).2 (hall l hl)
  · rintro ⟨ws, hjoin, hall⟩
    have hnul := nulFree_join hw hjoin
    refine ⟨ws.map String.data, ?_, ?_⟩
    · rw [hjoin, String.join_eq]
    · intro u hu
      obtain ⟨l, hl, e⟩ := List.mem_map.1 hu
      subst e
      exact (accept_iff_of_nulFree (hnul l hl)).1 (hall l hl)

/-- One or more words accepted by `X`, as a non-empty list of strings. -/
theorem plusL_accepts_iff_join (X : NFA) (w : String) (hw : NulFree w) :
    (∃ u v, w.data = u ++ v ∧ Accepts X u ∧ StarL (Accepts X) v) ↔
      ∃ ws : List String, ws ≠ [] ∧ w = String.join ws ∧ ∀ u ∈ ws, accept X u = true := by
  constructor
  · rintro ⟨u, v, huv, hu, hv⟩
    have hu0 : ∀ c ∈ u, c ≠ NUL := fun c hc => hw c (by rw [huv]; simp [hc])
    have hv0 : NulFree (String.mk v) := fun c hc => hw c (by rw [huv]; simp [hc])
    obtain ⟨ws, hjoin, hall⟩ := (starL_accepts_iff_join X (String.mk v) hv0).1 hv
    refine ⟨String.mk u :: ws, List.cons_ne_nil _ _, ?_, ?_⟩
    · apply String.ext
      have hvd : v = (List.map String.data ws).flatten := by
        have := congrArg String.data hjoin
        rw [String.join_eq] at this
        exact this
      rw [String.join_eq, huv, List.map_cons, List.flatten_cons, ← hvd]
    · intro x hx
      rcases List.mem_cons.1 hx with e | e
      · subst e; exact (accept_mk_iff hu0).2 hu
      · exact hall x e
  · rintro ⟨ws, hne, hjoin, hall⟩
    cases ws with
    | nil => exact absurd rfl hne
    | cons u ws =>
      have hdata : w.data = u.data ++ (String.join ws).data := by
        rw [hjoin, String.join_eq, String.join_eq, List.map_cons, List.flatten_cons]
      have hu0 : NulFree u := fun c hc => hw c (by rw [hdata]; simp [hc])
      have hv0 : NulFree (String.join ws) :=
        fun c hc => hw c (by rw [hdata]; exact List.mem_append_right _ hc)
      refine ⟨u.data, (String.join ws).data, hdata,
        (accept_iff_of_nulFree hu0).1 (hall u (List.mem_cons_self _ _)), ?_⟩
      exact (starL_accepts_iff_join X _ hv0).2
        ⟨ws, rfl, fun x hx => hall x (List.mem_cons_of_mem _ hx)⟩

theorem nulFree_empty : NulFree "" := by decide

end NFA

/-! ## The digits-dash-digits example of `main.cpp` -/

namespace NFA

theorem digit_nfa_built : ThompsonBuilt digit_nfa := by
  have hs : ∀ c : Char, c ≠ NUL → ThompsonBuilt (simpleNFA c) := ThompsonBuilt.simple
  exact ((((((((((hs '0' (by decide)).union (hs '1' (by decide))).union
    (hs '2' (by decide))).union (hs '3' (by decide))).union (hs '4' (by decide))).union
    (hs '5' (by decide))).union (hs '6' (by decide))).union (hs '7' (by decide))).union
    (hs '8' (by decide))).union (hs '9' (by decide)))

theorem accepts_digit_nfa (w : List Char) :
    Accepts digit_nfa w ↔ ∃ d, d ∈ digits ∧ w = [d] := by
  have hs : ∀ c : Char, c ≠ NUL → ThompsonInv (simpleNFA c) := fun c _ => thompsonInv_simple c
  have hu : ∀ {L R : NFA} (hL : ThompsonInv L) (hR : ThompsonInv R) (w : List Char),
      Accepts (nfa_union L R) w ↔ Accepts L w ∨ Accepts R w :=
    fun hL hR w => accepts_union _ _ (fun f hf => hL.acc_none hf NUL)
      (fun f hf => hR.acc_none hf NUL) w
  have i0 := thompsonInv_simple '0'
  have i1 := thompsonInv_union i0 (thompsonInv_simple '1')
  have i2 := thompsonInv_union i1 (thompsonInv_simple '2')
  have i3 := thompsonInv_union i2 (thompsonInv_simple '3')
  have i4 := thompsonInv_union i3 (thompsonInv_simple '4')
  have i5 := thompsonInv_union i4 (thompsonInv_simple '5')
  have i6 := thompsonInv_union i5 (thompsonInv_simple '6')
  have i7 := thompsonInv_union i6 (thompsonInv_simple '7')
  have i8 := thompsonInv_union i7 (thompsonInv_simple '8')
  unfold digit_nfa
  rw [hu i8 (thompsonInv_simple '9'), hu i7 (thompsonInv_simple '8'),
    hu i6 (thompsonInv_simple '7'), hu i5 (thompsonInv_simple '6'),
    hu i4 (thompsonInv_simple '5'), hu i3 (thompsonInv_simple '4'),
    hu i2 (thompsonInv_simple '3'), hu i1 (thompsonInv_simple '2'),
    hu i0 (thompsonInv_simple '1')]
  simp only [accepts_simple _ (by decide : ('0' : Char) ≠ NUL),
    accepts_simple _ (by decide : ('1' : Char) ≠ NUL),
    accepts_simple _ (by decide : ('2' : Char) ≠ NUL),
    accepts_simple _ (by decide : ('3' : Char) ≠ NUL),
    accepts_simple _ (by decide : ('4' : Char) ≠ NUL),
    accepts_simple _ (by decide : ('5' : Char) ≠ NUL),
    accepts_simple _ (by decide : ('6' : Char) ≠ NUL),
    accepts_simple _ (by decide : ('7' : Char) ≠ NUL),
    accepts_simple _ (by decide : ('8' : Char) ≠ NUL),
    accepts_simple _ (by decide : ('9' : Char) ≠ NUL)]
  simp only [digits, List.mem_cons, List.mem_singleton, List.not_mem_nil, or_false]
  constructor
  · intro h
    rcases h with ((((((((h | h) | h) | h) | h) | h) | h) | h) | h) | h <;>
      exact ⟨_, by simp, h⟩
  · rintro ⟨d, hd, hw⟩
    subst hw
    rcases hd with h | h | h | h | h | h | h | h | h | h <;> subst h <;> simp

/-- The language of the automaton of `(0|1|2|3|4|5|6|7|8|9).-.(0|1|2|3|4|5|6|7|8|9)`:
exactly the three-character words digit, dash, digit. -/
theorem accepts_digit_dash_digit (w : List Char) :
    Accepts digit_dash_digit w ↔ ∃ d e, d ∈ digits ∧ e ∈ digits ∧ w = [d, '-', e] := by
  have iD := digit_nfa_built.inv
  have iDash := thompsonInv_simple '-'
  have iC := thompsonInv_concat iD iDash
  unfold digit_dash_digit
  rw [accepts_concat _ _ (fun f hf => iC.acc_none hf NUL)]
  constructor
  · rintro ⟨u, v, hw, hu, hv⟩
    rw [accepts_concat _ _ (fun f hf => iD.acc_none hf NUL)] at hu
    obtain ⟨u1, u2, hu12, hu1, hu2⟩ := hu
    rw [accepts_digit_nfa] at hu1 hv
    rw [accepts_simple _ (by decide)] at hu2
    obtain ⟨d, hd, e1⟩ := hu1
    obtain ⟨e, he, e2⟩ := hv
    subst e1 e2 hu2 hu12 hw
    exact ⟨d, e, hd, he, rfl⟩
  · rintro ⟨d, e, hd, he, hw⟩
    subst hw
    refine ⟨[d, '-'], [e], rfl, ?_, (accepts_digit_nfa _).2 ⟨e, he, rfl⟩⟩
    rw [accepts_concat _ _ (fun f hf => iD.acc_none hf NUL)]
    exact ⟨[d], ['-'], rfl, (accepts_digit_nfa _).2 ⟨d, hd, rfl⟩,
      (accepts_simple _ (by decide) _).2 rfl⟩

end NFA

/-! ## The claims -/

namespace NFA

/-- The language of the automaton of
`(0|1|2|3|4|5|6|7|8|9).-.(0|1|2|3|4|5|6|7|8|9)` built from `simpleNFA`,
`nfa_union` and `nfa_concat`: it rejects `125446-47390124`, and it accepts a
string exactly when the part of the string before its first `'\0'` is one
digit, a dash and one digit, for instance `1-4`. -/
theorem digit_dash_digit_accept_iff :
    accept digit_dash_digit "125446-47390124" = false ∧
    accept digit_dash_digit "1-4" = true ∧
    ∀ w : String, accept digit_dash_digit w = true ↔
      ∃ d e, d ∈ digits ∧ e ∈ digits ∧ c_str w = [d, '-', e] := by
  have key : ∀ w : String, accept digit_dash_digit w = true ↔
      ∃ d e, d ∈ digits ∧ e ∈ digits ∧ c_str w = [d, '-', e] := by
    intro w
    rw [accept_iff, accepts_digit_dash_digit]
  refine ⟨?_, ?_, key⟩
  · rw [← Bool.not_eq_true, key]
    rintro ⟨d, e, -, -, h⟩
    have h3 : (c_str "125446-47390124").length = 3 := by rw [h]; rfl
    revert h3
    decide
  · rw [key]
    exact ⟨'1', '4', by decide, by decide, by decide⟩

/-- C1, the code at the input of `main.cpp`: on the automaton of
`(0|1|2|3|4|5|6|7|8|9).-.(0|1|2|3|4|5|6|7|8|9)` the call
`accept("125446-47390124")` does not return true, although `main.cpp` prints
the result under the label `T:`. -/
theorem digit_dash_digit_long_input_not_accepted :
    ¬ (accept digit_dash_digit "125446-47390124" = true) := by
  rw [accept_iff, accepts_digit_dash_digit]
  rintro ⟨d, e, -, -, h⟩
  have h3 : (c_str "125446-47390124").length = 3 := by rw [h]; rfl
  revert h3
  decide

/-- C2: the automaton of `(0|1|2|3|4|5|6|7|8|9).-.(0|1|2|3|4|5|6|7|8|9)` rejects
`125446`, and it rejects every string that contains no dash. -/
theorem digit_dash_digit_rejects_without_dash (w : String) (hw : '-' ∉ w.data) :
    accept digit_dash_digit "125446" = false ∧ accept digit_dash_digit w = false := by
  have key : ∀ w : String, '-' ∉ w.data → accept digit_dash_digit w = false := by
    intro w hw
    rw [← Bool.not_eq_true, accept_iff, accepts_digit_dash_digit]
    rintro ⟨d, e, -, -, h⟩
    apply hw
    have h1 : '-' ∈ c_str w := by rw [h]; simp
    exact (List.takeWhile_sublist _).subset h1
  exact ⟨key _ (by decide), key w hw⟩

theorem digit_dash_digit_rejects_without_dash_witness :
    '-' ∉ ("7" : String).data ∧
      (accept digit_dash_digit "125446" = false ∧ accept digit_dash_digit "7" = false) :=
  ⟨by decide, digit_dash_digit_rejects_without_dash "7" (by decide)⟩

/-- C3: for Thompson-built `L` and `R` and a string `w` without `'\0'`,
`L.nfa_concat(R).accept(w)` is true exactly when `w = u ++ v` for some `u`
accepted by `L` and some `v` accepted by `R`. -/
theorem nfa_concat_language (L R : NFA) (hL : ThompsonBuilt L) (_hR : ThompsonBuilt R)
    (w : String) (hw : NulFree w) :
    accept (nfa_concat L R) w = true ↔
      ∃ u v : String, w = u ++ v ∧ accept L u = true ∧ accept R v = true := by
  rw [accept_iff_of_nulFree hw, accepts_concat _ _ (fun f hf => hL.inv.acc_none hf NUL)]
  constructor
  · rintro ⟨u, v, huv, hu, hv⟩
    have hu0 : ∀ c ∈ u, c ≠ NUL := fun c hc => hw c (by rw [huv]; simp [hc])
    have hv0 : ∀ c ∈ v, c ≠ NUL := fun c hc => hw c (by rw [huv]; simp [hc])
    refine ⟨String.mk u, String.mk v, ?_, (accept_mk_iff hu0).2 hu, (accept_mk_iff hv0).2 hv⟩
    apply String.ext
    rw [String.data_append]
    exact huv
  · rintro ⟨u, v, huv, hu, hv⟩
    have hdata : w.data = u.data ++ v.data := by rw [huv, String.data_append]
    have hu0 : NulFree u := fun c hc => hw c (by rw [hdata]; simp [hc])
    have hv0 : NulFree v := fun c hc => hw c (by rw [hdata]; simp [hc])
    exact ⟨u.data, v.data, hdata, (accept_iff_of_nulFree hu0).1 hu,
      (accept_iff_of_nulFree hv0).1 hv⟩

theorem nfa_concat_language_witness :
    ThompsonBuilt (simpleNFA 'a') ∧ ThompsonBuilt (kleene_closure (simpleNFA 'b')) ∧
      NulFree "abb" ∧
      (accept (nfa_concat (simpleNFA 'a') (kleene_closure (simpleNFA 'b'))) "abb" = true ↔
        ∃ u v : String, "abb" = u ++ v ∧ accept (simpleNFA 'a') u = true ∧
          accept (kleene_closure (simpleNFA 'b')) v = true) :=
  ⟨ThompsonBuilt.simple 'a' (by decide),
    ThompsonBuilt.kleene (ThompsonBuilt.simple 'b' (by decide)), by decide,
    nfa_concat_language (simpleNFA 'a') (kleene_closure (simpleNFA 'b'))
      (ThompsonBuilt.simple 'a' (by decide))
      (ThompsonBuilt.kleene (ThompsonBuilt.simple 'b' (by decide))) "abb" (by decide)⟩

/-- C4: for Thompson-built `L` and `R` and a string `w` without `'\0'`,
`L.nfa_union(R).accept(w)` is true exactly when `L.accept(w)` or
`R.accept(w)`. -/
theorem nfa_union_language (L R : NFA) (hL : ThompsonBuilt L) (hR : ThompsonBuilt R)
    (w : String) (hw : NulFree w) :
    accept (nfa_union L R) w = true ↔ (accept L w = true ∨ accept R w = true) := by
  rw [accept_iff_of_nulFree hw, accept_iff_of_nulFree hw, accept_iff_of_nulFree hw,
    accepts_union _ _ (fun f hf => hL.inv.acc_none hf NUL)
      (fun f hf => hR.inv.acc_none hf NUL)]

theorem nfa_union_language_witness :
    ThompsonBuilt (simpleNFA 'c') ∧ ThompsonBuilt (simpleNFA 'd') ∧ NulFree "d" ∧
      (accept (nfa_union (simpleNFA 'c') (simpleNFA 'd')) "d" = true ↔
        (accept (simpleNFA 'c') "d" = true ∨ accept (simpleNFA 'd') "d" = true)) :=
  ⟨ThompsonBuilt.simple 'c' (by decide), ThompsonBuilt.simple 'd' (by decide), by decide,
    nfa_union_language (simpleNFA 'c') (simpleNFA 'd')
      (ThompsonBuilt.simple 'c' (by decide)) (ThompsonBuilt.simple 'd' (by decide))
      "d" (by decide)⟩

/-- C5: for a Thompson-built `X` and a string `w` without `'\0'`,
`X.kleene_closure().accept(w)` is true exactly when `w` is the concatenation of
zero or more strings that `X` accepts; the empty string is always accepted. -/
theorem kleene_closure_language (X : NFA) (hX : ThompsonBuilt X) (w : String)
    (hw : NulFree w) :
    (accept (kleene_closure X) w = true ↔
      ∃ ws : List String, w = String.join ws ∧ ∀ u ∈ ws, accept X u = true) ∧
    accept (kleene_closure X) "" = true := by
  refine ⟨?_, ?_⟩
  · rw [accept_iff_of_nulFree hw, accepts_kleene X hX.inv, starL_accepts_iff_join X w hw]
  · rw [accept_iff_of_nulFree nulFree_empty, accepts_kleene X hX.inv]
    exact StarL.nil

theorem kleene_closure_language_witness :
    ThompsonBuilt (simpleNFA 'b') ∧ NulFree "bbb" ∧
      ((accept (kleene_closure (simpleNFA 'b')) "bbb" = true ↔
        ∃ ws : List String, "bbb" = String.join ws ∧
          ∀ u ∈ ws, accept (simpleNFA 'b') u = true) ∧
      accept (kleene_closure (simpleNFA 'b')) "" = true) :=
  ⟨ThompsonBuilt.simple 'b' (by decide), by decide,
    kleene_closure_language (simpleNFA 'b') (ThompsonBuilt.simple 'b' (by decide)) "bbb"
      (by decide)⟩

/-- C6: for a Thompson-built `X` and a string `w` without `'\0'`,
`X.plus_closure().accept(w)` is true exactly when `w` is the concatenation of
one or more strings that `X` accepts; the empty string is accepted only if `X`
accepts the empty string. -/
theorem plus_closure_language (X : NFA) (hX : ThompsonBuilt X) (w : String)
    (hw : NulFree w) :
    (accept (plus_closure X) w = true ↔
      ∃ ws : List String, ws ≠ [] ∧ w = String.join ws ∧ ∀ u ∈ ws, accept X u = true) ∧
    (accept (plus_closure X) "" = true → accept X "" = true) := by
  refine ⟨?_, ?_⟩
  · rw [accept_iff_of_nulFree hw, accepts_plus X hX.inv, plusL_accepts_iff_join X w hw]
  · rw [accept_iff_of_nulFree nulFree_empty, accepts_plus X hX.inv,
      accept_iff_of_nulFree nulFree_empty]
    rintro ⟨u, v, huv, hu, -⟩
    have hnil : ("" : String).data = [] := rfl
    rw [hnil] at huv ⊢
    have : u = [] := (List.append_eq_nil.1 huv.symm).1
    subst this
    exact hu

theorem plus_closure_language_witness :
    ThompsonBuilt (simpleNFA 'b') ∧ NulFree "bb" ∧
      ((accept (plus_closure (simpleNFA 'b')) "bb" = true ↔
        ∃ ws : List String, ws ≠ [] ∧ "bb" = String.join ws ∧
          ∀ u ∈ ws, accept (simpleNFA 'b') u = true) ∧
      (accept (plus_closure (simpleNFA 'b')) "" = true →
        accept (simpleNFA 'b') "" = true)) :=
  ⟨ThompsonBuilt.simple 'b' (by decide), by decide,
    plus_closure_language (simpleNFA 'b') (ThompsonBuilt.simple 'b' (by decide)) "bb"
      (by decide)⟩

/-- C7, as the code has it: for every character `c` other than `'\0'`,
`simpleNFA(c)` has the two states `"0"` (initial) and `"1"` (the only accepting
state) and the one transition from `"0"` on `c` to `{"1"}`; `accept(w)` is true
exactly when the part of `w` before its first `'\0'` is the one character `c`,
so for a string `w` without `'\0'` exactly when `w` is the one-character
string `c`. -/
theorem simpleNFA_language (c : Char) (hc : c ≠ NUL) :
    simpleNFA c = { states := ["0", "1"], initial_state := "0",
                    transitions := [(("0", c), ["1"])], accepting_states := ["1"] } ∧
    (∀ w : String, accept (simpleNFA c) w = true ↔ c_str w = [c]) ∧
    (∀ w : String, NulFree w → (accept (simpleNFA c) w = true ↔ w = String.singleton c)) := by
  refine ⟨rfl, ?_, ?_⟩
  · intro w
    rw [accept_iff, accepts_simple c hc]
  · intro w hw
    rw [accept_iff_of_nulFree hw, accepts_simple c hc]
    constructor
    · intro h
      apply String.ext
      rw [h]
      rfl
    · intro h
      rw [h]
      rfl

theorem simpleNFA_language_witness :
    ('a' : Char) ≠ NUL ∧
    (simpleNFA 'a' = { states := ["0", "1"], initial_state := "0",
                       transitions := [(("0", 'a'), ["1"])], accepting_states := ["1"] } ∧
    (∀ w : String, accept (simpleNFA 'a') w = true ↔ c_str w = ['a']) ∧
    (∀ w : String, NulFree w →
      (accept (simpleNFA 'a') w = true ↔ w = String.singleton 'a'))) :=
  ⟨by decide, simpleNFA_language 'a' (by decide)⟩

/-- C7 as stated fails: `simpleNFA('a')` accepts the three-character string
`a`, `'\0'`, `b`, which is not the one-character string `a`. -/
theorem simpleNFA_accepts_past_NUL :
    accept (simpleNFA 'a') (String.mk ['a', NUL, 'b']) = true ∧
      String.mk ['a', NUL, 'b'] ≠ String.singleton 'a' := by
  decide

end NFA

/-! ## Facts about `std::map` assignment -/

theorem map_at_assign {κ ν : Type} [DecidableEq κ] (m : List (κ × ν)) (k key : κ) (v : ν) :
    map_at (map_assign m k v) key = if k = key then some v else map_at m key := by
  induction m with
  | nil => simp [map_assign, map_at]
  | cons a m ih =>
    obtain ⟨k0, w⟩ := a
    simp only [map_assign]
    by_cases h0 : k0 = k
    · subst h0
      simp only [if_true, map_at]
      by_cases h1 : k0 = key
      · simp [h1]
      · simp [h1]
    · simp only [if_neg h0, map_at, ih]
      by_cases h1 : k0 = key
      · subst h1
        simp [Ne.symm h0]
      · simp [h1]

theorem length_map_assign {κ ν : Type} [DecidableEq κ] (m : List (κ × ν)) (k : κ) (v : ν) :
    (map_assign m k v).length = if (map_at m k).isSome then m.length else m.length + 1 := by
  induction m with
  | nil => simp [map_assign, map_at]
  | cons a m ih =>
    obtain ⟨k0, w⟩ := a
    simp only [map_assign, map_at]
    by_cases h0 : k0 = k
    · simp [h0]
    · simp only [if_neg h0, List.length_cons, ih]
      split <;> rfl

theorem to_int_of_lt {n : Nat} (h : n < 2 ^ 31) : to_int n = (n : Int) := by
  unfold to_int
  have h2 : (n : Int) < 2 ^ 31 := by exact_mod_cast h
  omega

namespace Bimap

theorem insert_index_eq (b : Bimap) (i : Int) (r : Rule) : b.insert_index i r = b.insert r i :=
  rfl

theorem position_append_of_mem {r : Rule} {l : List Rule} (m : List Rule) (h : r ∈ l) :
    position r (l ++ m) = position r l := by
  induction l with
  | nil => cases h
  | cons x xs ih =>
    simp only [List.cons_append, position]
    by_cases hx : x = r
    · simp [hx]
    · simp only [if_neg hx]
      rcases List.mem_cons.1 h with e | e
      · exact absurd e.symm hx
      · have := ih e
        show position r (xs ++ m) + 1 = _
        rw [this]

theorem position_append_of_not_mem {r : Rule} {l : List Rule} (m : List Rule) (h : r ∉ l) :
    position r (l ++ m) = l.length + position r m := by
  induction l with
  | nil => simp
  | cons x xs ih =>
    simp only [List.cons_append, position, List.length_cons]
    have hx : x ≠ r := fun e => h (e ▸ List.mem_cons_self _ _)
    rw [if_neg hx]
    have := ih (fun hm => h (List.mem_cons_of_mem _ hm))
    show position r (xs ++ m) + 1 = _
    rw [this]
    omega

theorem position_lt {r : Rule} {l : List Rule} (h : r ∈ l) : position r l < l.length := by
  induction l with
  | nil => cases h
  | cons x xs ih =>
    simp only [position, List.length_cons]
    by_cases hx : x = r
    · simp [hx]
    · simp only [if_neg hx]
      rcases List.mem_cons.1 h with e | e
      · exact absurd e.symm hx
      · have := ih e
        omega

theorem getElem?_position {r : Rule} {l : List Rule} (h : r ∈ l) :
    l[position r l]? = some r := by
  induction l with
  | nil => cases h
  | cons x xs ih =>
    simp only [position]
    by_cases hx : x = r
    · simp [hx]
    · simp only [if_neg hx]
      rcases List.mem_cons.1 h with e | e
      · exact absurd e.symm hx
      · simpa using ih e

theorem holds_empty : Holds empty [] := by
  refine ⟨rfl, ?_, ?_⟩
  · intro i; simp [at_index, empty, map_at]
  · intro r; simp [at_rule, empty, map_at]

theorem holds_insert {b : Bimap} {pre : List Rule} {r : Rule} (h : Holds b pre)
    (hr : r ∉ pre) (hlen : pre.length < 2 ^ 31) : Holds (b.insert r b.size) (pre ++ [r]) := by
  obtain ⟨h1, h2, h3⟩ := h
  have hsize : b.size = (pre.length : Int) := by
    unfold size
    rw [h1, to_int_of_lt hlen]
  rw [hsize]
  refine ⟨?_, ?_, ?_⟩
  · simp only [insert, length_map_assign, List.length_append, List.length_singleton]
    have : map_at b.rule_getter (pre.length : Int) = none := by
      have := h2 (pre.length : Int)
      simp only [at_index] at this
      rw [this]
      simp
    rw [this]
    simp [h1]
  · intro i
    simp only [at_index, insert, map_at_assign]
    by_cases hi : (pre.length : Int) = i
    · subst hi
      simp
    · rw [if_neg hi]
      have := h2 i
      simp only [at_index] at this
      rw [this]
      by_cases h0 : 0 ≤ i
      · simp only [if_pos h0]
        have hne : i.toNat ≠ pre.length := by
          intro e
          apply hi
          omega
        rcases Nat.lt_or_gt_of_ne hne with hlt | hgt
        · rw [List.getElem?_append_left hlt]
        · rw [List.getElem?_eq_none (by omega), List.getElem?_eq_none (by simp; omega)]
      · simp only [if_neg h0]
  · intro x
    simp only [at_rule, insert, map_at_assign]
    by_cases hx : r = x
    · subst hx
      have e : position r (pre ++ [r]) = pre.length := by
        rw [position_append_of_not_mem _ hr]
        simp [position]
      simp [e]
    · rw [if_neg hx]
      have := h3 x
      simp only [at_rule] at this
      rw [this]
      by_cases hmem : x ∈ pre
      · simp [hmem, position_append_of_mem [r] hmem]
      · have : x ∉ pre ++ [r] := by
          simp [hmem, Ne.symm hx]
        simp [hmem, this]

theorem holds_insert_all (rs : List Rule) : ∀ (b : Bimap) (pre : List Rule),
    Holds b pre → (pre ++ rs).Nodup → (pre ++ rs).length < 2 ^ 31 →
    Holds (insert_all b rs) (pre ++ rs) := by
  induction rs with
  | nil => intro b pre h _ _; simpa [insert_all] using h
  | cons r rs ih =>
    intro b pre h hnd hlen
    simp only [insert_all]
    have e : pre ++ r :: rs = (pre ++ [r]) ++ rs := by simp
    rw [e] at hnd hlen ⊢
    have hr : r ∉ pre := by
      intro hmem
      have := (List.nodup_append.1 (List.nodup_append.1 hnd).1).2.2
      exact this hmem (List.mem_singleton_self r)
    have hl : pre.length < 2 ^ 31 := by
      simp only [List.length_append, List.length_singleton] at hlen
      omega
    exact ih _ _ (holds_insert h hr hl) hnd hlen

end Bimap

theorem mem_keys_map_assign {κ ν : Type} [DecidableEq κ] (m : List (κ × ν)) (k x : κ)
    (v : ν) : x ∈ (map_assign m k v).map Prod.fst ↔ x = k ∨ x ∈ m.map Prod.fst := by
  induction m with
  | nil => simp [map_assign]
  | cons a m ih =>
    obtain ⟨k0, w⟩ := a
    simp only [map_assign]
    by_cases h0 : k0 = k
    · subst h0
      simp
    · simp only [if_neg h0, List.map_cons, List.mem_cons, ih]
      tauto

theorem nodup_keys_map_assign {κ ν : Type} [DecidableEq κ] (m : List (κ × ν)) (k : κ) (v : ν)
    (h : (m.map Prod.fst).Nodup) : ((map_assign m k v).map Prod.fst).Nodup := by
  induction m with
  | nil => simp [map_assign]
  | cons a m ih =>
    obtain ⟨k0, w⟩ := a
    simp only [map_assign]
    simp only [List.map_cons, List.nodup_cons] at h
    by_cases h0 : k0 = k
    · subst h0
      simp only [if_true, List.map_cons, List.nodup_cons]
      exact h
    · simp only [if_neg h0, List.map_cons, List.nodup_cons]
      refine ⟨?_, ih h.2⟩
      rw [mem_keys_map_assign]
      rintro (e | e)
      · exact h0 e
      · exact h.1 e

namespace Bimap

theorem position_of_getElem? {l : List Rule} (hnd : l.Nodup) :
    ∀ (k : Nat) (r : Rule), l[k]? = some r → position r l = k := by
  induction l with
  | nil => intro k r h; simp at h
  | cons x xs ih =>
    intro k r h
    simp only [List.nodup_cons] at hnd
    cases k with
    | zero =>
      simp only [List.getElem?_cons_zero, Option.some.injEq] at h
      simp [position, h]
    | succ k =>
      simp only [List.getElem?_cons_succ] at h
      have hmem : r ∈ xs := List.getElem?_mem h
      have hx : x ≠ r := fun e => hnd.1 (e ▸ hmem)
      simp only [position, if_neg hx]
      rw [ih hnd.2 k r h]

theorem consistent_empty : Consistent empty := by
  refine ⟨?_, rfl, ?_⟩
  · intro i r; simp [at_index, at_rule, empty, map_at]
  · simp [empty]

theorem consistent_insert {b : Bimap} {r : Rule} {i : Int} (h : Consistent b)
    (hnew : ∀ r0 j, b.at_rule r0 = some j → (r0 = r ↔ j = i)) :
    Consistent (b.insert r i) := by
  obtain ⟨h1, h2, h3⟩ := h
  refine ⟨?_, ?_, nodup_keys_map_assign _ _ _ h3⟩
  · intro x y
    simp only [at_index, at_rule, insert, map_at_assign]
    by_cases hx : i = x
    · subst hx
      simp only [if_true, Option.some.injEq]
      by_cases hy : r = y
      · simp [hy]
      · simp only [if_neg hy, hy, false_iff]
        intro hig
        exact hy ((hnew y i hig).2 rfl).symm
    · simp only [if_neg hx]
      by_cases hy : r = y
      · subst hy
        simp only [if_true, Option.some.injEq, hx, iff_false]
        intro hrg
        exact hx ((hnew r x ((h1 x r).1 hrg)).1 rfl).symm
      · simp only [if_neg hy]
        exact h1 x y
  · simp only [insert, length_map_assign]
    have hiff : (map_at b.rule_getter i).isSome = (map_at b.index_getter r).isSome := by
      cases hrg : map_at b.rule_getter i with
      | some r0 =>
        have hig := (h1 i r0).1 hrg
        have : r0 = r := (hnew r0 i hig).2 rfl
        subst this
        simp only [at_rule] at hig
        rw [hig]
        rfl
      | none =>
        cases hig : map_at b.index_getter r with
        | none => rfl
        | some j =>
          have : j = i := (hnew r j hig).1 rfl
          subst this
          have := (h1 j r).2 hig
          simp only [at_index] at this
          rw [this] at hrg
          cases hrg
    rw [hiff, h2]

theorem consistent_run (cs : List Call) : ∀ b : Bimap, Consistent b →
    (∀ r0 j, b.at_rule r0 = some j → ∀ c ∈ cs, (r0 = c.2.1 ↔ j = c.2.2)) →
    (∀ c1 ∈ cs, ∀ c2 ∈ cs, (c1.2.1 = c2.2.1 ↔ c1.2.2 = c2.2.2)) →
    Consistent (run b cs) := by
  induction cs with
  | nil => intro b h _ _; exact h
  | cons c cs ih =>
    intro b h hb hcs
    obtain ⟨o, r, i⟩ := c
    have hstep : Consistent (b.insert r i) :=
      consistent_insert h (fun r0 j hj => hb r0 j hj (o, r, i) (List.mem_cons_self _ _))
    have hrun : run b ((o, r, i) :: cs) = run (b.insert r i) cs := by
      cases o <;> rfl
    rw [hrun]
    apply ih _ hstep
    · intro r0 j hj c hc
      simp only [at_rule, insert, map_at_assign] at hj
      by_cases hr : r = r0
      · subst hr
        simp only [if_true, Option.some.injEq] at hj
        subst hj
        exact hcs (o, r, i) (List.mem_cons_self _ _) c (List.mem_cons_of_mem _ hc)
      · rw [if_neg hr] at hj
        exact hb r0 j hj c (List.mem_cons_of_mem _ hc)
    · intro c1 hc1 c2 hc2
      exact hcs c1 (List.mem_cons_of_mem _ hc1) c2 (List.mem_cons_of_mem _ hc2)

end Bimap

/-- C8: rules that are pairwise distinct, inserted into an empty `Bimap` one
after the other with `insert(rule, size())`, get the indices `0 .. N-1` in
order: afterwards `size() = N`, the rule at position `k` is found under the
index `k` and the index `k` under that rule, and nothing else is stored.  The
number `N` of rules is a value of `int`. -/
theorem bimap_dense_bijection (rs : List Rule) (hnd : rs.Nodup) (hlen : rs.length < 2 ^ 31) :
    (Bimap.insert_all Bimap.empty rs).size = (rs.length : Int) ∧
    (∀ (k : Nat) (r : Rule), rs[k]? = some r →
      (Bimap.insert_all Bimap.empty rs).at_index (k : Int) = some r ∧
      (Bimap.insert_all Bimap.empty rs).at_rule r = some (k : Int)) ∧
    (∀ (i : Int) (r : Rule), (Bimap.insert_all Bimap.empty rs).at_index i = some r →
      ∃ k : Nat, k < rs.length ∧ i = (k : Int) ∧ rs[k]? = some r) ∧
    (∀ (r : Rule) (i : Int), (Bimap.insert_all Bimap.empty rs).at_rule r = some i →
      ∃ k : Nat, k < rs.length ∧ i = (k : Int) ∧ rs[k]? = some r) := by
  obtain ⟨h1, h2, h3⟩ := Bimap.holds_insert_all rs Bimap.empty [] Bimap.holds_empty
    (by simpa using hnd) (by simpa using hlen)
  simp only [List.nil_append] at h1 h2 h3
  refine ⟨?_, ?_, ?_, ?_⟩
  · unfold Bimap.size
    rw [h1, to_int_of_lt hlen]
  · intro k r hk
    refine ⟨?_, ?_⟩
    · rw [h2]
      simp [hk]
    · rw [h3, if_pos (List.getElem?_mem hk), Bimap.position_of_getElem? hnd k r hk]
  · intro i r hi
    rw [h2] at hi
    split at hi
    · rename_i h0
      have hlt : i.toNat < rs.length := by
        by_contra hge
        rw [List.getElem?_eq_none (by omega)] at hi
        cases hi
      exact ⟨i.toNat, hlt, by omega, hi⟩
    · cases hi
  · intro r i hi
    rw [h3] at hi
    split at hi
    · rename_i hmem
      simp only [Option.some.injEq] at hi
      exact ⟨Bimap.position r rs, Bimap.position_lt hmem, hi.symm,
        Bimap.getElem?_position hmem⟩
    · cases hi

theorem bimap_dense_bijection_witness :
    ([("S", ["a", "S"]), ("S", ["#"])] : List Rule).Nodup ∧
    ([("S", ["a", "S"]), ("S", ["#"])] : List Rule).length < 2 ^ 31 ∧
    (Bimap.insert_all Bimap.empty [("S", ["a", "S"]), ("S", ["#"])]).size = 2 ∧
    (Bimap.insert_all Bimap.empty [("S", ["a", "S"]), ("S", ["#"])]).at_index 1
      = some ("S", ["#"]) ∧
    (Bimap.insert_all Bimap.empty [("S", ["a", "S"]), ("S", ["#"])]).at_rule ("S", ["#"])
      = some 1 :=
  have h := bimap_dense_bijection [("S", ["a", "S"]), ("S", ["#"])] (by decide) (by decide)
  ⟨by decide, by decide, h.1, (h.2.1 1 ("S", ["#"]) rfl).1, (h.2.1 1 ("S", ["#"]) rfl).2⟩

/-- C9 as stated fails: after `insert(A, 0)` and `insert(B, 0)` the rule `A` is
still mapped to the index 0, which now holds the rule `B`; and `size()` is 1
with two distinct rules stored. -/
theorem bimap_overwritten_index_inconsistent :
    (Bimap.run Bimap.empty [(true, ("A", []), 0), (true, ("B", []), 0)]).at_rule ("A", [])
      = some 0 ∧
    (Bimap.run Bimap.empty [(true, ("A", []), 0), (true, ("B", []), 0)]).at_index 0
      = some ("B", []) ∧
    (Bimap.run Bimap.empty [(true, ("A", []), 0), (true, ("B", []), 0)]).size = 1 ∧
    (Bimap.run Bimap.empty
      [(true, ("A", []), 0), (true, ("B", []), 0)]).index_getter.length = 2 := by
  decide

/-- C9, as the code has it: after a sequence of `insert` calls (either
overload) that never gives one rule two different indices nor one index two
different rules, `rule_getter` maps `i` to `r` exactly when `index_getter` maps
`r` to `i`, no rule is stored under two indices, and `size()` is the number of
distinct rules stored (as an `int`). -/
theorem bimap_consistent_after_inserts (cs : List Bimap.Call)
    (hcs : ∀ c1 ∈ cs, ∀ c2 ∈ cs, (c1.2.1 = c2.2.1 ↔ c1.2.2 = c2.2.2)) :
    (∀ (i : Int) (r : Rule), (Bimap.run Bimap.empty cs).at_index i = some r ↔
      (Bimap.run Bimap.empty cs).at_rule r = some i) ∧
    (∀ (r : Rule) (i j : Int), (Bimap.run Bimap.empty cs).at_index i = some r →
      (Bimap.run Bimap.empty cs).at_index j = some r → i = j) ∧
    (Bimap.run Bimap.empty cs).size =
      to_int (((Bimap.run Bimap.empty cs).index_getter.map Prod.fst).dedup.length) := by
  obtain ⟨h1, h2, h3⟩ := Bimap.consistent_run cs Bimap.empty Bimap.consistent_empty
    (by intro r0 j hj; simp [Bimap.at_rule, Bimap.empty, map_at] at hj) hcs
  refine ⟨h1, ?_, ?_⟩
  · intro r i j hi hj
    have e1 := (h1 i r).1 hi
    have e2 := (h1 j r).1 hj
    rw [e1] at e2
    exact Option.some.inj e2
  · unfold Bimap.size
    rw [h3.dedup, List.length_map, h2]

theorem bimap_consistent_after_inserts_witness :
    (∀ c1 ∈ ([(true, ("A", []), 0), (false, ("B", []), 1), (true, ("A", []), 0)] :
        List Bimap.Call),
      ∀ c2 ∈ ([(true, ("A", []), 0), (false, ("B", []), 1), (true, ("A", []), 0)] :
        List Bimap.Call), (c1.2.1 = c2.2.1 ↔ c1.2.2 = c2.2.2)) ∧
    (Bimap.run Bimap.empty
      [(true, ("A", []), 0), (false, ("B", []), 1), (true, ("A", []), 0)]).size =
      to_int (((Bimap.run Bimap.empty
        [(true, ("A", []), 0), (false, ("B", []), 1), (true, ("A", []), 0)]).index_getter.map
          Prod.fst).dedup.length) :=
  ⟨by decide,
    (bimap_consistent_after_inserts
      [(true, ("A", []), 0), (false, ("B", []), 1), (true, ("A", []), 0)] (by decide)).2.2⟩

/-- C10 as stated fails: with no argument after the program name (`argc = 1`)
`main` prints the usage text and returns the exit code 0. -/
theorem main_without_arguments_returns_zero :
    main 1 ["LL1_parser"] = Outcome.usage 0 ∧
      main 1 ["LL1_parser"] ≠ AbortTranslation Error.InvalidCommandLineArgs := by
  decide

/-- C10, as the code has it: with fewer than three arguments after the program
name (`argc < 4`), `main` aborts with `InvalidCommandLineArgs` when there are
one or two of them (`argc` 2 or 3); with none (`argc < 2`) it prints the usage
text and returns the exit code 0. -/
theorem main_wrong_arity (argc : Int) (argv : List String) (h : argc < 4) :
    (argc < 2 ∧ main argc argv = Outcome.usage 0) ∨
    (2 ≤ argc ∧ main argc argv = AbortTranslation Error.InvalidCommandLineArgs) := by
  by_cases h2 : argc < 2
  · refine Or.inl ⟨h2, ?_⟩
    unfold main
    rw [if_pos h2]
  · refine Or.inr ⟨by omega, ?_⟩
    unfold main
    rw [if_neg h2]
    by_cases h3 : argc < 3
    · rw [if_pos h3]
    · rw [if_neg h3, if_pos h]

theorem main_wrong_arity_witness :
    (3 : Int) < 4 ∧
    (((3 : Int) < 2 ∧ main 3 ["LL1_parser", "grammar.txt", "regex.txt"] = Outcome.usage 0) ∨
     ((2 : Int) ≤ 3 ∧ main 3 ["LL1_parser", "grammar.txt", "regex.txt"]
        = AbortTranslation Error.InvalidCommandLineArgs)) :=
  ⟨by decide, main_wrong_arity 3 ["LL1_parser", "grammar.txt", "regex.txt"] (by decide)⟩

/-! ## The flag of `main`, acceptance and the epsilon closure -/

/-- C11 as stated fails: with the four arguments `grammar.txt`, `regex.txt`,
`input` and the unknown flag `-x`, `main` does not abort; it runs the pipeline
with verbose mode off. -/
theorem main_unknown_flag_runs_pipeline :
    main 5 ["LL1_parser", "grammar.txt", "regex.txt", "input", "-x"] = Outcome.pipeline false ∧
      main 5 ["LL1_parser", "grammar.txt", "regex.txt", "input", "-x"]
        ≠ AbortTranslation Error.InvalidCommandLineArgs := by
  decide

/-- C11, as the code has it: with at least four arguments after the program
name (`argc ≥ 5`), `main` runs the pipeline whatever `argv[4]` is, and verbose
mode is on exactly when `argv[4]` is `-v` or `-V`. -/
theorem main_flag (argc : Int) (argv : List String) (h : 5 ≤ argc) :
    main argc argv =
        Outcome.pipeline (decide (argv.getD 4 "" = "-v") || decide (argv.getD 4 "" = "-V")) ∧
      (main argc argv = Outcome.pipeline true ↔
        (argv.getD 4 "" = "-v" ∨ argv.getD 4 "" = "-V")) := by
  have hmain : main argc argv =
      Outcome.pipeline (decide (argv.getD 4 "" = "-v") || decide (argv.getD 4 "" = "-V")) := by
    unfold main
    rw [if_neg (by omega), if_neg (by omega), if_neg (by omega)]
    have : decide (argc > 4) = true := decide_eq_true (by omega)
    simp only [this, Bool.true_and]
  refine ⟨hmain, ?_⟩
  rw [hmain]
  simp

theorem main_flag_witness :
    (5 : Int) ≤ 5 ∧
      main 5 ["LL1_parser", "grammar.txt", "regex.txt", "input", "-V"] = Outcome.pipeline true :=
  ⟨by decide,
    (main_flag 5 ["LL1_parser", "grammar.txt", "regex.txt", "input", "-V"] (by decide)).1⟩

namespace NFA

/-- C12: for every NFA `N` (any transition map) and every string `w` without
`'\0'`, `N.accept(w)` is true exactly when some accepting state is reached from
the initial state by a run along entries of the transition map whose labels
other than `'\0'` spell `w`, with any number of epsilon transitions (entries
keyed on `'\0'`) before, between and after them. -/
theorem accept_standard_acceptance (N : NFA) (w : String) (hw : NulFree w) :
    accept N w = true ↔
      ∃ f, f ∈ N.accepting_states ∧ Path N N.initial_state w.data f :=
  accept_iff_of_nulFree hw

theorem accept_standard_acceptance_witness :
    NulFree "bb" ∧
      (accept (kleene_closure (simpleNFA 'b')) "bb" = true ↔
        ∃ f, f ∈ (kleene_closure (simpleNFA 'b')).accepting_states ∧
          Path (kleene_closure (simpleNFA 'b')) (kleene_closure (simpleNFA 'b')).initial_state
            ("bb" : String).data f) :=
  ⟨by decide, accept_standard_acceptance (kleene_closure (simpleNFA 'b')) "bb" (by decide)⟩

/-- C13: `e_closure(s)` is exactly the set of the states reachable from `s` by
zero or more entries of the transition map keyed on `'\0'` (each step goes
from a state `a` to a target stored under `(a, '\0')`), so it contains `s`;
`e_closure(S)` is the union of `e_closure(s)` over the states `s` of `S`, empty
for the empty set. -/
theorem e_closure_is_eps_reachability (N : NFA) (s : State) :
    (∀ x, x ∈ e_closure N s ↔
      Relation.ReflTransGen
        (fun a b => ∃ targets, map_find N.transitions (a, NUL) = some targets ∧ b ∈ targets)
        s x) ∧
    s ∈ e_closure N s ∧
    (∀ (S : List State) (x : State),
      x ∈ e_closure_set N S ↔ ∃ t, t ∈ S ∧ x ∈ e_closure N t) ∧
    e_closure_set N [] = [] := by
  refine ⟨fun x => mem_e_closure, mem_e_closure.2 Relation.ReflTransGen.refl, ?_, rfl⟩
  intro S x
  rw [mem_e_closure_set]
  constructor
  · rintro ⟨t, ht, h⟩; exact ⟨t, ht, mem_e_closure.2 h⟩
  · rintro ⟨t, ht, h⟩; exact ⟨t, ht, mem_e_closure.1 h⟩

end NFA

/-! ## The links of `nfa_concat` and the new states of `kleene_closure` -/

namespace NFA

/-- C14 as stated fails: the automaton with the one state `"0"`, initial and
accepting, and the epsilon transition from `"0"` to `"0"`, concatenated with
`simpleNFA('a')`: the only epsilon transition from `"p0"` goes to `{"p0"}`,
which does not contain `"q0"`. -/
theorem nfa_concat_link_dropped :
    "0" ∈ eps_loop_nfa.accepting_states ∧
    map_find (nfa_concat eps_loop_nfa (simpleNFA 'a')).transitions ("p" ++ "0", NUL)
      = some ["p0"] ∧
    "q" ++ (simpleNFA 'a').initial_state ∉ ["p0"] := by
  decide

/-- C14, as the code has it: for every pair `L`, `R`, in `L.nfa_concat(R)`
every accepting state `s` of `L` that has no epsilon transition of its own in
`L` gets, under its new name `"p" + s`, the epsilon transition to
`{"q" + R.initial_state}`; every accepting state of a Thompson-built `L` is
such a state; and the accepting set is exactly `{"q" + f | f accepting in R}`,
whatever `L` is. -/
theorem nfa_concat_links (L R : NFA) :
    (∀ s, s ∈ L.accepting_states → map_find L.transitions (s, NUL) = none →
      map_find (nfa_concat L R).transitions ("p" ++ s, NUL)
          = some (set_insert ("q" ++ R.initial_state) []) ∧
      "q" ++ R.initial_state ∈ next_states (nfa_concat L R) ("p" ++ s) NUL) ∧
    (ThompsonBuilt L →
      ∀ s, s ∈ L.accepting_states → map_find L.transitions (s, NUL) = none) ∧
    (∀ x, x ∈ (nfa_concat L R).accepting_states ↔
      ∃ f, f ∈ R.accepting_states ∧ x = "q" ++ f) := by
  refine ⟨?_, fun hL s hs => hL.inv.acc_none hs NUL, ?_⟩
  · intro s hs hfree
    have h1 : map_find (nfa_concat L R).transitions ("p" ++ s, NUL)
        = some (set_insert ("q" ++ R.initial_state) []) := by
      rw [concat_map_find_p, hfree]
      simp [hs]
    exact ⟨h1, mem_next_states.2 ⟨_, h1, by simp [set_insert]⟩⟩
  · intro x
    rw [concat_accepting]
    exact mem_getNewStatesName

theorem nfa_concat_links_witness :
    map_find (nfa_concat (simpleNFA 'a') (simpleNFA 'b')).transitions ("p" ++ "1", NUL)
        = some (set_insert ("q" ++ (simpleNFA 'b').initial_state) []) ∧
    (∀ x, x ∈ (nfa_concat eps_loop_nfa (simpleNFA 'a')).accepting_states ↔
      ∃ f, f ∈ (simpleNFA 'a').accepting_states ∧ x = "q" ++ f) :=
  ⟨((nfa_concat_links (simpleNFA 'a') (simpleNFA 'b')).1 "1" (by decide) (by decide)).1,
    (nfa_concat_links eps_loop_nfa (simpleNFA 'a')).2.2⟩

theorem closure_map_initial_of_new (X : NFA) (its : List State) (hwf : WellFormed X)
    (hi : "p_i" ++ X.initial_state ∉ X.states) (c : Char) :
    map_find (closure_map X its) ("p_i" ++ X.initial_state, c) =
      if c = NUL then some its else none := by
  unfold closure_map
  have hacc : "p_i" ++ X.initial_state ∉ X.accepting_states :=
    fun hmem => hi (hwf.2.1 _ hmem)
  rw [map_find_append, hwf.map_find_none c hi]
  simp only
  rw [map_find_append]
  simp only [map_find, map_find_loop_map]
  by_cases hc : c = NUL
  · subst hc; simp
  · have : ("p_i" ++ X.initial_state, NUL) ≠ ("p_i" ++ X.initial_state, c) :=
      fun e => hc (Prod.mk.inj e).2.symm
    simp [this, hc]

theorem length_set_insert_of_not_mem {x : State} {s : List State} (h : x ∉ s) :
    (set_insert x s).length = s.length + 1 := by
  simp [set_insert, h]

/-- C15 as stated fails: for the automaton with the states `"a"` (initial) and
`"p_ia"`, the name `"p_i" + "a"` of the new initial state of `kleene_closure`
is a state already, and the result has three states, not four. -/
theorem kleene_closure_name_collision :
    "p_i" ++ collision_nfa.initial_state ∈ collision_nfa.states ∧
    (kleene_closure collision_nfa).states.length = 3 ∧
    collision_nfa.states.length = 2 := by
  decide

/-- C15, as the code has it: for a well-formed `X` whose states contain neither
`"p_i" + X.initial_state` nor `"p_f" + X.initial_state`, the states of
`X.kleene_closure()` are those of `X` and these two, `|X.states| + 2` in all,
and the new initial state carries exactly the epsilon transition to
`{X.initial_state, "p_f" + X.initial_state}`. -/
theorem kleene_closure_new_states (X : NFA) (hwf : WellFormed X)
    (hi : "p_i" ++ X.initial_state ∉ X.states) (hf : "p_f" ++ X.initial_state ∉ X.states) :
    (kleene_closure X).states.length = X.states.length + 2 ∧
    (∀ x, x ∈ (kleene_closure X).states ↔
      x = "p_f" ++ X.initial_state ∨ x = "p_i" ++ X.initial_state ∨ x ∈ X.states) ∧
    (kleene_closure X).initial_state = "p_i" ++ X.initial_state ∧
    (kleene_closure X).accepting_states = ["p_f" ++ X.initial_state] ∧
    (∀ c x, x ∈ next_states (kleene_closure X) ("p_i" ++ X.initial_state) c ↔
      c = NUL ∧ (x = X.initial_state ∨ x = "p_f" ++ X.initial_state)) := by
  refine ⟨?_, ?_, kleene_initial X, ?_, ?_⟩
  · rw [kleene_states, length_set_insert_of_not_mem, length_set_insert_of_not_mem hi]
    intro h
    rcases mem_set_insert.1 h with e | e
    · exact p_i_ne_p_f _ _ e.symm
    · exact hf e
  · intro x
    rw [kleene_states, mem_set_insert, mem_set_insert]
  · rw [kleene_accepting]
    rfl
  · intro c x
    rw [mem_next_states, (closure_map_find X _).1]
    have := closure_map_initial_of_new X
      (set_insert X.initial_state (set_insert ("p_f" ++ X.initial_state) [])) hwf hi c
    unfold closure_map at this
    rw [this]
    by_cases hc : c = NUL
    · simp only [hc, if_true, Option.some.injEq, exists_eq_left', true_and]
      rw [mem_set_insert, mem_set_insert]
      simp
    · simp [hc]

theorem kleene_closure_new_states_witness :
    WellFormed (simpleNFA 'a') ∧
    "p_i" ++ (simpleNFA 'a').initial_state ∉ (simpleNFA 'a').states ∧
    "p_f" ++ (simpleNFA 'a').initial_state ∉ (simpleNFA 'a').states ∧
    (kleene_closure (simpleNFA 'a')).states.length = (simpleNFA 'a').states.length + 2 :=
  ⟨by decide, by decide, by decide,
    (kleene_closure_new_states (simpleNFA 'a') (by decide) (by decide) (by decide)).1⟩

end NFA

/-! ## State names never collide -/

namespace NFA

theorem set_insert_of_not_mem {x : State} {s : List State} (h : x ∉ s) :
    set_insert x s = s ++ [x] := by
  simp [set_insert, h]

theorem set_insert_range_eq_append : ∀ (src dst : List State), src.Nodup →
    (∀ x, x ∈ src → x ∉ dst) → set_insert_range dst src = dst ++ src := by
  intro src
  induction src with
  | nil => intro dst _ _; simp [set_insert_range]
  | cons a src ih =>
    intro dst hnd hdis
    simp only [List.nodup_cons] at hnd
    have ha : a ∉ dst := hdis a (List.mem_cons_self _ _)
    have hstep : set_insert_range dst (a :: src) = set_insert_range (set_insert a dst) src := rfl
    rw [hstep, set_insert_of_not_mem ha, ih (dst ++ [a]) hnd.2]
    · simp
    · intro x hx hmem
      rcases List.mem_append.1 hmem with h | h
      · exact hdis x (List.mem_cons_of_mem _ hx) h
      · simp only [List.mem_singleton] at h
        subst h
        exact hnd.1 hx

theorem getNewStatesName_eq_range (states : List State) (pfx : String) :
    getNewStatesName states pfx = set_insert_range [] (states.map (fun s => pfx ++ s)) := by
  unfold getNewStatesName set_insert_range
  rw [List.foldl_map]

theorem nodup_map_append {states : List State} (pfx : String) (h : states.Nodup) :
    (states.map (fun s => pfx ++ s)).Nodup :=
  List.Nodup.map (fun _ _ e => append_left_cancel e) h

theorem getNewStatesName_eq_map {states : List State} (pfx : String) (h : states.Nodup) :
    getNewStatesName states pfx = states.map (fun s => pfx ++ s) := by
  rw [getNewStatesName_eq_range,
    set_insert_range_eq_append _ [] (nodup_map_append pfx h) (fun _ _ hm => nomatch hm)]
  rfl

/-- The states of `L.nfa_concat(R)` when the state sets of `L` and `R` have no
duplicates: the renamed states of `L`, then the renamed states of `R`. -/
theorem concat_states_eq (L R : NFA) (hL : L.states.Nodup) (hR : R.states.Nodup) :
    (nfa_concat L R).states =
      L.states.map (fun s => "p" ++ s) ++ R.states.map (fun s => "q" ++ s) := by
  have h0 : (nfa_concat L R).states =
      set_insert_range (set_insert_range [] (getNewStatesName L.states "p"))
        (getNewStatesName R.states "q") := rfl
  rw [h0, getNewStatesName_eq_map "p" hL, getNewStatesName_eq_map "q" hR,
    set_insert_range_eq_append _ [] (nodup_map_append "p" hL) (fun _ _ hm => nomatch hm),
    set_insert_range_eq_append _ _ (nodup_map_append "q" hR)]
  · rfl
  · intro x hx hm
    simp only [List.nil_append, List.mem_map] at hx hm
    obtain ⟨a, -, ea⟩ := hx
    obtain ⟨b, -, eb⟩ := hm
    exact p_ne_q b a (eb.trans ea.symm)

theorem nodup_renamed_states (L R : NFA) (hL : L.states.Nodup) (hR : R.states.Nodup) :
    (L.states.map (fun s => "p" ++ s) ++ R.states.map (fun s => "q" ++ s)).Nodup := by
  refine List.nodup_append.2 ⟨nodup_map_append "p" hL, nodup_map_append "q" hR, ?_⟩
  intro x hx hm
  simp only [List.mem_map] at hx hm
  obtain ⟨a, -, ea⟩ := hx
  obtain ⟨b, -, eb⟩ := hm
  exact p_ne_q a b (ea.trans eb.symm)

theorem union_states_eq (L R : NFA) (hL : L.states.Nodup) (hR : R.states.Nodup) :
    (nfa_union L R).states =
      (L.states.map (fun s => "p" ++ s) ++ R.states.map (fun s => "q" ++ s)) ++
        ["i" ++ L.initial_state ++ R.initial_state] ++
        ["f" ++ L.initial_state ++ R.initial_state] := by
  have h0 : (nfa_union L R).states =
      set_insert ("f" ++ L.initial_state ++ R.initial_state)
        (set_insert ("i" ++ L.initial_state ++ R.initial_state) (nfa_concat L R).states) := rfl
  have hi : "i" ++ L.initial_state ++ R.initial_state ∉ (nfa_concat L R).states := by
    rw [concat_states_mem]
    rintro (⟨l, -, e⟩ | ⟨l, -, e⟩)
    · exact p_ne_i _ _ _ e.symm
    · exact q_ne_i _ _ _ e.symm
  have hf : "f" ++ L.initial_state ++ R.initial_state ∉
      (nfa_concat L R).states ++ ["i" ++ L.initial_state ++ R.initial_state] := by
    rw [List.mem_append, concat_states_mem]
    rintro ((⟨l, -, e⟩ | ⟨l, -, e⟩) | e)
    · exact p_ne_f _ _ _ e.symm
    · exact q_ne_f _ _ _ e.symm
    · simp only [List.mem_singleton] at e
      exact i_ne_f _ _ _ _ e.symm
  rw [h0, set_insert_of_not_mem hi, set_insert_of_not_mem hf, concat_states_eq L R hL hR]

theorem closure_states_eq (X : NFA) (hi : "p_i" ++ X.initial_state ∉ X.states)
    (hf : "p_f" ++ X.initial_state ∉ X.states) :
    set_insert ("p_f" ++ X.initial_state) (set_insert ("p_i" ++ X.initial_state) X.states) =
      X.states ++ ["p_i" ++ X.initial_state] ++ ["p_f" ++ X.initial_state] := by
  have hf2 : "p_f" ++ X.initial_state ∉ X.states ++ ["p_i" ++ X.initial_state] := by
    rw [List.mem_append]
    rintro (e | e)
    · exact hf e
    · simp only [List.mem_singleton] at e
      exact p_i_ne_p_f _ _ e.symm
  rw [set_insert_of_not_mem hi, set_insert_of_not_mem hf2]

theorem nodup_append_two {l : List State} {a b : State} (hl : l.Nodup) (ha : a ∉ l)
    (hb : b ∉ l) (hab : a ≠ b) : (l ++ [a] ++ [b]).Nodup := by
  rw [List.append_assoc]
  refine List.nodup_append.2 ⟨hl, ?_, ?_⟩
  · simp [hab]
  · intro x hx hm
    simp only [List.cons_append, List.nil_append, List.mem_cons, List.not_mem_nil,
      or_false] at hm
    rcases hm with e | e
    · exact ha (e ▸ hx)
    · exact hb (e ▸ hx)

end NFA

namespace Regex

/-- Every automaton the construction builds from an AST satisfies the
invariant, whatever the literal characters are. -/
theorem build_inv (r : Regex) : NFA.ThompsonInv (build r) := by
  induction r with
  | Literal c => exact NFA.thompsonInv_simple c
  | Concat L R ihL ihR => exact NFA.thompsonInv_concat ihL ihR
  | Alt L R ihL ihR => exact NFA.thompsonInv_union ihL ihR
  | Star X ih => exact NFA.thompsonInv_kleene ih
  | Plus X ih => exact NFA.thompsonInv_plus ih

/-- The state set of the automaton built from an AST has no duplicates and
two states per `Literal`, `Alt`, `Star` and `Plus` node. -/
theorem build_states (r : Regex) :
    (build r).states.Nodup ∧ (build r).states.length = 2 * nodes r := by
  induction r with
  | Literal c =>
    refine ⟨?_, rfl⟩
    show (["0", "1"] : List State).Nodup
    decide
  | Concat L R ihL ihR =>
    simp only [build, nodes]
    rw [NFA.concat_states_eq _ _ ihL.1 ihR.1]
    refine ⟨NFA.nodup_renamed_states _ _ ihL.1 ihR.1, ?_⟩
    simp only [List.length_append, List.length_map, ihL.2, ihR.2]
    omega
  | Alt L R ihL ihR =>
    simp only [build, nodes]
    rw [NFA.union_states_eq _ _ ihL.1 ihR.1]
    refine ⟨?_, ?_⟩
    · refine NFA.nodup_append_two (NFA.nodup_renamed_states _ _ ihL.1 ihR.1) ?_ ?_
        (NFA.i_ne_f _ _ _ _)
      · rw [← NFA.concat_states_eq _ _ ihL.1 ihR.1, NFA.concat_states_mem]
        rintro (⟨l, -, e⟩ | ⟨l, -, e⟩)
        · exact NFA.p_ne_i _ _ _ e.symm
        · exact NFA.q_ne_i _ _ _ e.symm
      · rw [← NFA.concat_states_eq _ _ ihL.1 ihR.1, NFA.concat_states_mem]
        rintro (⟨l, -, e⟩ | ⟨l, -, e⟩)
        · exact NFA.p_ne_f _ _ _ e.symm
        · exact NFA.q_ne_f _ _ _ e.symm
    · simp only [List.length_append, List.length_map, List.length_singleton, ihL.2, ihR.2]
      omega
  | Star X ih =>
    have hinv := build_inv X
    simp only [build, nodes]
    rw [NFA.kleene_states, NFA.closure_states_eq _ hinv.p_i_new hinv.p_f_new]
    refine ⟨NFA.nodup_append_two ih.1 hinv.p_i_new hinv.p_f_new (NFA.p_i_ne_p_f _ _), ?_⟩
    simp only [List.length_append, List.length_singleton, ih.2]
    omega
  | Plus X ih =>
    have hinv := build_inv X
    simp only [build, nodes]
    rw [NFA.plus_states, NFA.closure_states_eq _ hinv.p_i_new hinv.p_f_new]
    refine ⟨NFA.nodup_append_two ih.1 hinv.p_i_new hinv.p_f_new (NFA.p_i_ne_p_f _ _), ?_⟩
    simp only [List.length_append, List.length_singleton, ih.2]
    omega

/-- A Thompson-built automaton is the automaton of some AST. -/
theorem exists_of_thompsonBuilt {X : NFA} (h : NFA.ThompsonBuilt X) :
    ∃ r : Regex, build r = X := by
  induction h with
  | simple c _ => exact ⟨Literal c, rfl⟩
  | concat _ _ ihL ihR =>
    obtain ⟨l, hl⟩ := ihL
    obtain ⟨r, hr⟩ := ihR
    exact ⟨Concat l r, by simp only [build, hl, hr]⟩
  | union _ _ ihL ihR =>
    obtain ⟨l, hl⟩ := ihL
    obtain ⟨r, hr⟩ := ihR
    exact ⟨Alt l r, by simp only [build, hl, hr]⟩
  | kleene _ ih =>
    obtain ⟨x, hx⟩ := ih
    exact ⟨Star x, by simp only [build, hx]⟩
  | plus _ ih =>
    obtain ⟨x, hx⟩ := ih
    exact ⟨Plus x, by simp only [build, hx]⟩

/-- C16: for every regex AST built from `Literal`, `Concat`, `Alt`, `Star` and
`Plus`, the automaton built by `simpleNFA`, `nfa_concat`, `nfa_union`,
`kleene_closure` and `plus_closure` has exactly twice as many states as the AST
has `Literal`, `Alt`, `Star` and `Plus` nodes, and no state name occurs
twice. -/
theorem thompson_state_count (r : Regex) :
    (build r).states.length = 2 * nodes r ∧ (build r).states.Nodup :=
  ⟨(build_states r).2, (build_states r).1⟩

end Regex

/-! ## Singleton targets and well-formedness -/

namespace NFA

theorem getNewStatesName_singleton (t : State) (pfx : String) :
    getNewStatesName [t] pfx = [pfx ++ t] := by
  simp [getNewStatesName, set_insert]

theorem mem_rename_map_eq {pfx : String} {m : TransitionMap}
    {kv : (State × Char) × List State} (h : kv ∈ rename_map pfx m) :
    ∃ kv0, kv0 ∈ m ∧ kv = ((pfx ++ kv0.1.1, kv0.1.2), getNewStatesName kv0.2 pfx) := by
  simp only [rename_map, List.mem_map] at h
  obtain ⟨kv0, hkv0, heq⟩ := h
  exact ⟨kv0, hkv0, heq.symm⟩

theorem singleton_rename_map {pfx : String} {m : TransitionMap}
    (hm : ∀ kv ∈ m, kv.1.2 ≠ NUL → ∃ t, kv.2 = [t])
    {kv : (State × Char) × List State} (h : kv ∈ rename_map pfx m) (hc : kv.1.2 ≠ NUL) :
    ∃ t, kv.2 = [t] := by
  obtain ⟨kv0, hkv0, e⟩ := mem_rename_map_eq h
  subst e
  obtain ⟨t, ht⟩ := hm kv0 hkv0 hc
  refine ⟨pfx ++ t, ?_⟩
  show getNewStatesName kv0.2 pfx = [pfx ++ t]
  rw [ht, getNewStatesName_singleton]

/-- Every transition of a Thompson-built automaton on a character other than
`'\0'` has exactly one target. -/
theorem ThompsonBuilt.singleton_targets {X : NFA} (h : ThompsonBuilt X) :
    ∀ kv ∈ X.transitions, kv.1.2 ≠ NUL → ∃ t, kv.2 = [t] := by
  induction h with
  | simple c _ =>
    intro kv hkv _
    rw [simpleNFA_eq] at hkv
    simp only [List.mem_singleton] at hkv
    subst hkv
    exact ⟨"1", rfl⟩
  | @concat L R _ _ ihL ihR =>
    intro kv hkv hc
    rcases concat_entry L R hkv with h | h | h
    · exact singleton_rename_map ihL h hc
    · exact singleton_rename_map ihR h hc
    · obtain ⟨_, _, _, h2, _⟩ := mem_link_map h
      exact absurd h2 hc
  | @union L R _ _ ihL ihR =>
    intro kv hkv hc
    rcases union_entry L R hkv with h | h | h | h | h
    · exact singleton_rename_map ihL h hc
    · exact singleton_rename_map ihR h hc
    · subst h
      exact absurd rfl hc
    · obtain ⟨_, _, _, h2, _⟩ := mem_link_map h
      exact absurd h2 hc
    · obtain ⟨_, _, _, h2, _⟩ := mem_link_map h
      exact absurd h2 hc
  | @kleene X _ ih =>
    intro kv hkv hc
    rcases kleene_entry X hkv with h | h | h
    · exact ih kv h hc
    · subst h
      exact absurd rfl hc
    · exact absurd (mem_loop_map h).2.1 hc
  | @plus X _ ih =>
    intro kv hkv hc
    rcases plus_entry X hkv with h | h | h
    · exact ih kv h hc
    · subst h
      exact absurd rfl hc
    · exact absurd (mem_loop_map h).2.1 hc

/-- C17: in every Thompson-built automaton, each entry of the transition map
whose symbol is not `'\0'` maps to a set with exactly one state. -/
theorem thompson_singleton_targets (X : NFA) (hX : ThompsonBuilt X)
    (kv : (State × Char) × List State) (hkv : kv ∈ X.transitions) (hc : kv.1.2 ≠ NUL) :
    ∃ t, kv.2 = [t] :=
  hX.singleton_targets kv hkv hc

theorem thompson_singleton_targets_witness :
    ThompsonBuilt (nfa_concat (simpleNFA 'a') (kleene_closure (simpleNFA 'b'))) ∧
    ((("q0", 'b'), ["q1"]) : (State × Char) × List State) ∈
      (nfa_concat (simpleNFA 'a') (kleene_closure (simpleNFA 'b'))).transitions ∧
    ('b' : Char) ≠ NUL ∧
    ∃ t, ((("q0", 'b'), ["q1"]) : (State × Char) × List State).2 = [t] :=
  ⟨(ThompsonBuilt.simple 'a' (by decide)).concat
      (ThompsonBuilt.simple 'b' (by decide)).kleene,
    by decide, by decide,
    thompson_singleton_targets _
      ((ThompsonBuilt.simple 'a' (by decide)).concat
        (ThompsonBuilt.simple 'b' (by decide)).kleene)
      (("q0", 'b'), ["q1"]) (by decide) (by decide)⟩

theorem wellFormed_simple (c : Char) : WellFormed (simpleNFA c) :=
  (thompsonInv_simple c).wf

theorem wellFormed_concat {L R : NFA} (hL : WellFormed L) (hR : WellFormed R) :
    WellFormed (nfa_concat L R) := by
  refine ⟨?_, ?_, ?_⟩
  · rw [concat_initial, concat_states_mem]
    exact Or.inl ⟨_, hL.1, rfl⟩
  · intro f hf
    rw [concat_accepting] at hf
    obtain ⟨g, hg, hfg⟩ := mem_getNewStatesName.1 hf
    rw [concat_states_mem]
    exact Or.inr ⟨g, hR.2.1 g hg, hfg⟩
  · intro kv hkv
    simp only [concat_states_mem]
    rcases concat_entry L R hkv with h | h | h
    · obtain ⟨kv0, hkv0, h1, -, h3⟩ := mem_rename_map h
      refine ⟨Or.inl ⟨_, (hL.2.2 kv0 hkv0).1, h1⟩, ?_⟩
      intro t ht
      obtain ⟨t0, ht0, e⟩ := h3 t ht
      exact Or.inl ⟨t0, (hL.2.2 kv0 hkv0).2 t0 ht0, e⟩
    · obtain ⟨kv0, hkv0, h1, -, h3⟩ := mem_rename_map h
      refine ⟨Or.inr ⟨_, (hR.2.2 kv0 hkv0).1, h1⟩, ?_⟩
      intro t ht
      obtain ⟨t0, ht0, e⟩ := h3 t ht
      exact Or.inr ⟨t0, (hR.2.2 kv0 hkv0).2 t0 ht0, e⟩
    · obtain ⟨f, hf, h1, -, h3⟩ := mem_link_map h
      refine ⟨Or.inl ⟨f, hL.2.1 f hf, h1⟩, ?_⟩
      intro t ht
      rw [h3] at ht
      have : t = "q" ++ R.initial_state := by simpa [set_insert] using ht
      exact Or.inr ⟨_, hR.1, this⟩

theorem wellFormed_union {L R : NFA} (hL : WellFormed L) (hR : WellFormed R) :
    WellFormed (nfa_union L R) := by
  refine ⟨?_, ?_, ?_⟩
  · rw [union_initial, union_states_mem]
    exact Or.inr (Or.inl rfl)
  · intro f hf
    rw [union_accepting] at hf
    have : f = "f" ++ L.initial_state ++ R.initial_state := by simpa [set_insert] using hf
    rw [union_states_mem]
    exact Or.inl this
  · intro kv hkv
    simp only [union_states_mem]
    rcases union_entry L R hkv with h | h | h | h | h
    · obtain ⟨kv0, hkv0, h1, -, h3⟩ := mem_rename_map h
      refine ⟨Or.inr (Or.inr (Or.inl ⟨_, (hL.2.2 kv0 hkv0).1, h1⟩)), ?_⟩
      intro t ht
      obtain ⟨t0, ht0, e⟩ := h3 t ht
      exact Or.inr (Or.inr (Or.inl ⟨t0, (hL.2.2 kv0 hkv0).2 t0 ht0, e⟩))
    · obtain ⟨kv0, hkv0, h1, -, h3⟩ := mem_rename_map h
      refine ⟨Or.inr (Or.inr (Or.inr ⟨_, (hR.2.2 kv0 hkv0).1, h1⟩)), ?_⟩
      intro t ht
      obtain ⟨t0, ht0, e⟩ := h3 t ht
      exact Or.inr (Or.inr (Or.inr ⟨t0, (hR.2.2 kv0 hkv0).2 t0 ht0, e⟩))
    · subst h
      refine ⟨Or.inr (Or.inl rfl), ?_⟩
      intro t ht
      have ht2 : t ∈ set_insert ("q" ++ R.initial_state)
          (set_insert ("p" ++ L.initial_state) []) := ht
      rcases mem_set_insert.1 ht2 with e | e
      · exact Or.inr (Or.inr (Or.inr ⟨_, hR.1, e⟩))
      · rcases mem_set_insert.1 e with e2 | e2
        · exact Or.inr (Or.inr (Or.inl ⟨_, hL.1, e2⟩))
        · cases e2
    · obtain ⟨f, hf, h1, -, h3⟩ := mem_link_map h
      refine ⟨Or.inr (Or.inr (Or.inl ⟨f, hL.2.1 f hf, h1⟩)), ?_⟩
      intro t ht
      rw [h3] at ht
      exact Or.inl (by simpa [set_insert] using ht)
    · obtain ⟨f, hf, h1, -, h3⟩ := mem_link_map h
      refine ⟨Or.inr (Or.inr (Or.inr ⟨f, hR.2.1 f hf, h1⟩)), ?_⟩
      intro t ht
      rw [h3] at ht
      exact Or.inl (by simpa [set_insert] using ht)

/-- Well-formedness passes to an automaton that wraps `X` the way
`kleene_closure` and `plus_closure` do. -/
theorem wellFormed_closure {X M : NFA} (its : List State) (hX : WellFormed X)
    (hstates : M.states =
      set_insert ("p_f" ++ X.initial_state) (set_insert ("p_i" ++ X.initial_state) X.states))
    (hinit : M.initial_state = "p_i" ++ X.initial_state)
    (hacc : M.accepting_states = set_insert ("p_f" ++ X.initial_state) [])
    (hits : ∀ t, t ∈ its → t = X.initial_state ∨ t = "p_f" ++ X.initial_state)
    (hentry : ∀ kv, kv ∈ M.transitions → kv ∈ X.transitions ∨
      kv = (("p_i" ++ X.initial_state, NUL), its) ∨
      kv ∈ loop_map (set_insert ("p_f" ++ X.initial_state) (set_insert X.initial_state []))
        X.accepting_states) :
    WellFormed M := by
  have hmem : ∀ x, x ∈ M.states ↔
      x = "p_f" ++ X.initial_state ∨ x = "p_i" ++ X.initial_state ∨ x ∈ X.states := by
    intro x
    rw [hstates, mem_set_insert, mem_set_insert]
  refine ⟨?_, ?_, ?_⟩
  · rw [hinit, hmem]
    exact Or.inr (Or.inl rfl)
  · intro f hf
    rw [hmem]
    rw [hacc] at hf
    exact Or.inl (by simpa [set_insert] using hf)
  · intro kv hkv
    simp only [hmem]
    rcases hentry kv hkv with h | h | h
    · exact ⟨Or.inr (Or.inr (hX.2.2 kv h).1),
        fun t ht => Or.inr (Or.inr ((hX.2.2 kv h).2 t ht))⟩
    · subst h
      refine ⟨Or.inr (Or.inl rfl), ?_⟩
      intro t ht
      rcases hits t ht with e | e
      · exact Or.inr (Or.inr (e ▸ hX.1))
      · exact Or.inl e
    · obtain ⟨h1, -, h3⟩ := mem_loop_map h
      refine ⟨Or.inr (Or.inr (hX.2.1 _ h1)), ?_⟩
      intro t ht
      rw [h3] at ht
      rcases mem_set_insert.1 ht with e | e
      · exact Or.inl e
      · have : t = X.initial_state := by simpa [set_insert] using e
        exact Or.inr (Or.inr (this ▸ hX.1))

theorem wellFormed_kleene {X : NFA} (hX : WellFormed X) : WellFormed (kleene_closure X) :=
  wellFormed_closure (set_insert X.initial_state (set_insert ("p_f" ++ X.initial_state) []))
    hX (kleene_states X) (kleene_initial X) (kleene_accepting X)
    (by
      intro t ht
      rcases mem_set_insert.1 ht with e | e
      · exact Or.inl e
      · exact Or.inr (by simpa [set_insert] using e))
    (fun _ h => kleene_entry X h)

theorem wellFormed_plus {X : NFA} (hX : WellFormed X) : WellFormed (plus_closure X) :=
  wellFormed_closure (set_insert X.initial_state [])
    hX (plus_states X) (plus_initial X) (plus_accepting X)
    (by
      intro t ht
      exact Or.inl (by simpa [set_insert] using ht))
    (fun _ h => plus_entry X h)

/-- C18: `simpleNFA(c)` is well-formed, and `nfa_concat`, `nfa_union`,
`kleene_closure` and `plus_closure` return a well-formed automaton whenever
their operands are well-formed. -/
theorem wellFormed_preserved (c : Char) (L R : NFA) (hL : WellFormed L) (hR : WellFormed R) :
    WellFormed (simpleNFA c) ∧ WellFormed (nfa_concat L R) ∧ WellFormed (nfa_union L R) ∧
      WellFormed (kleene_closure L) ∧ WellFormed (plus_closure L) :=
  ⟨wellFormed_simple c, wellFormed_concat hL hR, wellFormed_union hL hR,
    wellFormed_kleene hL, wellFormed_plus hL⟩

theorem wellFormed_preserved_witness :
    WellFormed eps_loop_nfa ∧ WellFormed collision_nfa ∧
    (WellFormed (simpleNFA 'a') ∧ WellFormed (nfa_concat eps_loop_nfa collision_nfa) ∧
      WellFormed (nfa_union eps_loop_nfa collision_nfa) ∧
      WellFormed (kleene_closure eps_loop_nfa) ∧ WellFormed (plus_closure eps_loop_nfa)) :=
  ⟨by decide, by decide, wellFormed_preserved 'a' eps_loop_nfa collision_nfa (by decide) (by decide)⟩

end NFA

/-! ## The accepting state of a Thompson-built automaton -/

namespace NFA

theorem map_insert_of_none {m : TransitionMap} {key : State × Char} (v : List State)
    (h : map_find m key = none) : map_insert m key v = m ++ [(key, v)] := by
  unfold map_insert
  rw [h]

theorem map_find_renamed_transitions (L R : NFA) (key : State × Char) :
    map_find (renamed_transitions L R) key =
      map_find (rename_map "p" L.transitions ++ rename_map "q" R.transitions) key := by
  unfold renamed_transitions
  rw [map_find_rename_transitions, map_find_append, map_find_rename_transitions,
    List.nil_append, ← map_find_append]

theorem renamed_transitions_p_none (L R : NFA) {f : State} {c : Char}
    (h : map_find L.transitions (f, c) = none) :
    map_find (renamed_transitions L R) ("p" ++ f, c) = none := by
  rw [map_find_renamed_transitions, map_find_append, map_find_rename_map, h,
    map_find_rename_map_none "q" _ _ _ (fun a => q_ne_p a f)]
  rfl

theorem renamed_transitions_q_none (L R : NFA) {g : State} {c : Char}
    (h : map_find R.transitions (g, c) = none) :
    map_find (renamed_transitions L R) ("q" ++ g, c) = none := by
  rw [map_find_renamed_transitions, map_find_append,
    map_find_rename_map_none "p" _ _ _ (fun a => p_ne_q a g), map_find_rename_map, h]
  rfl

theorem union_before_links_p_none (L R : NFA) {f : State} {c : Char}
    (h : map_find L.transitions (f, c) = none) :
    map_find (union_before_links L R) ("p" ++ f, c) = none := by
  unfold union_before_links
  have hne : ("i" ++ L.initial_state ++ R.initial_state, NUL) ≠ ("p" ++ f, c) :=
    fun e => p_ne_i f _ _ (Prod.mk.inj e).1.symm
  rw [map_find_map_insert, renamed_transitions_p_none L R h]
  simp only [if_neg hne]

theorem union_before_links_q_none (L R : NFA) {g : State} {c : Char}
    (h : map_find R.transitions (g, c) = none) :
    map_find (union_before_links L R) ("q" ++ g, c) = none := by
  unfold union_before_links
  have hne : ("i" ++ L.initial_state ++ R.initial_state, NUL) ≠ ("q" ++ g, c) :=
    fun e => q_ne_i g _ _ (Prod.mk.inj e).1.symm
  rw [map_find_map_insert, renamed_transitions_q_none L R h]
  simp only [if_neg hne]

theorem closure_before_links_none (X : NFA) (its : List State) {f : State} {c : Char}
    (h : map_find X.transitions (f, c) = none) (hf : f ≠ "p_i" ++ X.initial_state) :
    map_find (closure_before_links X its) (f, c) = none := by
  unfold closure_before_links
  have hne : ("p_i" ++ X.initial_state, NUL) ≠ (f, c) := fun e => hf (Prod.mk.inj e).1.symm
  rw [map_find_map_insert, h]
  simp only [if_neg hne]

/-- The transition map of `L.nfa_concat(R)` when `L` has the one accepting
state `f`, which has no epsilon transition in `L`: the one `insert` of the loop
adds its pair. -/
theorem concat_transitions_of_single (L R : NFA) {f : State}
    (hacc : L.accepting_states = [f]) (hdead : map_find L.transitions (f, NUL) = none) :
    (nfa_concat L R).transitions =
      renamed_transitions L R ++
        [(("p" ++ f, NUL), set_insert ("q" ++ R.initial_state) [])] := by
  have h0 : (nfa_concat L R).transitions =
      link_accepting (renamed_transitions L R) "p" (set_insert ("q" ++ R.initial_state) [])
        L.accepting_states := rfl
  rw [h0, hacc]
  simp only [link_accepting]
  exact map_insert_of_none _ (renamed_transitions_p_none L R hdead)

theorem union_transitions_of_single (L R : NFA) {f g : State}
    (hL : L.accepting_states = [f]) (hR : R.accepting_states = [g])
    (hf : map_find L.transitions (f, NUL) = none)
    (hg : map_find R.transitions (g, NUL) = none) :
    (nfa_union L R).transitions =
      union_before_links L R ++
        [(("p" ++ f, NUL), set_insert ("f" ++ L.initial_state ++ R.initial_state) [])] ++
        [(("q" ++ g, NUL), set_insert ("f" ++ L.initial_state ++ R.initial_state) [])] := by
  have h0 : (nfa_union L R).transitions =
      link_accepting
        (link_accepting (union_before_links L R) "p"
          (set_insert ("f" ++ L.initial_state ++ R.initial_state) []) L.accepting_states)
        "q" (set_insert ("f" ++ L.initial_state ++ R.initial_state) [])
        R.accepting_states := rfl
  rw [h0, hL, hR]
  simp only [link_accepting]
  rw [map_insert_of_none _ (union_before_links_p_none L R hf)]
  apply map_insert_of_none
  rw [map_find_append, union_before_links_q_none L R hg]
  have hne : ("p" ++ f, NUL) ≠ ("q" ++ g, NUL) := fun e => p_ne_q f g (Prod.mk.inj e).1
  simp only [map_find, if_neg hne]

theorem kleene_transitions_of_single (X : NFA) {f : State}
    (hacc : X.accepting_states = [f]) (hdead : map_find X.transitions (f, NUL) = none)
    (hf : f ≠ "p_i" ++ X.initial_state) :
    (kleene_closure X).transitions =
      closure_before_links X
          (set_insert X.initial_state (set_insert ("p_f" ++ X.initial_state) [])) ++
        [((f, NUL), set_insert ("p_f" ++ X.initial_state) (set_insert X.initial_state []))] := by
  unfold kleene_closure
  simp only [hacc, addTransitions, addTransition]
  exact map_insert_of_none _ (closure_before_links_none X _ hdead hf)

theorem plus_transitions_of_single (X : NFA) {f : State}
    (hacc : X.accepting_states = [f]) (hdead : map_find X.transitions (f, NUL) = none)
    (hf : f ≠ "p_i" ++ X.initial_state) :
    (plus_closure X).transitions =
      closure_before_links X (set_insert X.initial_state []) ++
        [((f, NUL), set_insert ("p_f" ++ X.initial_state) (set_insert X.initial_state []))] := by
  unfold plus_closure
  simp only [hacc, addTransitions, addTransition]
  exact map_insert_of_none _ (closure_before_links_none X _ hdead hf)

end NFA

namespace Regex

/-- The automaton built from an AST has exactly one accepting state. -/
theorem build_accepting (r : Regex) : ∃ f, (build r).accepting_states = [f] := by
  cases r with
  | Literal c => exact ⟨"1", rfl⟩
  | Concat L R =>
    obtain ⟨g, hg⟩ := build_accepting R
    refine ⟨"q" ++ g, ?_⟩
    simp only [build]
    rw [NFA.concat_accepting, hg, NFA.getNewStatesName_singleton]
  | Alt L R => exact ⟨_, rfl⟩
  | Star X =>
    refine ⟨"p_f" ++ (build X).initial_state, ?_⟩
    simp only [build]
    rw [NFA.kleene_accepting]
    rfl
  | Plus X =>
    refine ⟨"p_f" ++ (build X).initial_state, ?_⟩
    simp only [build]
    rw [NFA.plus_accepting]
    rfl

/-- C19: the automaton built from an AST has exactly one accepting state `f`
and no transition leaves `f`; hence, when the automaton is an operand of
`nfa_concat`, `nfa_union`, `kleene_closure` or `plus_closure`, the key of every
`insert` that adds an epsilon transition out of an accepting state is absent
from the map at that point, and the resulting map is the map before the loops
followed by the inserted pairs. -/
theorem thompson_accepting_state (r r2 : Regex) :
    ∃ f g, (build r).accepting_states = [f] ∧ (build r2).accepting_states = [g] ∧
      (∀ kv ∈ (build r).transitions, kv.1.1 ≠ f) ∧
      NFA.map_find (NFA.renamed_transitions (build r) (build r2)) ("p" ++ f, NUL) = none ∧
      (NFA.nfa_concat (build r) (build r2)).transitions =
        NFA.renamed_transitions (build r) (build r2) ++
          [(("p" ++ f, NUL), NFA.set_insert ("q" ++ (build r2).initial_state) [])] ∧
      NFA.map_find (NFA.union_before_links (build r) (build r2)) ("p" ++ f, NUL) = none ∧
      NFA.map_find (NFA.union_before_links (build r) (build r2)) ("q" ++ g, NUL) = none ∧
      (NFA.nfa_union (build r) (build r2)).transitions =
        NFA.union_before_links (build r) (build r2) ++
          [(("p" ++ f, NUL), NFA.set_insert
            ("f" ++ (build r).initial_state ++ (build r2).initial_state) [])] ++
          [(("q" ++ g, NUL), NFA.set_insert
            ("f" ++ (build r).initial_state ++ (build r2).initial_state) [])] ∧
      (∀ its, NFA.map_find (NFA.closure_before_links (build r) its) (f, NUL) = none) ∧
      (NFA.kleene_closure (build r)).transitions =
        NFA.closure_before_links (build r)
            (NFA.set_insert (build r).initial_state
              (NFA.set_insert ("p_f" ++ (build r).initial_state) [])) ++
          [((f, NUL), NFA.set_insert ("p_f" ++ (build r).initial_state)
            (NFA.set_insert (build r).initial_state []))] ∧
      (NFA.plus_closure (build r)).transitions =
        NFA.closure_before_links (build r) (NFA.set_insert (build r).initial_state []) ++
          [((f, NUL), NFA.set_insert ("p_f" ++ (build r).initial_state)
            (NFA.set_insert (build r).initial_state []))] := by
  obtain ⟨f, hf⟩ := build_accepting r
  obtain ⟨g, hg⟩ := build_accepting r2
  have hinv := build_inv r
  have hinv2 := build_inv r2
  have hfacc : f ∈ (build r).accepting_states := by rw [hf]; exact List.mem_singleton_self f
  have hgacc : g ∈ (build r2).accepting_states := by rw [hg]; exact List.mem_singleton_self g
  have hfd := hinv.acc_none hfacc NUL
  have hgd := hinv2.acc_none hgacc NUL
  have hfne : f ≠ "p_i" ++ (build r).initial_state :=
    fun e => hinv.p_i_new (e ▸ hinv.wf.2.1 f hfacc)
  refine ⟨f, g, hf, hg, ?_, NFA.renamed_transitions_p_none _ _ hfd,
    NFA.concat_transitions_of_single _ _ hf hfd,
    NFA.union_before_links_p_none _ _ hfd, NFA.union_before_links_q_none _ _ hgd,
    NFA.union_transitions_of_single _ _ hf hg hfd hgd,
    fun its => NFA.closure_before_links_none _ its hfd hfne,
    NFA.kleene_transitions_of_single _ hf hfd hfne,
    NFA.plus_transitions_of_single _ hf hfd hfne⟩
  intro kv hkv e
  exact hinv.acc_dead kv hkv (e ▸ hfacc)

end Regex

/-! ## Termination of `e_closure` and `compute` -/

namespace NFA

theorem e_closure_for_stack (es : List State) : ∀ (cl st : List State),
    (∀ x, x ∈ (e_closure_for cl st es).2 → x ∈ st ∨ (x ∈ es ∧ x ∉ cl)) ∧
    (st.Nodup → (∀ x, x ∈ st → x ∈ cl) →
      (e_closure_for cl st es).2.Nodup ∧
      ∀ x, x ∈ (e_closure_for cl st es).2 → x ∈ (e_closure_for cl st es).1) := by
  induction es with
  | nil =>
    intro cl st
    simp only [e_closure_for]
    exact ⟨fun x hx => Or.inl hx, fun hnd hsub => ⟨hnd, hsub⟩⟩
  | cons e es ih =>
    intro cl st
    by_cases he : e ∈ cl
    · simp only [e_closure_for, he, if_true]
      obtain ⟨h1, h2⟩ := ih cl st
      refine ⟨?_, h2⟩
      intro x hx
      rcases h1 x hx with h | ⟨h, h'⟩
      · exact Or.inl h
      · exact Or.inr ⟨List.mem_cons_of_mem _ h, h'⟩
    · simp only [e_closure_for, he, if_false]
      obtain ⟨h1, h2⟩ := ih (set_insert e cl) (e :: st)
      refine ⟨?_, ?_⟩
      · intro x hx
        rcases h1 x hx with h | ⟨h, h'⟩
        · rcases List.mem_cons.1 h with e1 | e1
          · subst e1
            exact Or.inr ⟨List.mem_cons_self _ _, he⟩
          · exact Or.inl e1
        · exact Or.inr ⟨List.mem_cons_of_mem _ h,
            fun hcl => h' (mem_set_insert.2 (Or.inr hcl))⟩
      · intro hnd hsub
        apply h2
        · exact List.nodup_cons.2 ⟨fun hmem => he (hsub e hmem), hnd⟩
        · intro x hx
          rcases List.mem_cons.1 hx with e1 | e1
          · exact mem_set_insert.2 (Or.inl e1)
          · exact mem_set_insert.2 (Or.inr (hsub x e1))

theorem e_closure_loop_subset (N : NFA) : ∀ (fuel : Nat) (stack cl : List State) (x : State),
    x ∈ cl → x ∈ e_closure_loop N fuel stack cl := by
  intro fuel
  induction fuel with
  | zero =>
    intro stack cl x hx
    cases stack <;> simpa only [e_closure_loop] using hx
  | succ fuel ih =>
    intro stack cl x hx
    cases stack with
    | nil => simpa only [e_closure_loop] using hx
    | cons c stack =>
      simp only [e_closure_loop, e_closure_pop_eq]
      apply ih
      exact ((e_closure_for_spec (next_states N c NUL) (set_insert c cl) stack).1 x).2
        (Or.inl (mem_set_insert.2 (Or.inr hx)))

theorem e_closure_loop_nodup (N : NFA) : ∀ (fuel : Nat) (stack cl : List State),
    cl.Nodup → (e_closure_loop N fuel stack cl).Nodup := by
  intro fuel
  induction fuel with
  | zero =>
    intro stack cl h
    cases stack <;> simpa only [e_closure_loop] using h
  | succ fuel ih =>
    intro stack cl h
    cases stack with
    | nil => simpa only [e_closure_loop] using h
    | cons c stack =>
      simp only [e_closure_loop, e_closure_pop_eq]
      apply ih
      exact (e_closure_for_spec (next_states N c NUL) (set_insert c cl) stack).2.2.2.2.2
        (nodup_set_insert h)

theorem e_closure_nodup (N : NFA) (s : State) : (e_closure N s).Nodup :=
  e_closure_loop_nodup N _ _ _ List.nodup_nil

/-- The recorded run of the `while` loop under a sufficient iteration bound:
it ends, its result is that of `e_closure_loop`, no state is popped twice, and
the popped states are those of the stack and those the loop adds to the
closure set. -/
theorem e_closure_trace_spec (N : NFA) (U : List State)
    (hU : ∀ x, x ∈ U → ∀ y, EpsStep N x y → y ∈ U) :
    ∀ (fuel : Nat) (stack cl : List State),
      cl.Nodup → (∀ x, x ∈ cl → x ∈ U) → (∀ x, x ∈ stack → x ∈ U) →
      stack.length + U.length ≤ fuel + cl.length →
      stack.Nodup → (∀ x, x ∈ stack.tail → x ∈ cl) →
      ∃ T, e_closure_trace N fuel stack cl = some (e_closure_loop N fuel stack cl, T) ∧
        T.Nodup ∧
        (∀ x, x ∈ T ↔ x ∈ stack ∨ (x ∈ e_closure_loop N fuel stack cl ∧ x ∉ cl)) := by
  intro fuel
  induction fuel with
  | zero =>
    intro stack cl hnd hcl hst hlen _ _
    cases stack with
    | nil =>
      refine ⟨[], rfl, List.nodup_nil, ?_⟩
      intro x
      simp only [e_closure_loop, List.not_mem_nil, false_or, false_iff, not_and, not_not]
      exact fun h => h
    | cons c stack =>
      exfalso
      have := (List.subperm_of_subset hnd hcl).length_le
      simp only [List.length_cons] at hlen
      omega
  | succ fuel ih =>
    intro stack cl hnd hcl hst hlen hsnd htail
    cases stack with
    | nil =>
      refine ⟨[], rfl, List.nodup_nil, ?_⟩
      intro x
      simp only [e_closure_loop, List.not_mem_nil, false_or, false_iff, not_and, not_not]
      exact fun h => h
    | cons c st =>
      obtain ⟨i1, i2, i3, i4⟩ := e_closure_inv_step N U hU fuel c st cl hnd hcl hst hlen
      obtain ⟨h1, -, h3, h4, -, -⟩ :=
        e_closure_for_spec (next_states N c NUL) (set_insert c cl) st
      obtain ⟨p1, p2⟩ := e_closure_for_stack (next_states N c NUL) (set_insert c cl) st
      simp only [List.nodup_cons] at hsnd
      simp only [List.tail_cons] at htail
      have hsub : ∀ x, x ∈ st → x ∈ set_insert c cl :=
        fun x hx => mem_set_insert.2 (Or.inr (htail x hx))
      obtain ⟨q1, q2⟩ := p2 hsnd.2 hsub
      obtain ⟨T, hT, hTnd, hTmem⟩ := ih _ _ i1 i2 i3 i4 q1
        (fun x hx => q2 x (List.mem_of_mem_tail hx))
      have hres : e_closure_loop N (fuel + 1) (c :: st) cl =
          e_closure_loop N fuel
            (e_closure_for (set_insert c cl) st (next_states N c NUL)).2
            (e_closure_for (set_insert c cl) st (next_states N c NUL)).1 := by
        simp only [e_closure_loop, e_closure_pop_eq]
      have hc1 : c ∈ (e_closure_for (set_insert c cl) st (next_states N c NUL)).1 :=
        (h1 c).2 (Or.inl (mem_set_insert.2 (Or.inl rfl)))
      refine ⟨c :: T, ?_, ?_, ?_⟩
      · rw [hres]
        simp only [e_closure_trace, e_closure_pop_eq, hT]
      · refine List.nodup_cons.2 ⟨?_, hTnd⟩
        intro hcT
        rcases (hTmem c).1 hcT with h | ⟨-, h⟩
        · rcases p1 c h with h' | ⟨-, h'⟩
          · exact hsnd.1 h'
          · exact h' (mem_set_insert.2 (Or.inl rfl))
        · exact h hc1
      · intro x
        rw [hres, List.mem_cons, hTmem, List.mem_cons]
        constructor
        · rintro (e | h | ⟨h, h'⟩)
          · exact Or.inl (Or.inl e)
          · rcases p1 x h with h2 | ⟨h2, h2'⟩
            · exact Or.inl (Or.inr h2)
            · refine Or.inr ⟨e_closure_loop_subset N _ _ _ x ((h1 x).2 (Or.inr h2)), ?_⟩
              exact fun hcl => h2' (mem_set_insert.2 (Or.inr hcl))
          · refine Or.inr ⟨h, ?_⟩
            exact fun hcl => h' ((h1 x).2 (Or.inl (mem_set_insert.2 (Or.inr hcl))))
        · rintro ((e | h) | ⟨h, h'⟩)
          · exact Or.inl e
          · exact Or.inr (Or.inl (h3 x h))
          · by_cases hx1 : x ∈ (e_closure_for (set_insert c cl) st (next_states N c NUL)).1
            · rcases h4 x hx1 with h5 | h5
              · rcases mem_set_insert.1 h5 with e | e
                · exact Or.inl e
                · exact absurd e h'
              · exact Or.inr (Or.inl h5)
            · exact Or.inr (Or.inr ⟨h, hx1⟩)

/-- A recorded run that ended needs only as many iterations as it recorded. -/
theorem e_closure_trace_fuel (N : NFA) : ∀ (F : Nat) (stack cl res T : List State),
    e_closure_trace N F stack cl = some (res, T) →
    ∀ f, T.length ≤ f → e_closure_trace N f stack cl = some (res, T) := by
  intro F
  induction F with
  | zero =>
    intro stack cl res T h f _
    cases stack with
    | nil =>
      simp only [e_closure_trace, Option.some.injEq, Prod.mk.injEq] at h
      obtain ⟨e1, e2⟩ := h
      subst e1 e2
      cases f <;> rfl
    | cons c st => simp [e_closure_trace] at h
  | succ F ih =>
    intro stack cl res T h f hf
    cases stack with
    | nil =>
      simp only [e_closure_trace, Option.some.injEq, Prod.mk.injEq] at h
      obtain ⟨e1, e2⟩ := h
      subst e1 e2
      cases f <;> rfl
    | cons c st =>
      simp only [e_closure_trace, e_closure_pop_eq] at h
      cases hrec : e_closure_trace N F
          (e_closure_for (set_insert c cl) st (next_states N c NUL)).2
          (e_closure_for (set_insert c cl) st (next_states N c NUL)).1 with
      | none => rw [hrec] at h; cases h
      | some p =>
        obtain ⟨res', T'⟩ := p
        rw [hrec] at h
        simp only [Option.some.injEq, Prod.mk.injEq] at h
        obtain ⟨e1, e2⟩ := h
        subst e1 e2
        cases f with
        | zero => simp at hf
        | succ f =>
          simp only [List.length_cons, Nat.add_le_add_iff_right] at hf
          simp only [e_closure_trace, e_closure_pop_eq, ih _ _ _ _ hrec f hf]

/-- The run of `e_closure(s)`: it ends after one iteration per state of its
result, and no state is popped (so none is pushed) twice. -/
theorem e_closure_trace_exists (N : NFA) (s : State) :
    ∃ T : List State,
      (∀ fuel, T.length ≤ fuel → e_closure_trace N fuel [s] [] = some (e_closure N s, T)) ∧
      T.Nodup ∧ (∀ x, x ∈ T ↔ EpsReach N s x) ∧ T.length = (e_closure N s).length := by
  obtain ⟨T, hT, hnd, hmem⟩ := e_closure_trace_spec N (s :: eps_targets N.transitions)
    (e_closure_universe_closed N s) (e_closure_fuel N) [s] [] List.nodup_nil
    (fun x hx => nomatch hx)
    (fun x hx => by simp only [List.mem_singleton] at hx; subst hx; exact List.mem_cons_self _ _)
    (by simp only [e_closure_fuel, List.length_cons, List.length_nil]; omega)
    (List.nodup_singleton s) (fun x hx => nomatch hx)
  have hmem2 : ∀ x, x ∈ T ↔ x ∈ e_closure N s := by
    intro x
    rw [hmem]
    show x ∈ [s] ∨ (x ∈ e_closure N s ∧ x ∉ ([] : List State)) ↔ x ∈ e_closure N s
    constructor
    · rintro (h | ⟨h, -⟩)
      · simp only [List.mem_singleton] at h
        subst h
        exact mem_e_closure.2 Relation.ReflTransGen.refl
      · exact h
    · intro h
      exact Or.inr ⟨h, fun h' => nomatch h'⟩
  refine ⟨T, e_closure_trace_fuel N _ _ _ _ _ hT, hnd, ?_, ?_⟩
  · intro x
    rw [hmem2, mem_e_closure]
  · exact ((List.perm_ext_iff_of_nodup hnd (e_closure_nodup N s)).2 hmem2).length_eq

/-- The recursion of `compute` follows the buffer: one call per character
before the first `'\0'`, then the epsilon closure. -/
theorem compute_unroll (N : NFA) : ∀ (w : List Char) (S : List State),
    compute N S w =
      e_closure_set N ((w.takeWhile (fun c => c ≠ NUL)).foldl (compute_step N) S) := by
  intro w
  induction w with
  | nil => intro S; rfl
  | cons c w ih =>
    intro S
    by_cases hc : c = NUL
    · simp [compute, hc]
    · have h1 : compute N S (c :: w) = compute N (compute_step N S c) w := by
        simp only [compute, if_neg hc, compute_step]
      rw [h1, ih]
      simp [List.takeWhile_cons, hc]

theorem epsStep_mem_transitions {N : NFA} {s b : State} (h : EpsStep N s b) :
    ∃ kv, kv ∈ N.transitions ∧ kv.1 = (s, NUL) ∧ b ∈ kv.2 := by
  obtain ⟨v, hv, hb⟩ := epsStep_iff.1 h
  exact ⟨((s, NUL), v), map_find_some_mem hv, rfl, hb⟩

/-- A check that excludes epsilon cycles: no epsilon transition leads to a
state from which its source is reached by epsilon transitions. -/
theorem not_epsCycle_of_check {N : NFA}
    (h : ∀ kv ∈ N.transitions, kv.1.2 = NUL → ∀ b ∈ kv.2, kv.1.1 ∉ e_closure N b) :
    ¬ EpsCycle N := by
  rintro ⟨s, hs⟩
  obtain ⟨b, hsb, hbs⟩ := Relation.TransGen.head'_iff.1 hs
  obtain ⟨kv, hkv, hk, hb⟩ := epsStep_mem_transitions hsb
  have h1 : kv.1.2 = NUL := by rw [hk]
  have h2 : kv.1.1 = s := by rw [hk]
  exact h kv hkv h1 b hb (h2 ▸ mem_e_closure.2 hbs)

/-- An automaton that wraps `X` like `kleene_closure` or `plus_closure` has an
epsilon cycle through the initial state of `X` when `X` accepts the empty
word. -/
theorem closure_epsCycle (X M : NFA) (its : List State) (h : ThompsonInv X)
    (hM : ∀ key, map_find M.transitions key = map_find (closure_map X its) key)
    (hnull : Accepts X []) : EpsCycle M := by
  obtain ⟨-, -, f3, f4, -, -⟩ := closure_facts X M its h hM
  obtain ⟨f, hf, hp⟩ := hnull
  have hreach : EpsReach X X.initial_state f := Path.nil_inv hp rfl
  have hlift : Relation.ReflTransGen (EpsStep M) X.initial_state f :=
    Relation.ReflTransGen.mono (fun a b hab => step_of_mem (f3 a NUL b (mem_of_step hab))) hreach
  exact ⟨X.initial_state, Relation.TransGen.tail' hlift (f4 f hf)⟩

/-- C20 as stated fails in its remark on the closures: `kleene_closure` of the
Thompson-built `simpleNFA('a')` has no epsilon cycle; and for an operand that
is not Thompson-built, accepting the empty string is not enough either: the
well-formed `eps_chain_nfa` accepts `""`, and neither its `kleene_closure` nor
its `plus_closure` has an epsilon cycle (the loop back from `"b"` is dropped,
`"b"` has an epsilon entry already). -/
theorem kleene_closure_without_epsCycle :
    (ThompsonBuilt (simpleNFA 'a') ∧ ¬ EpsCycle (kleene_closure (simpleNFA 'a'))) ∧
    (WellFormed eps_chain_nfa ∧ accept eps_chain_nfa "" = true ∧
      ¬ EpsCycle (kleene_closure eps_chain_nfa) ∧ ¬ EpsCycle (plus_closure eps_chain_nfa)) :=
  ⟨⟨ThompsonBuilt.simple 'a' (by decide), not_epsCycle_of_check (by decide)⟩,
    by decide, by decide, not_epsCycle_of_check (by decide), not_epsCycle_of_check (by decide)⟩

/-- C20, as the code has it: `e_closure(s)` terminates on every NFA, with or
without epsilon cycles: the loop pops each state at most once (so pushes each
at most once) and runs exactly one iteration per state reachable from `s` by
entries of the transition map keyed on `'\0'`; `compute` ends after one call
per character before the first `'\0'` of the buffer; and `kleene_closure` and
`plus_closure` create an epsilon cycle when their operand is Thompson-built
and accepts the empty string. -/
theorem e_closure_and_compute_terminate (N : NFA) (s : State) (S : List State)
    (w : List Char) :
    (∃ T : List State,
      (∀ fuel, T.length ≤ fuel → e_closure_trace N fuel [s] [] = some (e_closure N s, T)) ∧
      T.Nodup ∧
      (∀ x, x ∈ T ↔
        Relation.ReflTransGen
          (fun a b => ∃ targets, map_find N.transitions (a, NUL) = some targets ∧ b ∈ targets)
          s x) ∧
      T.length = (e_closure N s).length) ∧
    compute N S w =
      e_closure_set N ((w.takeWhile (fun c => c ≠ NUL)).foldl (compute_step N) S) ∧
    (∀ X : NFA, ThompsonBuilt X → accept X "" = true →
      EpsCycle (kleene_closure X) ∧ EpsCycle (plus_closure X)) := by
  refine ⟨e_closure_trace_exists N s, compute_unroll N w S, ?_⟩
  intro X hX hnull
  have hacc : Accepts X [] := (accept_iff_of_nulFree nulFree_empty).1 hnull
  exact ⟨closure_epsCycle X _ _ hX.inv (fun key => (closure_map_find X key).1) hacc,
    closure_epsCycle X _ _ hX.inv (fun key => (closure_map_find X key).2) hacc⟩

end NFA

namespace NFA

theorem e_closure_and_compute_terminate_witness :
    (∃ T : List State,
      (∀ fuel, T.length ≤ fuel →
        e_closure_trace (kleene_closure (kleene_closure (simpleNFA 'a'))) fuel ["p_i0"] []
          = some (e_closure (kleene_closure (kleene_closure (simpleNFA 'a'))) "p_i0", T)) ∧
      T.Nodup ∧
      (∀ x, x ∈ T ↔ Relation.ReflTransGen
        (fun a b => ∃ targets,
          map_find (kleene_closure (kleene_closure (simpleNFA 'a'))).transitions (a, NUL)
            = some targets ∧ b ∈ targets)
        "p_i0" x) ∧
      T.length = (e_closure (kleene_closure (kleene_closure (simpleNFA 'a'))) "p_i0").length) ∧
    ThompsonBuilt (kleene_closure (simpleNFA 'a')) ∧
    accept (kleene_closure (simpleNFA 'a')) "" = true ∧
    EpsCycle (kleene_closure (kleene_closure (simpleNFA 'a'))) ∧
    EpsCycle (plus_closure (kleene_closure (simpleNFA 'a'))) :=
  have h := e_closure_and_compute_terminate (kleene_closure (kleene_closure (simpleNFA 'a')))
    "p_i0" ["p_ip_i0"] ['a']
  have hc := h.2.2 (kleene_closure (simpleNFA 'a'))
    (ThompsonBuilt.simple 'a' (by decide)).kleene (by decide)
  ⟨h.1, (ThompsonBuilt.simple 'a' (by decide)).kleene, by decide, hc.1, hc.2⟩

end NFA

/-! ## Input after the first `'\0'`, and lookups that write -/

namespace NFA

theorem takeWhile_append_NUL (l rest : List Char) (h : ∀ c ∈ l, c ≠ NUL) :
    (l ++ NUL :: rest).takeWhile (fun c => c ≠ NUL) = l := by
  induction l with
  | nil => simp [List.takeWhile]
  | cons a l ih =>
    have ha : a ≠ NUL := h a (List.mem_cons_self _ _)
    simp only [List.cons_append, List.takeWhile_cons, ha, ne_eq, not_false_eq_true,
      decide_True, if_true, List.cons.injEq, true_and]
    exact ih (fun c hc => h c (List.mem_cons_of_mem _ hc))

theorem accept_congr (N : NFA) {a b : String} (h : c_str a = c_str b) :
    accept N a = accept N b := by
  unfold accept
  rw [h]

theorem c_str_append_NUL (u v : String) (hu : NulFree u) :
    c_str (u ++ String.singleton NUL ++ v) = c_str u := by
  have hdata : (u ++ String.singleton NUL ++ v).data = u.data ++ NUL :: v.data := by
    simp [String.data_append, String.singleton]
  rw [c_str_eq_data hu]
  unfold c_str
  rw [hdata, takeWhile_append_NUL _ _ hu]

/-- C21: for every NFA `N`, every string `u` without `'\0'` and every string
`v`, `N.accept(u + '\0' + v)` equals `N.accept(u)`: `strcpy` copies the input
only up to its first `'\0'`. -/
theorem accept_stops_at_NUL (N : NFA) (u v : String) (hu : NulFree u) :
    accept N (u ++ String.singleton NUL ++ v) = accept N u :=
  accept_congr N (c_str_append_NUL u v hu)

theorem accept_stops_at_NUL_witness :
    NulFree "a" ∧
      accept (simpleNFA 'a') ("a" ++ String.singleton NUL ++ "bc") = accept (simpleNFA 'a') "a" ∧
      accept (simpleNFA 'a') "a" = true :=
  ⟨by decide, accept_stops_at_NUL (simpleNFA 'a') "a" "bc" (by decide), by decide⟩

end NFA

theorem map_at_eq_none_iff {κ ν : Type} [DecidableEq κ] (m : List (κ × ν)) (key : κ) :
    map_at m key = none ↔ key ∉ m.map Prod.fst := by
  induction m with
  | nil => simp [map_at]
  | cons a m ih =>
    obtain ⟨k, v⟩ := a
    simp only [map_at, List.map_cons, List.mem_cons, not_or]
    by_cases hk : k = key
    · simp [hk]
    · simp only [if_neg hk, ih]
      exact ⟨fun h => ⟨fun e => hk e.symm, h⟩, fun h => h.2⟩

theorem map_at_append_single {κ ν : Type} [DecidableEq κ] (m : List (κ × ν)) (k key : κ)
    (v : ν) (h : map_at m k = none) :
    map_at (m ++ [(k, v)]) key = if k = key then some v else map_at m key := by
  induction m with
  | nil => simp [map_at]
  | cons a m ih =>
    obtain ⟨k0, w⟩ := a
    simp only [map_at] at h
    by_cases h0 : k0 = k
    · rw [if_pos h0] at h
      cases h
    · rw [if_neg h0] at h
      simp only [List.cons_append, map_at]
      by_cases h1 : k0 = key
      · have : ¬ k = key := fun e => h0 (h1.trans e.symm)
        simp [h1, this]
      · rw [if_neg h1, if_neg h1]
        exact ih h

theorem map_subscript_miss {κ ν : Type} [DecidableEq κ] (m : List (κ × ν)) (key : κ) (dflt : ν)
    (h : map_at m key = none) :
    map_subscript m key dflt = (m ++ [(key, dflt)], dflt) := by
  unfold map_subscript
  rw [h]

theorem map_subscript_hit {κ ν : Type} [DecidableEq κ] (m : List (κ × ν)) (key : κ) (dflt : ν)
    {v : ν} (h : map_at m key = some v) : map_subscript m key dflt = (m, v) := by
  unfold map_subscript
  rw [h]

namespace Bimap

/-- The non-const lookup of an index that is not stored: the default rule is
returned and stored under the index, the rule map grows by one entry, the
index map and all other entries stay. -/
theorem subscript_index_miss (b : Bimap) (i : Int) (hi : i ∉ b.rule_getter.map Prod.fst) :
    (b.subscript_index i).2 = ("", []) ∧
    (b.subscript_index i).1.rule_getter = b.rule_getter ++ [(i, ("", []))] ∧
    (b.subscript_index i).1.index_getter = b.index_getter ∧
    (∀ j, (b.subscript_index i).1.at_index j =
      if i = j then some ("", []) else b.at_index j) := by
  have hnone : map_at b.rule_getter i = none := (map_at_eq_none_iff _ _).2 hi
  have h0 : b.subscript_index i =
      ({ b with rule_getter := b.rule_getter ++ [(i, ("", []))] }, ("", [])) := by
    unfold subscript_index
    rw [map_subscript_miss _ _ _ hnone]
  rw [h0]
  refine ⟨rfl, rfl, rfl, ?_⟩
  intro j
  exact map_at_append_single _ _ _ _ hnone

/-- The non-const lookup of a rule that is not stored: 0 is returned and
stored under the rule, the rule map (and with it `size()`) stays. -/
theorem subscript_rule_miss (b : Bimap) (r : Rule) (hr : r ∉ b.index_getter.map Prod.fst) :
    (b.subscript_rule r).2 = 0 ∧
    (b.subscript_rule r).1.index_getter = b.index_getter ++ [(r, 0)] ∧
    (b.subscript_rule r).1.rule_getter = b.rule_getter ∧
    (∀ x, (b.subscript_rule r).1.at_rule x = if r = x then some 0 else b.at_rule x) := by
  have hnone : map_at b.index_getter r = none := (map_at_eq_none_iff _ _).2 hr
  have h0 : b.subscript_rule r =
      ({ b with index_getter := b.index_getter ++ [(r, 0)] }, 0) := by
    unfold subscript_rule
    rw [map_subscript_miss _ _ _ hnone]
  rw [h0]
  refine ⟨rfl, rfl, rfl, ?_⟩
  intro x
  exact map_at_append_single _ _ _ _ hnone

theorem subscript_index_hit (b : Bimap) (j : Int) (rj : Rule) (h : b.at_index j = some rj) :
    b.subscript_index j = (b, rj) := by
  unfold subscript_index
  rw [map_subscript_hit _ _ _ h]

theorem subscript_rule_hit (b : Bimap) (r : Rule) (k : Int) (h : b.at_rule r = some k) :
    b.subscript_rule r = (b, k) := by
  unfold subscript_rule
  rw [map_subscript_hit _ _ _ h]

end Bimap

/-- C22: for every `Bimap` `b`.  For every index `i` that is not stored, the
non-const `operator[](int)` returns the default rule (empty left-hand side,
empty right-hand side) and stores it under `i`, so `rule_getter` has one entry
more and `size()` grows by one (as long as the new size is an `int`) while
`index_getter` is unchanged, and the const overload fails on `i`.  For every
rule `r` that is not stored, the non-const `operator[](rule)` returns 0 and
stores `r` under 0, leaving `rule_getter` alone, and the const overload fails
on `r`.  For every index and every rule that is stored, the non-const overload
returns the stored value and leaves the `Bimap` unchanged (the const overloads
cannot change it). -/
theorem bimap_subscript_effects (b : Bimap) :
    (∀ i : Int, i ∉ b.rule_getter.map Prod.fst →
      (b.subscript_index i).2 = ("", []) ∧
      (b.subscript_index i).1.at_index i = some ("", []) ∧
      (b.subscript_index i).1.rule_getter.length = b.rule_getter.length + 1 ∧
      (b.rule_getter.length + 1 < 2 ^ 31 → (b.subscript_index i).1.size = b.size + 1) ∧
      (b.subscript_index i).1.index_getter = b.index_getter ∧
      b.at_index i = none) ∧
    (∀ r : Rule, r ∉ b.index_getter.map Prod.fst →
      (b.subscript_rule r).2 = 0 ∧
      (b.subscript_rule r).1.at_rule r = some 0 ∧
      (b.subscript_rule r).1.rule_getter = b.rule_getter ∧
      b.at_rule r = none) ∧
    (∀ (j : Int) (rj : Rule), b.at_index j = some rj → b.subscript_index j = (b, rj)) ∧
    (∀ (q : Rule) (k : Int), b.at_rule q = some k → b.subscript_rule q = (b, k)) := by
  refine ⟨?_, ?_, fun j rj hj => Bimap.subscript_index_hit b j rj hj,
    fun q k hq => Bimap.subscript_rule_hit b q k hq⟩
  · intro i hi
    obtain ⟨a1, a2, a3, a4⟩ := Bimap.subscript_index_miss b i hi
    refine ⟨a1, ?_, ?_, ?_, a3, (map_at_eq_none_iff _ _).2 hi⟩
    · rw [a4, if_pos rfl]
    · rw [a2, List.length_append, List.length_singleton]
    · intro hsize
      unfold Bimap.size
      rw [a2, List.length_append, List.length_singleton, to_int_of_lt hsize,
        to_int_of_lt (by omega)]
      push_cast
      rfl
  · intro r hr
    obtain ⟨b1, -, b3, b4⟩ := Bimap.subscript_rule_miss b r hr
    refine ⟨b1, ?_, b3, (map_at_eq_none_iff _ _).2 hr⟩
    rw [b4, if_pos rfl]

theorem bimap_subscript_effects_witness :
    ((Bimap.empty.subscript_index 7).2 = ("", []) ∧
      (Bimap.empty.subscript_index 7).1.at_index 7 = some ("", []) ∧
      (Bimap.empty.subscript_index 7).1.size = Bimap.empty.size + 1 ∧
      Bimap.empty.at_index 7 = none) ∧
    ((Bimap.empty.subscript_rule ("T", [])).2 = 0 ∧
      (Bimap.empty.subscript_rule ("T", [])).1.at_rule ("T", []) = some 0) ∧
    Bimap.one_rule.subscript_index 0 = (Bimap.one_rule, ("S", ["a", "S"])) ∧
    Bimap.one_rule.subscript_rule ("S", ["a", "S"]) = (Bimap.one_rule, 0) :=
  have h := (bimap_subscript_effects Bimap.empty).1 7 (by decide)
  have h2 := (bimap_subscript_effects Bimap.empty).2.1 ("T", []) (by decide)
  ⟨⟨h.1, h.2.1, h.2.2.2.1 (by decide), h.2.2.2.2.2⟩, ⟨h2.1, h2.2.1⟩,
    (bimap_subscript_effects Bimap.one_rule).2.2.1 0 ("S", ["a", "S"]) (by decide),
    (bimap_subscript_effects Bimap.one_rule).2.2.2 ("S", ["a", "S"]) 0 (by decide)⟩

end LexicalAnalyzer
